import Mathlib

/-!
# Maze engine: grid state, generators and solvers

A shallow embedding of `Maze/src/MazeModel.cpp` and `Maze/include/MazeNode.h`.

* The cell array `maze` is a function from integer coordinates to cell elements; an
  assignment `maze[y][x] = e` is `Grid.set`, and the cells of the array are the coordinates
  that satisfy `is_in_maze`.  The source indexes the array at coordinates it has tested with
  `inMaze` or `is_in_maze`, and at the constant coordinates Begin, End, `(1, 0)` and
  `(BEGIN_Y, BEGIN_Y)`; where such a constant is not a cell of the array the access of the
  source is undefined, and the function is read and updated at that coordinate.
* The constants of `MazeModel.h` (dimensions, Begin and End coordinates) are parameters,
  collected in `Config`.
* Pseudo-random draws (`std::mt19937`, `std::shuffle`, `std::uniform_int_distribution`)
  read an arbitrary stream `rnd : Nat → Nat`; every theorem quantifies over the stream.
* `std::priority_queue` is a list of pending nodes; which node of least priority is on top
  is settled by an arbitrary stream `tie : Nat → Nat`.
* Loops that the source does not bound take a fuel argument and return `none` when it
  runs out.  A division of the source by zero yields no result either: the operation that
  holds it is `none`.
* `int32_t` values are integers; the arithmetic of the source is assumed to stay inside
  the 32-bit range (signed overflow is undefined in C++).  Integer division of the source
  is `Int.tdiv`; the divisions of `solveMazeUCS` by `MAZE_HEIGHT / 10` and `MAZE_WIDTH / 10`
  are guarded against a zero divisor, as said above.
-/

namespace Maze

/-! ## Data model -/

/-- Cell contents, `enum class MazeElement` of `MazeNode.h`. -/
inductive MazeElement
  | INVALID
  | WALL
  | GROUND
  | EXPLORED
  | BEGIN
  | END
  deriving DecidableEq, Repr

open MazeElement

/-- One frame event, `struct MazeNode` of `MazeNode.h`. -/
structure MazeNode where
  y : Int
  x : Int
  element : MazeElement
  deriving DecidableEq, Repr

/-- Modelled from the spec: the enumeration `MazeAction` is declared in `MazeModel.h`, which
is not among the sources.  The four enumerators that `MazeModel.cpp` names are kept; every
other selector value is `OTHER k`. -/
inductive MazeAction
  | S_UCS_MANHATTAN
  | S_UCS_TWO_NORM
  | S_UCS_INTERVAL
  | S_ASTAR_INTERVAL
  | OTHER (k : Nat)
  deriving DecidableEq, Repr

/-- Modelled from the spec: the constants `MAZE_HEIGHT`, `MAZE_WIDTH`, `BEGIN_Y`, `BEGIN_X`,
`END_Y`, `END_X` are declared in `MazeModel.h`, which is not among the sources; they are
parameters of every operation. -/
structure Config where
  MAZE_HEIGHT : Int
  MAZE_WIDTH : Int
  BEGIN_Y : Int
  BEGIN_X : Int
  END_Y : Int
  END_X : Int
  deriving DecidableEq, Repr

/-- The cell array `maze`. -/
abbrev Grid := Int → Int → MazeElement

/-- The assignment `maze[y][x] = e`. -/
def Grid.set (g : Grid) (y x : Int) (e : MazeElement) : Grid :=
  fun y' x' => if y' = y ∧ x' = x then e else g y' x'

/-- Modelled from the spec: `dir_vec` is declared in `MazeModel.h`, which is not among the
sources: the four unit offsets, in the order the comments of the source give (up, down, left,
right). -/
def dir_vec : List (Int × Int) := [(-1, 0), (1, 0), (0, -1), (0, 1)]

/-- The engine state: the cell array, and what the controller has received. Modelled from the
spec: `MazeController` is not among the sources; `enFramequeue` appends one event to an
ordered log and `setFrameMaze` stores a snapshot of the grid. -/
structure MazeModel where
  maze : Grid
  frame_queue : List MazeNode
  frame_maze : Grid

/-- The constructor `MazeModel::MazeModel`: every cell Ground, nothing sent to the controller. -/
def MazeModel.init : MazeModel := ⟨fun _ _ => GROUND, [], fun _ _ => GROUND⟩

/-- The call `controller_ptr->enFramequeue(y, x, e)`. -/
def MazeModel.enFramequeue (m : MazeModel) (y x : Int) (e : MazeElement) : MazeModel :=
  { m with frame_queue := m.frame_queue ++ [⟨y, x, e⟩] }

/-- The assignment `maze[y][x] = e` on the engine state. -/
def MazeModel.setCell (m : MazeModel) (y x : Int) (e : MazeElement) : MazeModel :=
  { m with maze := m.maze.set y x e }

/-! ## Private utility functions -/

/-- The method `inMaze`: the offset coordinate lies strictly inside the border ring. -/
def inMaze (c : Config) (y x delta_y delta_x : Int) : Prop :=
  y + delta_y < c.MAZE_HEIGHT - 1 ∧ x + delta_x < c.MAZE_WIDTH - 1 ∧ y + delta_y > 0 ∧
    x + delta_x > 0

instance (c : Config) (y x delta_y delta_x : Int) : Decidable (inMaze c y x delta_y delta_x) := by
  unfold inMaze; infer_instance

/-- The method `is_in_maze`: the coordinate is an index of the array. -/
def is_in_maze (c : Config) (y x : Int) : Prop :=
  y < c.MAZE_HEIGHT ∧ x < c.MAZE_WIDTH ∧ y ≥ 0 ∧ x ≥ 0

instance (c : Config) (y x : Int) : Decidable (is_in_maze c y x) := by
  unfold is_in_maze; infer_instance

/-- The method `pow_two_norm`: squared Euclidean distance to End. -/
def pow_two_norm (c : Config) (y x : Int) : Int :=
  (c.END_Y - y) ^ 2 + (c.END_X - x) ^ 2

/-- The function `abs` of the C library on `int`. -/
def abs (a : Int) : Int := if a < 0 then -a else a

/-- The method `setFlag`: stamp Begin and End, queue their events and the sentinel. -/
def setFlag (c : Config) (m : MazeModel) : MazeModel :=
  (((((m.setCell c.BEGIN_Y c.BEGIN_X BEGIN).setCell c.END_Y c.END_X END).enFramequeue
    c.BEGIN_Y c.BEGIN_X BEGIN).enFramequeue c.END_Y c.END_X END).enFramequeue (-1) (-1) INVALID)

/-- A draw of `std::uniform_int_distribution<>(a, b)` from the raw value `r`. -/
def uniform (a b : Int) (r : Nat) : Int := a + (r : Int) % (b - a + 1)

/-- A run of `std::shuffle` on `l`: the raw value `r` selects one of the orderings of `l`. -/
def shuffle (l : List Nat) (r : Nat) : List Nat :=
  l.permutations.getD (r % l.permutations.length) l

/-- The method `setBeginPoint`: a random cell with odd coordinates becomes Explored. Returns the
seed, the next position of the random stream and the state. -/
def setBeginPoint (c : Config) (rnd : Nat → Nat) (pos : Nat) (m : MazeModel) :
    Int × Int × Nat × MazeModel :=
  let seed_y := 2 * uniform 0 ((c.MAZE_HEIGHT - 3).tdiv 2) (rnd pos) + 1
  let seed_x := 2 * uniform 0 ((c.MAZE_WIDTH - 3).tdiv 2) (rnd (pos + 1)) + 1
  (seed_y, seed_x, pos + 2, (m.setCell seed_y seed_x EXPLORED).enFramequeue seed_y seed_x EXPLORED)

/-! ## Grid reset -/

/-- The body of the two loops of `resetMaze` at `(y, x)`. -/
def resetCell (c : Config) (g : Grid) (y x : Int) : Grid :=
  if y = 0 ∨ y = c.MAZE_HEIGHT - 1 ∨ x = 0 ∨ x = c.MAZE_WIDTH - 1 then g.set y x WALL
  else if x % 2 = 1 ∧ y % 2 = 1 then g.set y x GROUND
  else g.set y x WALL

/-- The loops of `resetMaze` over the array. -/
def resetGrid (c : Config) (g : Grid) : Grid :=
  (List.range c.MAZE_HEIGHT.toNat).foldl
    (fun g1 (y : Nat) =>
      (List.range c.MAZE_WIDTH.toNat).foldl (fun g2 (x : Nat) => resetCell c g2 y x) g1) g

/-- The method `resetMaze`. -/
def resetMaze (c : Config) (m : MazeModel) : MazeModel :=
  let g := resetGrid c m.maze
  { m with maze := g, frame_maze := g }

/-! ## Generators -/

/-- State of the candidate loop of `generateMazePrim`. -/
structure PrimState where
  m : MazeModel
  explored_cache : List (Int × Int)
  candidate_list : List (Int × Int)
  direction_order : List Nat
  pos : Nat

/-- The first `for` loop of `generateMazePrim`: the in-maze neighbours of the seed, in the
order of `direction_order`, are appended to the candidate list. -/
def seedCandidates (c : Config) (seed_y seed_x : Int) (order : List Nat)
    (cl : List (Int × Int)) : List (Int × Int) :=
  order.foldl (fun l index =>
    let d := dir_vec.getD index (0, 0)
    if inMaze c seed_y seed_x d.1 d.2 then l ++ [(seed_y + d.1, seed_x + d.2)] else l) cl

/-- The inner `for` loop of `generateMazePrim`: the in-maze neighbours of the new cell that
are Wall are appended to the candidate list. -/
def wallCandidates (c : Config) (g : Grid) (temp_y temp_x : Int) (order : List Nat)
    (cl : List (Int × Int)) : List (Int × Int) :=
  order.foldl (fun l index =>
    let d := dir_vec.getD index (0, 0)
    if inMaze c temp_y temp_x d.1 d.2 ∧ g (temp_y + d.1) (temp_x + d.2) = WALL then
      l ++ [(temp_y + d.1, temp_x + d.2)]
    else l) cl

/-- The probe of a neighbour in `generateMazePrim`: `INVALID` unless the neighbour is inside
the border ring. -/
def probe (c : Config) (g : Grid) (y x dy dx : Int) : MazeElement :=
  if inMaze c y x dy dx then g (y + dy) (x + dx) else INVALID

/-- The cell that the `if / else if` chain of `generateMazePrim` moves to from the carved
wall `(temp_y, temp_x)`. -/
def primMove (up_node down_node left_node right_node : MazeElement) (temp_y temp_x : Int) :
    Int × Int :=
  if up_node = EXPLORED ∧ down_node = GROUND then (temp_y + 1, temp_x)
  else if up_node = GROUND ∧ down_node = EXPLORED then (temp_y - 1, temp_x)
  else if left_node = EXPLORED ∧ right_node = GROUND then (temp_y, temp_x + 1)
  else if left_node = GROUND ∧ right_node = EXPLORED then (temp_y, temp_x - 1)
  else (temp_y, temp_x)

/-- One iteration of the `while (!candidate_list.empty())` loop of `generateMazePrim`. -/
def primStep (c : Config) (rnd : Nat → Nat) (s : PrimState) : PrimState :=
  let random_index := (uniform 0 ((s.candidate_list.length : Int) - 1) (rnd s.pos)).toNat
  let temp := s.candidate_list.getD random_index (0, 0)
  let temp_y := temp.1
  let temp_x := temp.2
  if s.m.maze temp_y temp_x = WALL then
    let up_node := probe c s.m.maze temp_y temp_x (-1) 0
    let down_node := probe c s.m.maze temp_y temp_x 1 0
    let left_node := probe c s.m.maze temp_y temp_x 0 (-1)
    let right_node := probe c s.m.maze temp_y temp_x 0 1
    if (up_node = EXPLORED ∧ down_node = EXPLORED) ∨
        (left_node = EXPLORED ∧ right_node = EXPLORED) then
      { s with candidate_list := s.candidate_list.eraseIdx random_index, pos := s.pos + 1 }
    else
      let m1 := (s.m.setCell temp_y temp_x EXPLORED).enFramequeue temp_y temp_x EXPLORED
      let cache1 := s.explored_cache ++ [(temp_y, temp_x)]
      let cl1 := s.candidate_list.eraseIdx random_index
      let t := primMove up_node down_node left_node right_node temp_y temp_x
      let m2 := m1.setCell t.1 t.2 EXPLORED
      let cache2 := cache1 ++ [(t.1, t.2)]
      let order := shuffle s.direction_order (rnd (s.pos + 1))
      let cl2 := wallCandidates c m2.maze t.1 t.2 order cl1
      { m := m2.enFramequeue t.1 t.2 EXPLORED, explored_cache := cache2, candidate_list := cl2,
        direction_order := order, pos := s.pos + 2 }
  else
    { s with pos := s.pos + 1 }

/-- The `while (!candidate_list.empty())` loop of `generateMazePrim`; `none` when the fuel
runs out before the list is empty. -/
def primLoop (c : Config) (rnd : Nat → Nat) : Nat → PrimState → Option PrimState
  | 0, s => if s.candidate_list = [] then some s else none
  | fuel + 1, s =>
    if s.candidate_list = [] then some s else primLoop c rnd fuel (primStep c rnd s)

/-- The final `for` loop of `generateMazePrim`: every cached cell becomes Ground again. -/
def revertPrim (m : MazeModel) (cache : List (Int × Int)) : MazeModel :=
  cache.foldl (fun m1 p => (m1.setCell p.1 p.2 GROUND).enFramequeue p.1 p.2 GROUND) m

/-- The state of `generateMazePrim` on entry to its `while` loop. -/
def primInit (c : Config) (rnd : Nat → Nat) (m : MazeModel) : PrimState :=
  let m0 := resetMaze c m
  let sb := setBeginPoint c rnd 0 m0
  let seed_y := sb.1
  let seed_x := sb.2.1
  let order := shuffle [0, 1, 2, 3] (rnd sb.2.2.1)
  { m := sb.2.2.2, explored_cache := [(seed_y, seed_x)],
    candidate_list := seedCandidates c seed_y seed_x order [],
    direction_order := order, pos := sb.2.2.1 + 1 }

/-- The method `generateMazePrim`. -/
def generateMazePrim (c : Config) (rnd : Nat → Nat) (fuel : Nat) (m : MazeModel) :
    Option MazeModel :=
  match primLoop c rnd fuel (primInit c rnd m) with
  | none => none
  | some s => some (setFlag c (revertPrim s.m s.explored_cache))

/-- The `while (!candidate_list.empty())` loop of `generateMazeRecursionBacktracker`; the
candidate stack is a list whose head is the top, the cache stack likewise. -/
def backtrackerLoop (current_point : Int × Int) :
    List (Int × Int) → Grid → List (Int × Int) → Grid × List (Int × Int)
  | [], g, cache => (g, cache)
  | temp_point :: rest, g, cache =>
    if g temp_point.1 temp_point.2 = GROUND then
      let dir_y := (temp_point.1 - current_point.1).tdiv 2
      let dir_x := (temp_point.2 - current_point.2).tdiv 2
      let g1 := g.set (current_point.1 + dir_y) (current_point.2 + dir_x) EXPLORED
      let g2 := g1.set temp_point.1 temp_point.2 EXPLORED
      backtrackerLoop current_point rest g2 (temp_point :: current_point :: cache)
    else backtrackerLoop current_point rest g cache

/-- The first `for` loop of `generateMazeRecursionBacktracker`: the in-maze double-step
neighbours of the seed are pushed on the candidate stack. -/
def seedRooms (c : Config) (seed_y seed_x : Int) (order : List Nat)
    (st : List (Int × Int)) : List (Int × Int) :=
  order.foldl (fun l index =>
    let d := dir_vec.getD index (0, 0)
    if inMaze c seed_y seed_x (2 * d.1) (2 * d.2) then
      (seed_y + 2 * d.1, seed_x + 2 * d.2) :: l
    else l) st

/-- The `while (!explored_cache.empty())` loop of `generateMazeRecursionBacktracker`. -/
def revertBacktracker (m : MazeModel) : List (Int × Int) → MazeModel
  | [] => m
  | p :: rest => revertBacktracker ((m.setCell p.1 p.2 GROUND).enFramequeue p.1 p.2 GROUND) rest

/-- The method `generateMazeRecursionBacktracker`. -/
def generateMazeRecursionBacktracker (c : Config) (rnd : Nat → Nat) (m : MazeModel) :
    MazeModel :=
  let m0 := resetMaze c m
  let sb := setBeginPoint c rnd 0 m0
  let seed_y := sb.1
  let seed_x := sb.2.1
  let m1 := sb.2.2.2
  let order := shuffle [0, 1, 2, 3] (rnd sb.2.2.1)
  let candidate_list := seedRooms c seed_y seed_x order []
  let r := backtrackerLoop (seed_y, seed_x) candidate_list m1.maze [(seed_y, seed_x)]
  setFlag c (revertBacktracker { m1 with maze := r.1 } r.2)

/-- The two `while (true)` loops that close `generateMazeRecursionDivision`: each round draws
`path_index` from `[lo, hi]`; the loop has no exit. -/
def gapLoop (rnd : Nat → Nat) (lo hi : Int) : Nat → Nat → Option (Int × Nat)
  | 0, _ => none
  | fuel + 1, pos =>
    let _path_index := uniform lo hi (rnd pos)
    gapLoop rnd lo hi fuel (pos + 1)

/-- The loop `for (i = lx; i <= rx; ++i) maze[wall_index][i] = WALL`. -/
def wallRow (g : Grid) (wall_index lx rx : Int) : Grid :=
  (List.range (rx - lx + 1).toNat).foldl (fun g1 (i : Nat) => g1.set wall_index (lx + i) WALL) g

/-- The loop `for (i = uy; i <= dy; ++i) maze[i][wall_index] = WALL`. -/
def wallColumn (g : Grid) (wall_index uy dy : Int) : Grid :=
  (List.range (dy - uy + 1).toNat).foldl (fun g1 (i : Nat) => g1.set (uy + i) wall_index WALL) g

/-- The method `generateMazeRecursionDivision`; the state is the grid and the position of the
random stream. One unit of fuel is spent per call and per round of the closing loop. -/
def generateMazeRecursionDivision (c : Config) (rnd : Nat → Nat) :
    Nat → Grid × Nat → Int → Int → Int → Int → Option (Grid × Nat)
  | 0, _, _, _, _, _ => none
  | fuel + 1, s, uy, lx, dy, rx =>
    let width := rx - lx + 1
    let height := dy - uy + 1
    if width < 2 ∧ height < 2 then some s
    else if ¬ inMaze c uy lx (height - 1) (width - 1) then some s
    else
      let is_horizontal : Bool := decide (width ≤ height)
      if is_horizontal = true ∧ height - 2 > 0 then
        let wall_index := uniform (uy + 1) (uy + height - 2) (rnd s.2)
        let g1 := wallRow s.1 wall_index lx rx
        match generateMazeRecursionDivision c rnd fuel (g1, s.2 + 1) uy lx (wall_index - 1) rx with
        | none => none
        | some s1 =>
          match generateMazeRecursionDivision c rnd fuel s1 (wall_index + 1) lx dy rx with
          | none => none
          | some s2 =>
            match gapLoop rnd lx (lx + width - 1) fuel s2.2 with
            | none => none
            | some r => some (s2.1.set wall_index r.1 GROUND, r.2)
      else if is_horizontal = false ∧ width - 2 > 0 then
        let wall_index := uniform (lx + 1) (lx + width - 2) (rnd s.2)
        let g1 := wallColumn s.1 wall_index uy dy
        match generateMazeRecursionDivision c rnd fuel (g1, s.2 + 1) uy lx dy (wall_index - 1) with
        | none => none
        | some s1 =>
          match generateMazeRecursionDivision c rnd fuel s1 uy (wall_index + 1) dy rx with
          | none => none
          | some s2 =>
            match gapLoop rnd uy (uy + height - 1) fuel s2.2 with
            | none => none
            | some r => some (s2.1.set r.1 wall_index GROUND, r.2)
      else some s

/-! ## Solvers -/

/-- The `for` loop over `dir_vec` of `solveMazeDFS` at `(y, x)`; `self` is the recursive
call. -/
def dfsDirs (c : Config) (self : Grid → Int → Int → Option (Bool × Grid)) (y x : Int) :
    List (Int × Int) → Grid → Option (Bool × Grid)
  | [], g => some (false, g)
  | d :: ds, g =>
    let temp_y := y + d.1
    let temp_x := x + d.2
    if is_in_maze c temp_y temp_x ∧ g temp_y temp_x = GROUND then
      match self g temp_y temp_x with
      | none => none
      | some (true, g1) => some (true, g1)
      | some (false, g1) => dfsDirs c self y x ds g1
    else dfsDirs c self y x ds g

/-- The method `solveMazeDFS`; one unit of fuel is spent per call. -/
def solveMazeDFS (c : Config) : Nat → Grid → Int → Int → Option (Bool × Grid)
  | 0, _, _, _ => none
  | fuel + 1, g, y, x =>
    let g1 := (g.set 1 0 BEGIN).set y x EXPLORED
    if y = c.END_Y ∧ x = c.END_X then some (true, g1.set y x END)
    else dfsDirs c (solveMazeDFS c fuel) y x dir_vec g1

/-- Outcome of the `for` loop of `solveMazeBFS`: the method returned, or the loop ran through. -/
inductive BFSOutcome
  | returned (g : Grid)
  | next (g : Grid) (result : List (Int × Int))

/-- The `for` loop over `dir_vec` of `solveMazeBFS` at the dequeued cell; the queue `result`
is a list whose head is the front. -/
def bfsDirs (c : Config) (temp_y temp_x : Int) :
    List (Int × Int) → Grid → List (Int × Int) → BFSOutcome
  | [], g, result => BFSOutcome.next g result
  | dir :: ds, g, result =>
    let y := temp_y + dir.1
    let x := temp_x + dir.2
    if is_in_maze c y x ∧ g y x = GROUND then
      let g1 := g.set y x EXPLORED
      if y = c.END_Y ∧ x = c.END_X then BFSOutcome.returned (g1.set y x END)
      else bfsDirs c temp_y temp_x ds g1 (result ++ [(y, x)])
    else bfsDirs c temp_y temp_x ds g result

/-- The `while (!result.empty())` loop of `solveMazeBFS`; one unit of fuel per dequeued cell. -/
def bfsLoop (c : Config) : Nat → Grid → List (Int × Int) → Option Grid
  | _, g, [] => some g
  | 0, _, _ :: _ => none
  | fuel + 1, g, temp :: rest =>
    match bfsDirs c temp.1 temp.2 dir_vec g rest with
    | BFSOutcome.returned g1 => some g1
    | BFSOutcome.next g1 result => bfsLoop c fuel g1 result

/-- The method `solveMazeBFS`. -/
def solveMazeBFS (c : Config) (fuel : Nat) (g : Grid) : Option Grid :=
  bfsLoop c fuel (g.set c.BEGIN_Y c.BEGIN_X BEGIN) [(c.BEGIN_Y, c.BEGIN_X)]

/-- The positions of a priority queue that hold a least priority: `top()` of
`std::priority_queue<Node, std::vector<Node>, std::greater<Node>>` is one of them. -/
def minPositions {α : Type} (w : α → Int) (q : List α) : List Nat :=
  (List.range q.length).filter (fun i =>
    match q.get? i with
    | some a => q.all (fun b => decide (w a ≤ w b))
    | none => false)

/-- The position that `top()` reads and `pop()` removes. Which node of least priority the heap
holds on top is left to the library: the raw value `t` selects it. -/
def topIndex {α : Type} (w : α → Int) (q : List α) (t : Nat) : Nat :=
  (minPositions w q).getD (t % (minPositions w q).length) 0

/-- The local `struct Node` of `solveMazeUCS` and `solveMazeGreedy`. -/
structure Node where
  __Weight : Int
  y : Int
  x : Int
  deriving DecidableEq, Repr

/-- The `switch (actions)` of `solveMazeUCS` at `(y, x)`: the new value of the local `weight`;
no case matches a selector that is not one of the three UCS values, and `weight` is kept. The
interval case divides by `MAZE_HEIGHT / 10` and by `MAZE_WIDTH / 10`: `none` when one of them
is zero. -/
def ucsWeight (c : Config) (actions : MazeAction) (weight y x : Int) : Option Int :=
  match actions with
  | MazeAction.S_UCS_MANHATTAN => some (abs (c.END_X - x) + abs (c.END_Y - y))
  | MazeAction.S_UCS_TWO_NORM => some (pow_two_norm c y x)
  | MazeAction.S_UCS_INTERVAL =>
    let interval_y := c.MAZE_HEIGHT.tdiv 10
    let interval_x := c.MAZE_WIDTH.tdiv 10
    if interval_y = 0 ∨ interval_x = 0 then none
    else if y.tdiv interval_y < x.tdiv interval_x then some (10 - y.tdiv interval_y)
    else some (10 - x.tdiv interval_x)
  | _ => some weight

/-- The `for` loop over `dir_vec` of `solveMazeUCS` at the popped node `temp`; the state is
the queue and the local `weight`; `none` when a weight divides by zero. -/
def ucsDirs (c : Config) (actions : MazeAction) (g : Grid) (temp : Node) :
    List (Int × Int) → List Node × Int → Option (List Node × Int)
  | [], s => some s
  | dir :: ds, s =>
    let y := temp.y + dir.1
    let x := temp.x + dir.2
    if is_in_maze c y x ∧ g y x = GROUND then
      match ucsWeight c actions s.2 y x with
      | none => none
      | some weight =>
        ucsDirs c actions g temp ds (s.1 ++ [⟨temp.__Weight + weight, y, x⟩], weight)
    else ucsDirs c actions g temp ds s

/-- The mark that the three priority-queue solvers put on an expanded Ground cell. -/
def markExpanded (c : Config) (g : Grid) (y x : Int) : Grid :=
  if y = c.BEGIN_Y ∧ x = c.BEGIN_X then g.set y x BEGIN else g.set y x EXPLORED

/-- The `while (true)` loop of `solveMazeUCS`; `tie` is the stream that settles which least
node is on top, `pos` its next position. One unit of fuel per popped node. -/
def ucsLoop (c : Config) (actions : MazeAction) (tie : Nat → Nat) :
    Nat → Grid → List Node → Int → Nat → Option Grid
  | _, g, [], _, _ => some g
  | 0, _, _ :: _, _, _ => none
  | fuel + 1, g, n :: ns, weight, pos =>
    let i := topIndex Node.__Weight (n :: ns) (tie pos)
    let temp := (n :: ns).getD i n
    let result := (n :: ns).eraseIdx i
    if temp.y = c.END_Y ∧ temp.x = c.END_X then some (g.set temp.y temp.x END)
    else if g temp.y temp.x = GROUND then
      let g1 := markExpanded c g temp.y temp.x
      match ucsDirs c actions g1 temp dir_vec (result, weight) with
      | none => none
      | some s => ucsLoop c actions tie fuel g1 s.1 s.2 (pos + 1)
    else ucsLoop c actions tie fuel g result weight (pos + 1)

/-- The opening `switch (actions)` of `solveMazeUCS`: the value of the local `weight` when the
first node is built, `0` for a selector that is not one of the three UCS values; `none` when
the interval case divides by zero. -/
def ucsStart (c : Config) (actions : MazeAction) : Option Int :=
  match actions with
  | MazeAction.S_UCS_MANHATTAN => some (abs (c.END_X - c.BEGIN_X) + abs (c.END_Y - c.BEGIN_Y))
  | MazeAction.S_UCS_TWO_NORM => some (pow_two_norm c c.BEGIN_Y c.BEGIN_X)
  | MazeAction.S_UCS_INTERVAL =>
    let interval_y := c.MAZE_HEIGHT.tdiv 10
    let interval_x := c.MAZE_WIDTH.tdiv 10
    if interval_y = 0 ∨ interval_x = 0 then none
    else if c.BEGIN_Y.tdiv interval_y < c.BEGIN_X.tdiv interval_x then
      some (10 - c.BEGIN_Y.tdiv interval_y)
    else some (10 - c.BEGIN_X.tdiv interval_x)
  | _ => some 0

/-- The method `solveMazeUCS`. The first node is built from `(BEGIN_Y, BEGIN_Y)`, as in the
source. -/
def solveMazeUCS (c : Config) (actions : MazeAction) (tie : Nat → Nat) (fuel : Nat)
    (g : Grid) : Option Grid :=
  match ucsStart c actions with
  | none => none
  | some weight => ucsLoop c actions tie fuel g [⟨weight, c.BEGIN_Y, c.BEGIN_Y⟩] weight 0

/-- The `for` loop over `dir_vec` of `solveMazeGreedy` at the popped node `temp`. -/
def greedyDirs (c : Config) (g : Grid) (temp : Node) :
    List (Int × Int) → List Node → List Node
  | [], result => result
  | dir :: ds, result =>
    let y := temp.y + dir.1
    let x := temp.x + dir.2
    if is_in_maze c y x ∧ g y x = GROUND then
      greedyDirs c g temp ds (result ++ [⟨pow_two_norm c y x, y, x⟩])
    else greedyDirs c g temp ds result

/-- The `while (true)` loop of `solveMazeGreedy`. -/
def greedyLoop (c : Config) (tie : Nat → Nat) : Nat → Grid → List Node → Nat → Option Grid
  | _, g, [], _ => some g
  | 0, _, _ :: _, _ => none
  | fuel + 1, g, n :: ns, pos =>
    let i := topIndex Node.__Weight (n :: ns) (tie pos)
    let temp := (n :: ns).getD i n
    let result := (n :: ns).eraseIdx i
    if temp.y = c.END_Y ∧ temp.x = c.END_X then some (g.set temp.y temp.x END)
    else if g temp.y temp.x = GROUND then
      let g1 := markExpanded c g temp.y temp.x
      greedyLoop c tie fuel g1 (greedyDirs c g1 temp dir_vec result) (pos + 1)
    else greedyLoop c tie fuel g result (pos + 1)

/-- The method `solveMazeGreedy`. -/
def solveMazeGreedy (c : Config) (tie : Nat → Nat) (fuel : Nat) (g : Grid) : Option Grid :=
  greedyLoop c tie fuel g [⟨pow_two_norm c c.BEGIN_Y c.BEGIN_X, c.BEGIN_Y, c.BEGIN_X⟩] 0

/-- The local `struct Node` of `solveMazeAStar`. -/
structure AStarNode where
  __Cost : Int
  __Weight : Int
  y : Int
  x : Int
  deriving DecidableEq, Repr

/-- The `if / else if` of `solveMazeAStar` that sets the locals `cost` and `weight` for the
neighbour `(y, x)` of the popped node: both conditions test `S_ASTAR_INTERVAL`, so the second
branch is never taken, and for any other selector the locals keep their values. -/
def astarCostWeight (c : Config) (actions : MazeAction) (temp : AStarNode) (cost weight : Int)
    (y x : Int) : Int × Int :=
  let interval_y := c.MAZE_HEIGHT.tdiv 10
  let interval_x := c.MAZE_WIDTH.tdiv 10
  if actions = MazeAction.S_ASTAR_INTERVAL then
    (50, 50 + abs (c.END_X - x) + abs (c.END_Y - y))
  else if actions = MazeAction.S_ASTAR_INTERVAL then
    let cost1 :=
      if y.tdiv interval_y < x.tdiv interval_x then temp.__Cost + (10 - y.tdiv interval_y) * 8
      else temp.__Cost + (10 - x.tdiv interval_x) * 8
    (cost1, cost1 + pow_two_norm c y x)
  else (cost, weight)

/-- The `for` loop over `dir_vec` of `solveMazeAStar` at the popped node `temp`; the state is
the queue and the locals `cost` and `weight`. -/
def astarDirs (c : Config) (actions : MazeAction) (g : Grid) (temp : AStarNode) :
    List (Int × Int) → List AStarNode × Int × Int → List AStarNode × Int × Int
  | [], s => s
  | dir :: ds, s =>
    let y := temp.y + dir.1
    let x := temp.x + dir.2
    if is_in_maze c y x ∧ g y x = GROUND then
      let cw := astarCostWeight c actions temp s.2.1 s.2.2 y x
      astarDirs c actions g temp ds (s.1 ++ [⟨cw.1, cw.2, y, x⟩], cw.1, cw.2)
    else astarDirs c actions g temp ds s

/-- The `while (true)` loop of `solveMazeAStar`. -/
def astarLoop (c : Config) (actions : MazeAction) (tie : Nat → Nat) :
    Nat → Grid → List AStarNode → Int × Int → Nat → Option Grid
  | _, g, [], _, _ => some g
  | 0, _, _ :: _, _, _ => none
  | fuel + 1, g, n :: ns, cw, pos =>
    let i := topIndex AStarNode.__Weight (n :: ns) (tie pos)
    let temp := (n :: ns).getD i n
    let result := (n :: ns).eraseIdx i
    if temp.y = c.END_Y ∧ temp.x = c.END_X then some (g.set temp.y temp.x END)
    else if g temp.y temp.x = GROUND then
      let g1 := markExpanded c g temp.y temp.x
      let s := astarDirs c actions g1 temp dir_vec (result, cw)
      astarLoop c actions tie fuel g1 s.1 s.2 (pos + 1)
    else astarLoop c actions tie fuel g result cw (pos + 1)

/-- The locals `cost` and `weight` of `solveMazeAStar` when the first node is built. -/
def astarStart (c : Config) (actions : MazeAction) : Int × Int :=
  let interval_y := c.MAZE_HEIGHT.tdiv 10
  let interval_x := c.MAZE_WIDTH.tdiv 10
  if actions = MazeAction.S_ASTAR_INTERVAL then
    (50, 50 + abs (c.END_X - c.BEGIN_X) + abs (c.END_Y - c.BEGIN_Y))
  else if actions = MazeAction.S_ASTAR_INTERVAL then
    let cost1 :=
      if c.BEGIN_Y.tdiv interval_y < c.BEGIN_X.tdiv interval_x then
        (10 - c.BEGIN_Y.tdiv interval_y) * 8
      else (10 - c.BEGIN_X.tdiv interval_x) * 8
    (cost1, cost1 + pow_two_norm c c.BEGIN_Y c.BEGIN_X)
  else (0, 0)

/-- The method `solveMazeAStar`. -/
def solveMazeAStar (c : Config) (actions : MazeAction) (tie : Nat → Nat) (fuel : Nat)
    (g : Grid) : Option Grid :=
  let cw := astarStart c actions
  astarLoop c actions tie fuel g [⟨cw.1, cw.2, c.BEGIN_Y, c.BEGIN_X⟩] cw 0

/-! ## Vocabulary of the specification -/

/-- A cell of the array that is not Wall. -/
def passable (c : Config) (g : Grid) (p : Int × Int) : Prop :=
  is_in_maze c p.1 p.2 ∧ g p.1 p.2 ≠ WALL

/-- Orthogonally adjacent coordinates: they differ by one of the offsets of `dir_vec`. -/
def adjacent (p q : Int × Int) : Prop :=
  ∃ d ∈ dir_vec, q.1 = p.1 + d.1 ∧ q.2 = p.2 + d.2

/-- One step between orthogonally adjacent cells that are both not Wall. -/
def passableStep (c : Config) (g : Grid) (p q : Int × Int) : Prop :=
  passable c g p ∧ passable c g q ∧ adjacent p q

/-- The cells `p` and `q` are joined by a path of orthogonally adjacent non-Wall cells. -/
def joined (c : Config) (g : Grid) (p q : Int × Int) : Prop :=
  Relation.ReflTransGen (passableStep c g) p q

/-- The non-Wall cells of the grid contain a cycle: at least three distinct non-Wall cells
`f 0, f 1, ...`, each orthogonally adjacent to the next and the last to the first (the index
set `Fin (n + 3)` is cyclic). -/
def hasCycle (c : Config) (g : Grid) : Prop :=
  ∃ (n : Nat) (f : Fin (n + 3) → Int × Int), Function.Injective f ∧
    (∀ i, passable c g (f i)) ∧ ∀ i, adjacent (f i) (f (i + 1))

/-- Every cell that is Wall in `g0` is Wall in `g`. -/
def wallsKept (g0 g : Grid) : Prop := ∀ y x, g0 y x = WALL → g y x = WALL

/-- A cell on the outermost ring of the array. -/
def onBorder (c : Config) (y x : Int) : Prop :=
  is_in_maze c y x ∧ (y = 0 ∨ y = c.MAZE_HEIGHT - 1 ∨ x = 0 ∨ x = c.MAZE_WIDTH - 1)

/-- The score of the three uniform-cost weighting policies, in the words of the specification:
Manhattan distance to End, squared Euclidean distance to End, and ten minus the smaller of the
two interval indices (integer division). -/
def score (c : Config) (actions : MazeAction) (y x : Int) : Int :=
  match actions with
  | MazeAction.S_UCS_MANHATTAN => |c.END_X - x| + |c.END_Y - y|
  | MazeAction.S_UCS_TWO_NORM => (c.END_Y - y) ^ 2 + (c.END_X - x) ^ 2
  | MazeAction.S_UCS_INTERVAL => 10 - min (y / (c.MAZE_HEIGHT / 10)) (x / (c.MAZE_WIDTH / 10))
  | _ => 0

/-- One step onto an orthogonally adjacent Ground cell of the array. -/
def groundStep (c : Config) (g : Grid) (p q : Int × Int) : Prop :=
  adjacent p q ∧ is_in_maze c q.1 q.2 ∧ g q.1 q.2 = GROUND

/-- The cell `q` is reached from `p` by orthogonal steps, every cell after `p` being Ground. -/
def groundReach (c : Config) (g : Grid) (p q : Int × Int) : Prop :=
  Relation.ReflTransGen (groundStep c g) p q

/-- There is a walk of exactly `n` orthogonal steps from Begin to `q`, every cell after Begin
being a Ground cell of the array `g`. -/
def walkTo (c : Config) (g : Grid) : Nat → Int × Int → Prop
  | 0, q => q = (c.BEGIN_Y, c.BEGIN_X)
  | n + 1, q => is_in_maze c q.1 q.2 ∧ g q.1 q.2 = GROUND ∧
      ∃ d ∈ dir_vec, walkTo c g n (q.1 - d.1, q.2 - d.2)

/-- Deciding `walkTo` by searching the walks backwards. -/
def walkTo.dec (c : Config) (g : Grid) : (n : Nat) → (q : Int × Int) → Decidable (walkTo c g n q)
  | 0, q => inferInstanceAs (Decidable (q = (c.BEGIN_Y, c.BEGIN_X)))
  | n + 1, q =>
    have : ∀ q1, Decidable (walkTo c g n q1) := walkTo.dec c g n
    inferInstanceAs (Decidable (is_in_maze c q.1 q.2 ∧ g q.1 q.2 = GROUND ∧
      ∃ d ∈ dir_vec, walkTo c g n (q.1 - d.1, q.2 - d.2)))

instance (c : Config) (g : Grid) (n : Nat) (q : Int × Int) : Decidable (walkTo c g n q) :=
  walkTo.dec c g n q

/-- The cell `q` is at most `k` steps from Begin. -/
def within (c : Config) (g : Grid) (k : Nat) (q : Int × Int) : Prop :=
  ∃ m, m ≤ k ∧ walkTo c g m q

/-- The shortest-path distance of `q` from Begin is `d`. -/
def distIs (c : Config) (g : Grid) (d : Nat) (q : Int × Int) : Prop :=
  walkTo c g d q ∧ ∀ m, m < d → ¬ walkTo c g m q

instance (c : Config) (g : Grid) (d : Nat) (q : Int × Int) : Decidable (distIs c g d q) := by
  unfold distIs; infer_instance

/-- Odd height and odd width, both at least 3. -/
def OddDims (c : Config) : Prop :=
  3 ≤ c.MAZE_HEIGHT ∧ 3 ≤ c.MAZE_WIDTH ∧ c.MAZE_HEIGHT % 2 = 1 ∧ c.MAZE_WIDTH % 2 = 1

/-- The sentinel event `(-1, -1, INVALID)` that closes a stream of frame events. -/
def sentinel : MazeNode := ⟨-1, -1, INVALID⟩

/-- Applying frame events to a grid, in order: each event sets its cell to its element. -/
def replay (evs : List MazeNode) (g : Grid) : Grid :=
  evs.foldl (fun g1 e => g1.set e.y e.x e.element) g

/-- The reset pattern in the words of the specification: Ground on the cells strictly inside the
border ring whose row and column are both odd, Wall on every other cell. -/
def resetPattern (c : Config) (y x : Int) : MazeElement :=
  if 0 < y ∧ y < c.MAZE_HEIGHT - 1 ∧ 0 < x ∧ x < c.MAZE_WIDTH - 1 ∧ y % 2 = 1 ∧ x % 2 = 1 then
    GROUND
  else WALL

/-- The state of the candidate loop of `generateMazePrim` after `k` rounds from the state `s`;
`none` when the loop has ended before. -/
def primRounds (c : Config) (rnd : Nat → Nat) : Nat → PrimState → Option PrimState
  | 0, s => some s
  | k + 1, s => if s.candidate_list = [] then none else primRounds c rnd k (primStep c rnd s)

/-- The number of cells of the array whose row and column are both odd. -/
def oddCells (c : Config) : Nat :=
  ((Finset.Ico 0 c.MAZE_HEIGHT ×ˢ Finset.Ico 0 c.MAZE_WIDTH).filter
    (fun p => p.1 % 2 = 1 ∧ p.2 % 2 = 1)).card

/-- The state of the loop of `solveMazeUCS` on the grid `g0` at the head of round `k`: the
grid, the queue and the local `weight`; `none` when the method has returned before, or has
divided by zero. The body is the body of `ucsLoop`. -/
def ucsRounds (c : Config) (actions : MazeAction) (tie : Nat → Nat) (g0 : Grid) :
    Nat → Option (Grid × List Node × Int)
  | 0 =>
    match ucsStart c actions with
    | none => none
    | some weight => some (g0, [⟨weight, c.BEGIN_Y, c.BEGIN_Y⟩], weight)
  | k + 1 =>
    match ucsRounds c actions tie g0 k with
    | some (g, n :: ns, weight) =>
      let i := topIndex Node.__Weight (n :: ns) (tie k)
      let temp := (n :: ns).getD i n
      let result := (n :: ns).eraseIdx i
      if temp.y = c.END_Y ∧ temp.x = c.END_X then none
      else if g temp.y temp.x = GROUND then
        let g1 := markExpanded c g temp.y temp.x
        match ucsDirs c actions g1 temp dir_vec (result, weight) with
        | none => none
        | some s => some (g1, s.1, s.2)
      else some (g, result, weight)
    | _ => none

/-- The state of the loop of `solveMazeAStar` on the grid `g0` at the head of round `k`: the
grid, the queue and the locals `cost` and `weight`; `none` when the method has returned
before. The body is the body of `astarLoop`. -/
def astarRounds (c : Config) (actions : MazeAction) (tie : Nat → Nat) (g0 : Grid) :
    Nat → Option (Grid × List AStarNode × (Int × Int))
  | 0 =>
    some (g0, [⟨(astarStart c actions).1, (astarStart c actions).2, c.BEGIN_Y, c.BEGIN_X⟩],
      astarStart c actions)
  | k + 1 =>
    match astarRounds c actions tie g0 k with
    | some (g, n :: ns, cw) =>
      let i := topIndex AStarNode.__Weight (n :: ns) (tie k)
      let temp := (n :: ns).getD i n
      let result := (n :: ns).eraseIdx i
      if temp.y = c.END_Y ∧ temp.x = c.END_X then none
      else if g temp.y temp.x = GROUND then
        let g1 := markExpanded c g temp.y temp.x
        let s := astarDirs c actions g1 temp dir_vec (result, cw)
        some (g1, s.1, s.2)
      else some (g, result, cw)
    | _ => none

/-- What a node of `solveMazeAStar` carries under the selector `actions`, in the words of the
specification: cost 50 and priority 50 plus the Manhattan distance to End under
`S_ASTAR_INTERVAL`, cost 0 and priority 0 under any other selector. -/
def astarNodeAsStated (c : Config) (actions : MazeAction) (n : AStarNode) : Prop :=
  (actions = MazeAction.S_ASTAR_INTERVAL →
    n.__Cost = 50 ∧ n.__Weight = 50 + |c.END_X - n.x| + |c.END_Y - n.y|) ∧
  (actions ≠ MazeAction.S_ASTAR_INTERVAL → n.__Cost = 0 ∧ n.__Weight = 0)

/-! ## Invariants and measures of the proofs -/

/-- The value that `resetMaze` gives to the cell `(y, x)` of the array. -/
def resetValue (c : Config) (y x : Int) : MazeElement :=
  if y = 0 ∨ y = c.MAZE_HEIGHT - 1 ∨ x = 0 ∨ x = c.MAZE_WIDTH - 1 then WALL
  else if x % 2 = 1 ∧ y % 2 = 1 then GROUND
  else WALL

/-- The writes of `generateMazePrim` stay inside the border ring: the ring is Wall, and the
candidate list and the cache hold interior cells only. -/
def PrimInterior (c : Config) (s : PrimState) : Prop :=
  (∀ y x, onBorder c y x → s.m.maze y x = WALL) ∧
  (∀ p ∈ s.candidate_list, inMaze c p.1 p.2 0 0) ∧
  (∀ p ∈ s.explored_cache, inMaze c p.1 p.2 0 0)

/-- The number of Ground cells of the array. -/
def groundCount (c : Config) (g : Grid) : Nat :=
  ((Finset.Ico 0 c.MAZE_HEIGHT ×ˢ Finset.Ico 0 c.MAZE_WIDTH).filter
    (fun p => g p.1 p.2 = GROUND)).card

/-- No cell is Ground in `g1` unless it is Ground in `g`. -/
def noNewGround (g g1 : Grid) : Prop := ∀ y x, g1 y x = GROUND → g y x = GROUND

/-- No neighbour of `(y, x)` inside the array is Ground. -/
def closedAt (c : Config) (g : Grid) (y x : Int) : Prop :=
  ∀ d ∈ dir_vec, is_in_maze c (y + d.1) (x + d.2) → g (y + d.1) (x + d.2) ≠ GROUND

/-- What a call `solveMazeDFS(y, x)` on the grid `g` guarantees about its result `r`: on
success End is marked; on failure the start is not End, End is untouched, and the start and
every cell that stopped being Ground have no Ground neighbour left. -/
def DfsPost (c : Config) (g : Grid) (y x : Int) (r : Bool × Grid) : Prop :=
  (r.1 = true → r.2 c.END_Y c.END_X = END) ∧
  (r.1 = false → ¬ (y = c.END_Y ∧ x = c.END_X) ∧ closedAt c r.2 y x ∧
    (∀ u v, g u v = GROUND → r.2 u v ≠ GROUND → closedAt c r.2 u v) ∧
    (g c.END_Y c.END_X = GROUND → r.2 c.END_Y c.END_X = GROUND))

/-- The state of `solveMazeBFS` while the cell `t`, at distance at most `k`, is expanded: `ds`
are the directions still to look at, the queue is `A ++ B` with `A` the rest of level `k` and
`B` the cells of level `k + 1` found so far, `gi` is the current grid and `g` the grid on
entry. -/
structure BfsInv (c : Config) (g : Grid) (k : Nat) (t : Int × Int) (ds : List (Int × Int))
    (A B : List (Int × Int)) (gi : Grid) : Prop where
  levelT : within c g k t
  levelA : ∀ a ∈ A, within c g k a
  levelB : ∀ b ∈ B, within c g (k + 1) b
  marked : ∀ q, within c g k q → gi q.1 q.2 ≠ GROUND
  changed : ∀ y x, gi y x ≠ g y x → within c g (k + 1) (y, x)
  frontier : ∀ u, within c g k u → ∀ d ∈ dir_vec, is_in_maze c (u.1 + d.1) (u.2 + d.2) →
    gi (u.1 + d.1) (u.2 + d.2) = GROUND → u ∈ A ∨ (u = t ∧ d ∈ ds)
  fresh : ∀ y x, gi y x ≠ g y x → ¬ within c g k (y, x) → (y, x) ∈ B
  shape : ∀ y x, gi y x = g y x ∨ (g y x = GROUND ∧ gi y x = EXPLORED) ∨
    (y = c.BEGIN_Y ∧ x = c.BEGIN_X ∧ gi y x = BEGIN)
  endGround : gi c.END_Y c.END_X = GROUND

/-- What C6 says of the grid `g1` that `solveMazeBFS` returns on the grid `g`, End being at
distance `d`: End is marked End, every cell at distance 1 to `d - 1` is Explored, and every
cell that has changed is at distance at most `d`. -/
def BfsFinal (c : Config) (g : Grid) (d : Nat) (g1 : Grid) : Prop :=
  g1 c.END_Y c.END_X = END ∧
  (∀ m q, 1 ≤ m → m < d → distIs c g m q → g1 q.1 q.2 = EXPLORED) ∧
  (∀ y x, g1 y x ≠ g y x → within c g d (y, x))

/-- Two cells of the list `l` that are orthogonally adjacent. -/
def linked (l : List (Int × Int)) (a b : Int × Int) : Prop :=
  a ∈ l ∧ b ∈ l ∧ adjacent a b

/-- The list, read from its last element to its head, builds a tree: every cell but the last
is new and is adjacent to exactly one of the cells that follow it in the list. -/
def TreeOrder : List (Int × Int) → Prop
  | [] => True
  | v :: l => v ∉ l ∧ (l = [] ∨ ∃! w, w ∈ l ∧ adjacent w v) ∧ TreeOrder l

/-- A room: a cell inside the border ring whose row and column are both odd. -/
def isRoom (c : Config) (y x : Int) : Prop :=
  inMaze c y x 0 0 ∧ y % 2 = 1 ∧ x % 2 = 1

/-- A connector: a cell inside the border ring with exactly one odd coordinate. -/
def isConnector (c : Config) (y x : Int) : Prop :=
  inMaze c y x 0 0 ∧ (y + x) % 2 = 1

/-- The first of the two cells that a connector lies between: above it when its row is even,
left of it otherwise. -/
def side1 (p : Int × Int) : Int × Int :=
  if p.1 % 2 = 0 then (p.1 - 1, p.2) else (p.1, p.2 - 1)

/-- The second of the two cells that a connector lies between: below it when its row is even,
right of it otherwise. -/
def side2 (p : Int × Int) : Int × Int :=
  if p.1 % 2 = 0 then (p.1 + 1, p.2) else (p.1, p.2 + 1)

/-- The invariant of the candidate loop of `generateMazePrim` on an array of odd dimensions.
Rooms are Ground or Explored; any other cell is Wall, or an Explored connector between two
Explored rooms; the cache lists the Explored cells in an order that builds a tree; every
candidate is a connector next to an Explored room; every Wall connector between an Explored and
a Ground room is a candidate. -/
structure PrimInv (c : Config) (s : PrimState) : Prop where
  rooms : ∀ y x, isRoom c y x → s.m.maze y x = GROUND ∨ s.m.maze y x = EXPLORED
  others : ∀ y x, is_in_maze c y x → ¬ isRoom c y x → s.m.maze y x = WALL ∨
    (s.m.maze y x = EXPLORED ∧ isConnector c y x ∧
      s.m.maze (side1 (y, x)).1 (side1 (y, x)).2 = EXPLORED ∧
      s.m.maze (side2 (y, x)).1 (side2 (y, x)).2 = EXPLORED)
  cache : ∀ p, p ∈ s.explored_cache ↔ (is_in_maze c p.1 p.2 ∧ s.m.maze p.1 p.2 = EXPLORED)
  tree : TreeOrder s.explored_cache.reverse
  cand : ∀ p ∈ s.candidate_list, isConnector c p.1 p.2 ∧
    (s.m.maze (side1 p).1 (side1 p).2 = EXPLORED ∨ s.m.maze (side2 p).1 (side2 p).2 = EXPLORED)
  frontier : ∀ p, isConnector c p.1 p.2 → s.m.maze p.1 p.2 = WALL →
    (s.m.maze (side1 p).1 (side1 p).2 = EXPLORED ∧ s.m.maze (side2 p).1 (side2 p).2 = GROUND) ∨
    (s.m.maze (side1 p).1 (side1 p).2 = GROUND ∧ s.m.maze (side2 p).1 (side2 p).2 = EXPLORED) →
    p ∈ s.candidate_list
  order : s.direction_order.Perm [0, 1, 2, 3]
  seed : ∃ y x, isRoom c y x ∧ s.m.maze y x = EXPLORED

/-- The second invariant of the candidate loop of `generateMazePrim` on an array of odd
dimensions: every candidate is Wall, and a connector occurs at most once in the candidate list
unless both of its sides are Explored. -/
structure PrimCount (c : Config) (s : PrimState) : Prop where
  walls : ∀ p ∈ s.candidate_list, s.m.maze p.1 p.2 = WALL
  once : ∀ p : Int × Int, ¬ (s.m.maze (side1 p).1 (side1 p).2 = EXPLORED ∧
    s.m.maze (side2 p).1 (side2 p).2 = EXPLORED) → s.candidate_list.count p ≤ 1

/-- The measure that decreases at every round of the candidate loop: four per Ground cell,
plus the length of the candidate list. -/
def primMeasure (c : Config) (s : PrimState) : Nat :=
  4 * groundCount c s.m.maze + s.candidate_list.length

/-- The marks of `generateMazePrim` while it carves: every cell of the array is Wall, Ground or
Explored, and every Explored cell of the array is in the cache. -/
def PrimMarks (c : Config) (g : Grid) (cache : List (Int × Int)) : Prop :=
  ∀ y x, is_in_maze c y x → g y x = WALL ∨ g y x = GROUND ∨ (g y x = EXPLORED ∧ (y, x) ∈ cache)

/-- The events `evs` are what the state `m` has sent to the controller beyond the queue `q0`,
and none of them carries the element `INVALID`. -/
def Streamed (q0 : List MazeNode) (m : MazeModel) (evs : List MazeNode) : Prop :=
  m.frame_queue = q0 ++ evs ∧ ∀ e ∈ evs, e.element ≠ INVALID

/-- The events `evs` sent beyond `q0` account for every change of the grid since the snapshot
was taken. -/
def Logged (q0 : List MazeNode) (m : MazeModel) (evs : List MazeNode) : Prop :=
  Streamed q0 m evs ∧ replay evs m.frame_maze = m.maze

/-! ## Sample configurations -/

/-- A 5 x 5 array with Begin at (1, 1) and End at (3, 3). -/
def cfg5 : Config := ⟨5, 5, 1, 1, 3, 3⟩

/-- A 3 x 4 array with Begin at (1, 1) and End at (1, 2). -/
def cfg34 : Config := ⟨3, 4, 1, 1, 1, 2⟩

/-- The 3 x 4 grid whose border is Wall and whose two interior cells are Ground. -/
def grid34 : Grid := fun y x => if y = 1 ∧ (x = 1 ∨ x = 2) then GROUND else WALL

/-- The 3 x 4 grid as a generator leaves it: Wall ring, Begin stamped at (1, 1), End stamped at
(1, 2). -/
def stamped34 : Grid := fun y x =>
  if y = 1 ∧ x = 1 then BEGIN else if y = 1 ∧ x = 2 then END else WALL

/-- The 3 x 4 grid with a Wall ring, Begin stamped at (1, 1) and a Ground End cell. -/
def open34 : Grid := fun y x =>
  if y = 1 ∧ x = 1 then BEGIN else if y = 1 ∧ x = 2 then GROUND else WALL

/-- A 5 x 5 grid with a Wall ring and the Ground passage (1,1), (1,2), (1,3), (2,3), (3,3),
with a Ground dead end at (2, 1). -/
def gridL : Grid := fun y x =>
  if (y = 1 ∧ (x = 1 ∨ x = 2 ∨ x = 3)) ∨ (y = 2 ∧ (x = 3 ∨ x = 1)) ∨ (y = 3 ∧ x = 3) then GROUND
  else WALL

/-- The random stream that always yields zero. -/
def rndZero : Nat → Nat := fun _ => 0

/-- A 2 x 2 array. -/
def cfg2 : Config := ⟨2, 2, 0, 0, 1, 1⟩

/-- The four cells of the 2 x 2 array, in the order of a round trip. -/
def ring2 (i : Fin 4) : Int × Int := [(0, 0), (0, 1), (1, 1), (1, 0)].getD i.val (0, 0)

/-- A 10 x 10 array with Begin at (1, 1) and End at (8, 8). -/
def cfg10 : Config := ⟨10, 10, 1, 1, 8, 8⟩

/-- A 5 x 5 array with Begin at (1, 3) and End at (3, 3). -/
def cfg13 : Config := ⟨5, 5, 1, 3, 3, 3⟩

/-- A 5 x 5 grid with a Wall ring, the Ground passage (1,3), (2,3), (3,3) from Begin to End of
`cfg13`, and the Ground cell (1, 1) walled off from it. -/
def gridB : Grid := fun y x =>
  if (y = 1 ∧ (x = 1 ∨ x = 3)) ∨ (y = 2 ∧ x = 3) ∨ (y = 3 ∧ x = 3) then GROUND else WALL

/-! ## Lemmas shared by the claims -/

theorem resetCell_eq (c : Config) (g : Grid) (y x : Int) :
    resetCell c g y x = g.set y x (resetValue c y x) := by
  unfold resetCell resetValue
  split_ifs <;> rfl

theorem resetRow_apply (c : Config) (y : Int) (n : Nat) (g : Grid) (y' x' : Int) :
    ((List.range n).foldl (fun g2 (x : Nat) => resetCell c g2 y x) g) y' x' =
      if y' = y ∧ 0 ≤ x' ∧ x' < n then resetValue c y x' else g y' x' := by
  induction n with
  | zero =>
    simp only [List.range_zero, List.foldl_nil]
    rw [if_neg]; omega
  | succ n ih =>
    rw [List.range_succ, List.foldl_append, List.foldl_cons, List.foldl_nil, resetCell_eq]
    unfold Grid.set
    rw [ih]
    by_cases h1 : y' = y ∧ x' = (n : Int)
    · obtain ⟨rfl, rfl⟩ := h1
      rw [if_pos ⟨rfl, rfl⟩, if_pos]
      refine ⟨rfl, ?_, ?_⟩ <;> push_cast <;> omega
    · rw [if_neg h1]
      by_cases h2 : y' = y ∧ 0 ≤ x' ∧ x' < (n : Int)
      · rw [if_pos h2, if_pos]
        refine ⟨h2.1, h2.2.1, ?_⟩; push_cast; omega
      · rw [if_neg h2, if_neg]
        push_cast
        intro h3
        apply h2
        refine ⟨h3.1, h3.2.1, ?_⟩
        by_contra h4
        exact h1 ⟨h3.1, by omega⟩

theorem resetRows_apply (c : Config) (w : Nat) (n : Nat) (g : Grid) (y' x' : Int) :
    ((List.range n).foldl (fun g1 (y : Nat) =>
      (List.range w).foldl (fun g2 (x : Nat) => resetCell c g2 y x) g1) g) y' x' =
      if 0 ≤ y' ∧ y' < n ∧ 0 ≤ x' ∧ x' < w then resetValue c y' x' else g y' x' := by
  induction n with
  | zero =>
    simp only [List.range_zero, List.foldl_nil]
    rw [if_neg]; omega
  | succ n ih =>
    rw [List.range_succ, List.foldl_append, List.foldl_cons, List.foldl_nil, resetRow_apply, ih]
    by_cases h1 : y' = (n : Int)
    · subst h1
      by_cases h2 : 0 ≤ x' ∧ x' < (w : Int)
      · rw [if_pos ⟨rfl, h2⟩, if_pos]
        refine ⟨by omega, by push_cast; omega, h2⟩
      · rw [if_neg (fun h => h2 h.2), if_neg (by omega), if_neg]
        intro h; exact h2 h.2.2
    · rw [if_neg (fun h => h1 h.1)]
      by_cases h2 : 0 ≤ y' ∧ y' < (n : Int) ∧ 0 ≤ x' ∧ x' < (w : Int)
      · rw [if_pos h2, if_pos]
        refine ⟨h2.1, by push_cast; omega, h2.2.2⟩
      · rw [if_neg h2, if_neg]
        push_cast
        intro h3
        exact h2 ⟨h3.1, by omega, h3.2.2⟩

theorem resetGrid_apply (c : Config) (g : Grid) (y x : Int) :
    resetGrid c g y x = if is_in_maze c y x then resetValue c y x else g y x := by
  unfold resetGrid
  rw [resetRows_apply]
  unfold is_in_maze
  by_cases h : 0 ≤ y ∧ y < (c.MAZE_HEIGHT.toNat : Int) ∧ 0 ≤ x ∧ x < (c.MAZE_WIDTH.toNat : Int)
  · rw [if_pos h, if_pos]; omega
  · rw [if_neg h, if_neg]; omega

theorem randomIndex_lt (l : List (Int × Int)) (hl : l ≠ []) (r : Nat) :
    (uniform 0 ((l.length : Int) - 1) r).toNat < l.length := by
  have h0 : 0 < l.length := List.length_pos.mpr hl
  unfold uniform
  have h1 : ((l.length : Int) - 1 - 0 + 1) = (l.length : Int) := by ring
  rw [h1]
  have h2 := Int.emod_lt_of_pos (r : Int) (by exact_mod_cast h0 : (0 : Int) < (l.length : Int))
  have h3 := Int.emod_nonneg (r : Int) (by omega : (l.length : Int) ≠ 0)
  omega

theorem inMaze_shift {c : Config} {y x dy dx : Int} (h : inMaze c y x dy dx) :
    inMaze c (y + dy) (x + dx) 0 0 := by
  unfold inMaze at *
  simpa using h

theorem wallCandidates_mem (c : Config) (g : Grid) (ty tx : Int) (order : List Nat) :
    ∀ (cl : List (Int × Int)) (p : Int × Int), p ∈ wallCandidates c g ty tx order cl →
      p ∈ cl ∨ ∃ index ∈ order, inMaze c ty tx (dir_vec.getD index (0, 0)).1
        (dir_vec.getD index (0, 0)).2 ∧
        g (ty + (dir_vec.getD index (0, 0)).1) (tx + (dir_vec.getD index (0, 0)).2) = WALL ∧
        p = (ty + (dir_vec.getD index (0, 0)).1, tx + (dir_vec.getD index (0, 0)).2) := by
  unfold wallCandidates
  induction order with
  | nil => intro cl p h; exact Or.inl h
  | cons i is ih =>
    intro cl p h
    rw [List.foldl_cons] at h
    rcases ih _ p h with h1 | ⟨j, hj, h2⟩
    · dsimp only at h1
      split_ifs at h1 with h3
      · rcases List.mem_append.mp h1 with h4 | h4
        · exact Or.inl h4
        · exact Or.inr ⟨i, List.mem_cons_self _ _, h3.1, h3.2, List.mem_singleton.mp h4⟩
      · exact Or.inl h1
    · exact Or.inr ⟨j, List.mem_cons_of_mem _ hj, h2⟩

theorem seedCandidates_mem (c : Config) (sy sx : Int) (order : List Nat) :
    ∀ (cl : List (Int × Int)) (p : Int × Int), p ∈ seedCandidates c sy sx order cl →
      p ∈ cl ∨ ∃ index ∈ order, inMaze c sy sx (dir_vec.getD index (0, 0)).1
        (dir_vec.getD index (0, 0)).2 ∧
        p = (sy + (dir_vec.getD index (0, 0)).1, sx + (dir_vec.getD index (0, 0)).2) := by
  unfold seedCandidates
  induction order with
  | nil => intro cl p h; exact Or.inl h
  | cons i is ih =>
    intro cl p h
    rw [List.foldl_cons] at h
    rcases ih _ p h with h1 | ⟨j, hj, h2⟩
    · dsimp only at h1
      split_ifs at h1 with h3
      · rcases List.mem_append.mp h1 with h4 | h4
        · exact Or.inl h4
        · exact Or.inr ⟨i, List.mem_cons_self _ _, h3, List.mem_singleton.mp h4⟩
      · exact Or.inl h1
    · exact Or.inr ⟨j, List.mem_cons_of_mem _ hj, h2⟩

theorem seed_interior (H : Int) (hH : 3 ≤ H) (r : Nat) :
    0 < 2 * uniform 0 ((H - 3).tdiv 2) r + 1 ∧ 2 * uniform 0 ((H - 3).tdiv 2) r + 1 < H - 1 ∧
      (2 * uniform 0 ((H - 3).tdiv 2) r + 1) % 2 = 1 := by
  have h1 : (H - 3).tdiv 2 = (H - 3) / 2 := Int.tdiv_eq_ediv (by omega) (by omega)
  unfold uniform
  rw [h1]
  have h2 := Int.emod_lt_of_pos (r : Int) (by omega : (0 : Int) < (H - 3) / 2 - 0 + 1)
  have h3 := Int.emod_nonneg (r : Int) (by omega : (H - 3) / 2 - 0 + 1 ≠ 0)
  omega

theorem noNewGround_trans {g g1 g2 : Grid} (h1 : noNewGround g g1) (h2 : noNewGround g1 g2) :
    noNewGround g g2 := fun y x h => h1 y x (h2 y x h)

theorem noNewGround_set (g : Grid) (y x : Int) (e : MazeElement) (he : e ≠ GROUND) :
    noNewGround g (g.set y x e) := by
  intro y' x' h
  unfold Grid.set at h
  split_ifs at h with h1
  · exact absurd h he
  · exact h

theorem set_self (g : Grid) (y x : Int) (e : MazeElement) : (g.set y x e) y x = e := by
  unfold Grid.set; rw [if_pos ⟨rfl, rfl⟩]

theorem set_other (g : Grid) (y x y' x' : Int) (e : MazeElement) (h : ¬ (y' = y ∧ x' = x)) :
    (g.set y x e) y' x' = g y' x' := by
  unfold Grid.set; rw [if_neg h]

theorem groundCount_le {c : Config} {g g1 : Grid} (h : noNewGround g g1) :
    groundCount c g1 ≤ groundCount c g := by
  apply Finset.card_le_card
  intro p hp
  simp only [Finset.mem_filter] at hp ⊢
  exact ⟨hp.1, h _ _ hp.2⟩

theorem groundCount_lt {c : Config} {g g1 : Grid} (h : noNewGround g g1) (y x : Int)
    (hin : is_in_maze c y x) (hg : g y x = GROUND) (h1 : g1 y x ≠ GROUND) :
    groundCount c g1 < groundCount c g := by
  apply Finset.card_lt_card
  refine (Finset.ssubset_iff_of_subset ?_).mpr ⟨(y, x), ?_, ?_⟩
  · intro p hp
    simp only [Finset.mem_filter] at hp ⊢
    exact ⟨hp.1, h _ _ hp.2⟩
  · obtain ⟨h2, h3, h4, h5⟩ := hin
    simp only [Finset.mem_filter, Finset.mem_product, Finset.mem_Ico]
    exact ⟨⟨⟨h4, h2⟩, ⟨h5, h3⟩⟩, hg⟩
  · simp only [Finset.mem_filter, not_and]
    exact fun _ => h1

theorem within_mono {c : Config} {g : Grid} {k k1 : Nat} {q : Int × Int} (h : within c g k q)
    (hk : k ≤ k1) : within c g k1 q := by
  obtain ⟨m, hm, hw⟩ := h
  exact ⟨m, le_trans hm hk, hw⟩

theorem BfsInv.init (c : Config) (g : Grid)
    (hne : ¬ (c.BEGIN_Y = c.END_Y ∧ c.BEGIN_X = c.END_X)) (hE : g c.END_Y c.END_X = GROUND) :
    BfsInv c g 0 (c.BEGIN_Y, c.BEGIN_X) dir_vec [] [] (g.set c.BEGIN_Y c.BEGIN_X BEGIN) := by
  have hz : within c g 0 (c.BEGIN_Y, c.BEGIN_X) := ⟨0, le_refl _, rfl⟩
  have hz' : ∀ q, within c g 0 q → q = (c.BEGIN_Y, c.BEGIN_X) := by
    rintro q ⟨m, hm, hw⟩
    obtain rfl : m = 0 := by omega
    exact hw
  have hch : ∀ y x, (g.set c.BEGIN_Y c.BEGIN_X BEGIN) y x ≠ g y x →
      y = c.BEGIN_Y ∧ x = c.BEGIN_X := by
    intro y x hyx
    by_contra h1
    exact hyx (set_other _ _ _ _ _ _ h1)
  constructor
  · exact hz
  · intro x hx; exact absurd hx (List.not_mem_nil _)
  · intro x hx; exact absurd hx (List.not_mem_nil _)
  · intro q hq
    rw [hz' q hq, set_self]; decide
  · intro y x hyx
    obtain ⟨rfl, rfl⟩ := hch y x hyx
    exact within_mono hz (by omega)
  · intro u hu d hd _ _
    exact Or.inr ⟨hz' u hu, hd⟩
  · intro y x hyx hn
    obtain ⟨rfl, rfl⟩ := hch y x hyx
    exact absurd hz hn
  · intro y x
    by_cases h1 : y = c.BEGIN_Y ∧ x = c.BEGIN_X
    · rw [h1.1, h1.2, set_self]; exact Or.inr (Or.inr ⟨rfl, rfl, rfl⟩)
    · rw [set_other _ _ _ _ _ _ h1]; exact Or.inl rfl
  · rw [set_other _ _ _ _ _ _ (fun h2 => hne ⟨h2.1.symm, h2.2.symm⟩)]
    exact hE

/-! ## Prim carving builds a spanning tree of the rooms (C1) -/

theorem mem_dir_vec {d : Int × Int} :
    d ∈ dir_vec ↔ d = (-1, 0) ∨ d = (1, 0) ∨ d = (0, -1) ∨ d = (0, 1) := by
  simp [dir_vec]

theorem adjacent_iff {p q : Int × Int} :
    adjacent p q ↔ (q.1 = p.1 - 1 ∧ q.2 = p.2) ∨ (q.1 = p.1 + 1 ∧ q.2 = p.2) ∨
      (q.1 = p.1 ∧ q.2 = p.2 - 1) ∨ (q.1 = p.1 ∧ q.2 = p.2 + 1) := by
  unfold adjacent
  constructor
  · rintro ⟨d, hd, h1, h2⟩
    rcases mem_dir_vec.mp hd with rfl | rfl | rfl | rfl <;> simp only at h1 h2 <;> omega
  · rintro (⟨h1, h2⟩ | ⟨h1, h2⟩ | ⟨h1, h2⟩ | ⟨h1, h2⟩)
    · exact ⟨(-1, 0), by decide, by simp only; omega, by simp only; omega⟩
    · exact ⟨(1, 0), by decide, by simp only; omega, by simp only; omega⟩
    · exact ⟨(0, -1), by decide, by simp only; omega, by simp only; omega⟩
    · exact ⟨(0, 1), by decide, by simp only; omega, by simp only; omega⟩

theorem adjacent_symm {p q : Int × Int} (h : adjacent p q) : adjacent q p := by
  rw [adjacent_iff] at *
  omega

theorem linked_cons {l : List (Int × Int)} {v a b : Int × Int} (h : linked l a b) :
    linked (v :: l) a b :=
  ⟨List.mem_cons_of_mem _ h.1, List.mem_cons_of_mem _ h.2.1, h.2.2⟩

theorem tree_connected :
    ∀ l : List (Int × Int), TreeOrder l → ∀ p ∈ l, ∀ q ∈ l,
      Relation.ReflTransGen (linked l) p q := by
  intro l
  induction l with
  | nil => intro _ p hp; exact absurd hp (List.not_mem_nil _)
  | cons v l ih =>
    intro ht p hp q hq
    obtain ⟨_, hu, htl⟩ := ht
    have hmono : ∀ a b, Relation.ReflTransGen (linked l) a b →
        Relation.ReflTransGen (linked (v :: l)) a b :=
      fun a b h => Relation.ReflTransGen.mono (fun _ _ h1 => linked_cons h1) h
    rcases hu with rfl | ⟨w, ⟨hw, hwv⟩, _⟩
    · rw [List.mem_singleton.mp hp, List.mem_singleton.mp hq]
    · have hvw : linked (v :: l) v w :=
        ⟨List.mem_cons_self _ _, List.mem_cons_of_mem _ hw, adjacent_symm hwv⟩
      have hwv' : linked (v :: l) w v :=
        ⟨List.mem_cons_of_mem _ hw, List.mem_cons_self _ _, hwv⟩
      rcases List.mem_cons.mp hp with hp1 | hp1 <;> rcases List.mem_cons.mp hq with hq1 | hq1
      · rw [hp1, hq1]
      · rw [hp1]; exact Relation.ReflTransGen.head hvw (hmono _ _ (ih htl w hw q hq1))
      · rw [hq1]; exact Relation.ReflTransGen.tail (hmono _ _ (ih htl p hp1 w hw)) hwv'
      · exact hmono _ _ (ih htl p hp1 q hq1)

theorem fin_succ_ne_pred {n : Nat} (i : Fin (n + 3)) : i + 1 ≠ i - 1 := by
  intro h
  have h1 : i + 1 + 1 = i := by rw [h, sub_add_cancel]
  have h2 : (2 : Fin (n + 3)) = 0 := by
    have : i + (1 + 1) = i + 0 := by rw [← add_assoc, h1, add_zero]
    have := add_left_cancel this
    rw [← this]; norm_num
  have h3 := congrArg Fin.val h2
  simp [Fin.val_two] at h3

theorem fin_succ_ne {n : Nat} (i : Fin (n + 3)) : i + 1 ≠ i := by
  intro h
  have h2 : (1 : Fin (n + 3)) = 0 := by
    have : i + 1 = i + 0 := by rw [h, add_zero]
    exact add_left_cancel this
  have h3 := congrArg Fin.val h2
  simp at h3

theorem fin_pred_ne {n : Nat} (i : Fin (n + 3)) : i - 1 ≠ i := by
  intro h
  have h1 : i - 1 + 1 = i + 1 := by rw [h]
  rw [sub_add_cancel] at h1
  exact fin_succ_ne i h1.symm

theorem tree_acyclic :
    ∀ l : List (Int × Int), TreeOrder l → ∀ (n : Nat) (f : Fin (n + 3) → Int × Int),
      Function.Injective f → (∀ i, f i ∈ l) → (∀ i, adjacent (f i) (f (i + 1))) → False := by
  intro l
  induction l with
  | nil => intro _ n f _ hm _; exact absurd (hm 0) (List.not_mem_nil _)
  | cons v l ih =>
    intro ht n f hinj hm hadj
    obtain ⟨_, hu, htl⟩ := ht
    by_cases hv : ∃ i, f i = v
    · obtain ⟨i, hi⟩ := hv
      have hmem : ∀ j, j ≠ i → f j ∈ l := by
        intro j hj
        rcases List.mem_cons.mp (hm j) with h1 | h1
        · exact absurd (hinj (h1.trans hi.symm)) hj
        · exact h1
      have h1 : f (i + 1) ∈ l := hmem _ (fin_succ_ne i)
      have h2 : f (i - 1) ∈ l := hmem _ (fin_pred_ne i)
      have a1 : adjacent (f (i + 1)) v := by rw [← hi]; exact adjacent_symm (hadj i)
      have a2 : adjacent (f (i - 1)) v := by
        have := hadj (i - 1)
        rw [sub_add_cancel, hi] at this
        exact this
      rcases hu with rfl | ⟨w, _, huniq⟩
      · exact absurd h1 (List.not_mem_nil _)
      · have e1 := huniq _ ⟨h1, a1⟩
        have e2 := huniq _ ⟨h2, a2⟩
        exact fin_succ_ne_pred i (hinj (e1.trans e2.symm))
    · apply ih htl n f hinj _ hadj
      intro i
      rcases List.mem_cons.mp (hm i) with h1 | h1
      · exact absurd ⟨i, h1⟩ hv
      · exact h1

theorem inMaze_in {c : Config} {y x : Int} (h : inMaze c y x 0 0) : is_in_maze c y x := by
  unfold inMaze at h; unfold is_in_maze; omega

theorem connector_sides_rooms {c : Config} (hc : OddDims c) {y x : Int}
    (h : isConnector c y x) :
    isRoom c (side1 (y, x)).1 (side1 (y, x)).2 ∧ isRoom c (side2 (y, x)).1 (side2 (y, x)).2 := by
  obtain ⟨h1, h2, h3, h4⟩ := hc
  obtain ⟨h5, h6⟩ := h
  unfold inMaze at h5
  unfold isRoom inMaze side1 side2
  simp only
  split_ifs with h7 <;> simp only <;> omega

theorem adjacent_parity {p q : Int × Int} (h : adjacent p q) :
    (p.1 + p.2) % 2 ≠ (q.1 + q.2) % 2 := by
  rw [adjacent_iff] at h; omega

theorem room_next_to_connector {r w : Int × Int} (hr : r.1 % 2 = 1 ∧ r.2 % 2 = 1)
    (h : adjacent r w) : r = side1 w ∨ r = side2 w := by
  rw [adjacent_iff] at h
  unfold side1 side2
  split_ifs with h1
  · rcases h with h | h | h | h
    · exact Or.inr (Prod.ext (by simp only; omega) (by simp only; omega))
    · exact Or.inl (Prod.ext (by simp only; omega) (by simp only; omega))
    · omega
    · omega
  · rcases h with h | h | h | h
    · omega
    · omega
    · exact Or.inr (Prod.ext (by simp only; omega) (by simp only; omega))
    · exact Or.inl (Prod.ext (by simp only; omega) (by simp only; omega))

theorem side1_adjacent (w : Int × Int) : adjacent (side1 w) w := by
  rw [adjacent_iff]; unfold side1; split_ifs <;> dsimp only <;> omega

theorem side2_adjacent (w : Int × Int) : adjacent (side2 w) w := by
  rw [adjacent_iff]; unfold side2; split_ifs <;> dsimp only <;> omega

theorem side1_ne_side2 (w : Int × Int) : side1 w ≠ side2 w := by
  unfold side1 side2
  intro h
  have h1 := congrArg Prod.fst h
  have h2 := congrArg Prod.snd h
  split_ifs at h1 h2 <;> dsimp only at h1 h2 <;> omega

theorem adjacent_ne {p q : Int × Int} (h : adjacent p q) : p ≠ q := by
  intro h1; rw [h1, adjacent_iff] at h; omega

/-- A cell that is neither a room nor a connector is Wall. -/
theorem PrimInv.pillar {c : Config} {s : PrimState} (h : PrimInv c s) {y x : Int}
    (hin : is_in_maze c y x) (hp : (y + x) % 2 = 0) (hr : ¬ (y % 2 = 1 ∧ x % 2 = 1)) :
    s.m.maze y x = WALL := by
  rcases h.others y x hin (fun h1 => hr h1.2) with h1 | ⟨_, h2, _⟩
  · exact h1
  · exact absurd h2.2 (by omega)

/-- An Explored neighbour of a connector is one of its two sides. -/
theorem PrimInv.explored_next_to_connector {c : Config} {s : PrimState} (h : PrimInv c s)
    {w p : Int × Int} (hp : (p.1 + p.2) % 2 = 1) (hin : is_in_maze c w.1 w.2)
    (hw : s.m.maze w.1 w.2 = EXPLORED) (hadj : adjacent w p) : w = side1 p ∨ w = side2 p := by
  have hpar := adjacent_parity hadj
  by_cases hr : w.1 % 2 = 1 ∧ w.2 % 2 = 1
  · exact room_next_to_connector hr hadj
  · have := h.pillar hin (by omega) hr
    rw [this] at hw
    exact absurd hw (by decide)

/-- An Explored neighbour of a room is a connector whose two sides are Explored. -/
theorem PrimInv.explored_next_to_room {c : Config} {s : PrimState} (h : PrimInv c s)
    {w r : Int × Int} (hr : r.1 % 2 = 1 ∧ r.2 % 2 = 1) (hin : is_in_maze c w.1 w.2)
    (hw : s.m.maze w.1 w.2 = EXPLORED) (hadj : adjacent w r) :
    s.m.maze r.1 r.2 = EXPLORED := by
  have hpar := adjacent_parity hadj
  rcases h.others w.1 w.2 hin (fun h1 => by have := h1.2; omega) with h1 | ⟨_, _, h2, h3⟩
  · rw [h1] at hw; exact absurd hw (by decide)
  · rcases room_next_to_connector hr (adjacent_symm hadj) with h4 | h4
    · rw [h4]; exact h2
    · rw [h4]; exact h3

theorem probe_in {c : Config} (g : Grid) {y x dy dx : Int} (h : inMaze c y x dy dx) :
    probe c g y x dy dx = g (y + dy) (x + dx) := by
  unfold probe; rw [if_pos h]

theorem probe_pillar {c : Config} {s : PrimState} (h : PrimInv c s) (y x dy dx : Int)
    (hp : (y + dy + (x + dx)) % 2 = 0) (hr : ¬ ((y + dy) % 2 = 1 ∧ (x + dx) % 2 = 1)) :
    probe c s.m.maze y x dy dx ≠ EXPLORED ∧ probe c s.m.maze y x dy dx ≠ GROUND := by
  unfold probe
  split_ifs with h1
  · rw [h.pillar (inMaze_in (inMaze_shift h1)) hp hr]
    exact ⟨by decide, by decide⟩
  · exact ⟨by decide, by decide⟩

/-- What the candidate loop reads around a connector: the test that drops the candidate holds
when both sides are Explored, and the move leads to the Ground side. -/
theorem PrimInv.pick {c : Config} {s : PrimState} (h : PrimInv c s) (hc : OddDims c)
    {wy wx : Int} (hw : isConnector c wy wx) :
    (((probe c s.m.maze wy wx (-1) 0 = EXPLORED ∧ probe c s.m.maze wy wx 1 0 = EXPLORED) ∨
      (probe c s.m.maze wy wx 0 (-1) = EXPLORED ∧ probe c s.m.maze wy wx 0 1 = EXPLORED)) ↔
      (s.m.maze (side1 (wy, wx)).1 (side1 (wy, wx)).2 = EXPLORED ∧
        s.m.maze (side2 (wy, wx)).1 (side2 (wy, wx)).2 = EXPLORED)) ∧
    (s.m.maze (side1 (wy, wx)).1 (side1 (wy, wx)).2 = EXPLORED →
      s.m.maze (side2 (wy, wx)).1 (side2 (wy, wx)).2 = GROUND →
      primMove (probe c s.m.maze wy wx (-1) 0) (probe c s.m.maze wy wx 1 0)
        (probe c s.m.maze wy wx 0 (-1)) (probe c s.m.maze wy wx 0 1) wy wx = side2 (wy, wx)) ∧
    (s.m.maze (side1 (wy, wx)).1 (side1 (wy, wx)).2 = GROUND →
      s.m.maze (side2 (wy, wx)).1 (side2 (wy, wx)).2 = EXPLORED →
      primMove (probe c s.m.maze wy wx (-1) 0) (probe c s.m.maze wy wx 1 0)
        (probe c s.m.maze wy wx 0 (-1)) (probe c s.m.maze wy wx 0 1) wy wx = side1 (wy, wx)) := by
  obtain ⟨hr1, hr2⟩ := connector_sides_rooms hc hw
  have hpar := hw.2
  by_cases he : wy % 2 = 0
  · have e1 : side1 (wy, wx) = (wy - 1, wx) := by unfold side1; rw [if_pos he]
    have e2 : side2 (wy, wx) = (wy + 1, wx) := by unfold side2; rw [if_pos he]
    rw [e1] at hr1 ⊢; rw [e2] at hr2 ⊢
    dsimp only at hr1 hr2 ⊢
    have hu : probe c s.m.maze wy wx (-1) 0 = s.m.maze (wy - 1) wx := by
      rw [probe_in]
      · rw [add_zero, ← sub_eq_add_neg]
      · have := hr1.1; unfold inMaze at *; omega
    have hd : probe c s.m.maze wy wx 1 0 = s.m.maze (wy + 1) wx := by
      rw [probe_in]
      · rw [add_zero]
      · have := hr2.1; unfold inMaze at *; omega
    have hl := probe_pillar h wy wx 0 (-1) (by omega) (by omega)
    have hr := probe_pillar h wy wx 0 1 (by omega) (by omega)
    rw [hu, hd]
    refine ⟨?_, ?_, ?_⟩
    · constructor
      · rintro (h1 | h1)
        · exact h1
        · exact absurd h1.1 hl.1
      · exact fun h1 => Or.inl h1
    · intro h1 h2
      unfold primMove
      rw [if_pos ⟨h1, h2⟩]
    · intro h1 h2
      unfold primMove
      rw [if_neg (by rw [h1]; simp), if_pos ⟨h1, h2⟩]
  · have e1 : side1 (wy, wx) = (wy, wx - 1) := by unfold side1; rw [if_neg he]
    have e2 : side2 (wy, wx) = (wy, wx + 1) := by unfold side2; rw [if_neg he]
    rw [e1] at hr1 ⊢; rw [e2] at hr2 ⊢
    dsimp only at hr1 hr2 ⊢
    have hl : probe c s.m.maze wy wx 0 (-1) = s.m.maze wy (wx - 1) := by
      rw [probe_in]
      · rw [add_zero, ← sub_eq_add_neg]
      · have := hr1.1; unfold inMaze at *; omega
    have hr : probe c s.m.maze wy wx 0 1 = s.m.maze wy (wx + 1) := by
      rw [probe_in]
      · rw [add_zero]
      · have := hr2.1; unfold inMaze at *; omega
    have hu := probe_pillar h wy wx (-1) 0 (by omega) (by omega)
    have hd := probe_pillar h wy wx 1 0 (by omega) (by omega)
    rw [hl, hr]
    refine ⟨?_, ?_, ?_⟩
    · constructor
      · rintro (h1 | h1)
        · exact absurd h1.1 hu.1
        · exact h1
      · exact fun h1 => Or.inr h1
    · intro h1 h2
      unfold primMove
      rw [if_neg (fun h3 => hu.1 h3.1), if_neg (fun h3 => hu.2 h3.1), if_pos ⟨h1, h2⟩]
    · intro h1 h2
      unfold primMove
      rw [if_neg (fun h3 => hu.1 h3.1), if_neg (fun h3 => hu.2 h3.1),
        if_neg (by rw [h1]; simp), if_pos ⟨h1, h2⟩]

theorem shuffle_perm (l : List Nat) (r : Nat) : (shuffle l r).Perm l := by
  unfold shuffle
  by_cases h : r % l.permutations.length < l.permutations.length
  · rw [List.getD_eq_getElem _ _ h]
    exact List.mem_permutations.mp (List.getElem_mem _)
  · rw [List.getD_eq_default _ _ (by omega)]

theorem wallCandidates_subset (c : Config) (g : Grid) (ty tx : Int) (order : List Nat) :
    ∀ (cl : List (Int × Int)) (p : Int × Int), p ∈ cl → p ∈ wallCandidates c g ty tx order cl := by
  unfold wallCandidates
  induction order with
  | nil => intro cl p h; exact h
  | cons i is ih =>
    intro cl p h
    rw [List.foldl_cons]
    apply ih
    dsimp only
    split_ifs
    · exact List.mem_append_left _ h
    · exact h

theorem wallCandidates_new (c : Config) (g : Grid) (ty tx : Int) (order : List Nat) :
    ∀ (cl : List (Int × Int)) (index : Nat), index ∈ order →
      inMaze c ty tx (dir_vec.getD index (0, 0)).1 (dir_vec.getD index (0, 0)).2 →
      g (ty + (dir_vec.getD index (0, 0)).1) (tx + (dir_vec.getD index (0, 0)).2) = WALL →
      (ty + (dir_vec.getD index (0, 0)).1, tx + (dir_vec.getD index (0, 0)).2) ∈
        wallCandidates c g ty tx order cl := by
  induction order with
  | nil => intro cl index h; exact absurd h (List.not_mem_nil _)
  | cons i is ih =>
    intro cl index h h1 h2
    rcases List.mem_cons.mp h with rfl | h
    · unfold wallCandidates
      rw [List.foldl_cons]
      apply wallCandidates_subset
      dsimp only
      rw [if_pos ⟨h1, h2⟩]
      exact List.mem_append_right _ (List.mem_singleton.mpr rfl)
    · unfold wallCandidates
      rw [List.foldl_cons]
      exact ih _ index h h1 h2

theorem seedCandidates_subset (c : Config) (sy sx : Int) (order : List Nat) :
    ∀ (cl : List (Int × Int)) (p : Int × Int), p ∈ cl → p ∈ seedCandidates c sy sx order cl := by
  unfold seedCandidates
  induction order with
  | nil => intro cl p h; exact h
  | cons i is ih =>
    intro cl p h
    rw [List.foldl_cons]
    apply ih
    dsimp only
    split_ifs
    · exact List.mem_append_left _ h
    · exact h

theorem seedCandidates_new (c : Config) (sy sx : Int) (order : List Nat) :
    ∀ (cl : List (Int × Int)) (index : Nat), index ∈ order →
      inMaze c sy sx (dir_vec.getD index (0, 0)).1 (dir_vec.getD index (0, 0)).2 →
      (sy + (dir_vec.getD index (0, 0)).1, sx + (dir_vec.getD index (0, 0)).2) ∈
        seedCandidates c sy sx order cl := by
  induction order with
  | nil => intro cl index h; exact absurd h (List.not_mem_nil _)
  | cons i is ih =>
    intro cl index h h1
    rcases List.mem_cons.mp h with rfl | h
    · unfold seedCandidates
      rw [List.foldl_cons]
      apply seedCandidates_subset
      dsimp only
      rw [if_pos h1]
      exact List.mem_append_right _ (List.mem_singleton.mpr rfl)
    · unfold seedCandidates
      rw [List.foldl_cons]
      exact ih _ index h h1

/-- Every offset of `dir_vec` is read by one of the indices 0 to 3. -/
theorem dir_index {d : Int × Int} (h : d ∈ dir_vec) :
    ∃ index, index ∈ [0, 1, 2, 3] ∧ dir_vec.getD index (0, 0) = d := by
  rcases mem_dir_vec.mp h with rfl | rfl | rfl | rfl
  · exact ⟨0, by decide, rfl⟩
  · exact ⟨1, by decide, rfl⟩
  · exact ⟨2, by decide, rfl⟩
  · exact ⟨3, by decide, rfl⟩

/-- The indices 0 to 3 read the offsets of `dir_vec`. -/
theorem index_dir {index : Nat} (h : index ∈ [0, 1, 2, 3]) :
    dir_vec.getD index (0, 0) ∈ dir_vec := by
  simp only [List.mem_cons, List.mem_singleton, List.mem_nil_iff, or_false] at h
  rcases h with rfl | rfl | rfl | rfl <;> decide

theorem mem_eraseIdx_of_ne {l : List (Int × Int)} {i : Nat} {p : Int × Int} (hp : p ∈ l)
    (hne : l.getD i (0, 0) ≠ p) : p ∈ l.eraseIdx i := by
  induction l generalizing i with
  | nil => exact absurd hp (List.not_mem_nil _)
  | cons a l ih =>
    cases i with
    | zero =>
      simp only [List.getD_cons_zero] at hne
      simp only [List.eraseIdx_cons_zero]
      rcases List.mem_cons.mp hp with h | h
      · exact absurd h.symm hne
      · exact h
    | succ j =>
      simp only [List.getD_cons_succ] at hne
      simp only [List.eraseIdx_cons_succ]
      rcases List.mem_cons.mp hp with h | h
      · rw [h]; exact List.mem_cons_self _ _
      · exact List.mem_cons_of_mem _ (ih h hne)

theorem room_plus_dir {c : Config} {r d : Int × Int} (hr : r.1 % 2 = 1 ∧ r.2 % 2 = 1)
    (hd : d ∈ dir_vec) (hin : inMaze c r.1 r.2 d.1 d.2) :
    isConnector c (r.1 + d.1) (r.2 + d.2) ∧ adjacent r (r.1 + d.1, r.2 + d.2) := by
  refine ⟨⟨inMaze_shift hin, ?_⟩, d, hd, rfl, rfl⟩
  rcases mem_dir_vec.mp hd with rfl | rfl | rfl | rfl <;> dsimp only <;> omega

theorem PrimInv.erase {c : Config} {s s1 : PrimState} (h : PrimInv c s) (i : Nat)
    (hboth : s.m.maze (side1 (s.candidate_list.getD i (0, 0))).1
        (side1 (s.candidate_list.getD i (0, 0))).2 = EXPLORED ∧
      s.m.maze (side2 (s.candidate_list.getD i (0, 0))).1
        (side2 (s.candidate_list.getD i (0, 0))).2 = EXPLORED)
    (hm : s1.m.maze = s.m.maze) (hcache : s1.explored_cache = s.explored_cache)
    (hcl : s1.candidate_list = s.candidate_list.eraseIdx i)
    (ho : s1.direction_order = s.direction_order) : PrimInv c s1 := by
  constructor
  · rw [hm]; exact h.rooms
  · rw [hm]; exact h.others
  · rw [hm, hcache]; exact h.cache
  · rw [hcache]; exact h.tree
  · rw [hm, hcl]; exact fun p hp => h.cand p (List.mem_of_mem_eraseIdx hp)
  · rw [hm, hcl]
    intro p hp hw hs
    apply mem_eraseIdx_of_ne (h.frontier p hp hw hs)
    intro h1
    rw [h1] at hboth
    rcases hs with hs | hs
    · rw [hboth.2] at hs; exact absurd hs.2 (by decide)
    · rw [hboth.1] at hs; exact absurd hs.1 (by decide)
  · rw [ho]; exact h.order
  · rw [hm]; exact h.seed

theorem PrimInv.carve {c : Config} {s s1 : PrimState} (h : PrimInv c s) (hc : OddDims c)
    (i : Nat) (W A B : Int × Int) (hWi : s.candidate_list.getD i (0, 0) = W)
    (hWc : isConnector c W.1 W.2) (hWw : s.m.maze W.1 W.2 = WALL)
    (hsides : (A = side1 W ∧ B = side2 W) ∨ (A = side2 W ∧ B = side1 W))
    (hA : s.m.maze A.1 A.2 = EXPLORED) (hB : s.m.maze B.1 B.2 = GROUND)
    (hm : s1.m.maze = (s.m.maze.set W.1 W.2 EXPLORED).set B.1 B.2 EXPLORED)
    (hcache : s1.explored_cache = s.explored_cache ++ [W] ++ [B])
    (hcl : s1.candidate_list =
      wallCandidates c s1.m.maze B.1 B.2 s1.direction_order (s.candidate_list.eraseIdx i))
    (ho : s1.direction_order.Perm [0, 1, 2, 3]) : PrimInv c s1 := by
  obtain ⟨hr1, hr2⟩ := connector_sides_rooms hc hWc
  have hAr : isRoom c A.1 A.2 := by
    rcases hsides with ⟨h1, _⟩ | ⟨h1, _⟩ <;> rw [h1] <;> assumption
  have hBr : isRoom c B.1 B.2 := by
    rcases hsides with ⟨_, h1⟩ | ⟨_, h1⟩ <;> rw [h1] <;> assumption
  have hAW : adjacent A W := by
    rcases hsides with ⟨h1, _⟩ | ⟨h1, _⟩ <;> rw [h1]
    · exact side1_adjacent W
    · exact side2_adjacent W
  have hBW : adjacent B W := by
    rcases hsides with ⟨_, h1⟩ | ⟨_, h1⟩ <;> rw [h1]
    · exact side2_adjacent W
    · exact side1_adjacent W
  have hWin : is_in_maze c W.1 W.2 := inMaze_in hWc.1
  have hBin : is_in_maze c B.1 B.2 := inMaze_in hBr.1
  have hWB : ¬ (W.1 = B.1 ∧ W.2 = B.2) := fun h1 => adjacent_ne hBW (Prod.ext h1.1 h1.2).symm
  have hside : ∀ p : Int × Int, p = side1 W ∨ p = side2 W → p = A ∨ p = B := by
    intro p hp
    rcases hsides with ⟨h1, h2⟩ | ⟨h1, h2⟩ <;> rcases hp with h3 | h3 <;> simp [h1, h2, h3]
  have hval : ∀ y x, s1.m.maze y x =
      if y = B.1 ∧ x = B.2 then EXPLORED else if y = W.1 ∧ x = W.2 then EXPLORED
      else s.m.maze y x := by
    intro y x; rw [hm]; rfl
  have hexp : ∀ y x, s1.m.maze y x = EXPLORED ↔
      s.m.maze y x = EXPLORED ∨ (y = W.1 ∧ x = W.2) ∨ (y = B.1 ∧ x = B.2) := by
    intro y x
    rw [hval]
    split_ifs with h1 h2
    · simp [h1]
    · simp [h2]
    · simp [h1, h2]
  have hgr : ∀ y x, s1.m.maze y x = GROUND → s.m.maze y x = GROUND ∧ ¬ (y = B.1 ∧ x = B.2) := by
    intro y x
    rw [hval]
    split_ifs with h1 h2
    · intro h3; exact absurd h3 (by decide)
    · intro h3; exact absurd h3 (by decide)
    · exact fun h3 => ⟨h3, h1⟩
  have hwall : ∀ y x, s1.m.maze y x = WALL → s.m.maze y x = WALL ∧ ¬ (y = W.1 ∧ x = W.2) := by
    intro y x
    rw [hval]
    split_ifs with h1 h2
    · intro h3; exact absurd h3 (by decide)
    · intro h3; exact absurd h3 (by decide)
    · exact fun h3 => ⟨h3, h2⟩
  have hsame : ∀ y x, ¬ (y = W.1 ∧ x = W.2) → ¬ (y = B.1 ∧ x = B.2) →
      s1.m.maze y x = s.m.maze y x := by
    intro y x h1 h2
    rw [hval, if_neg h2, if_neg h1]
  have hmono : ∀ y x, s.m.maze y x = EXPLORED → s1.m.maze y x = EXPLORED :=
    fun y x h1 => (hexp y x).mpr (Or.inl h1)
  have hBe : s1.m.maze B.1 B.2 = EXPLORED := (hexp _ _).mpr (Or.inr (Or.inr ⟨rfl, rfl⟩))
  have hWe : s1.m.maze W.1 W.2 = EXPLORED := (hexp _ _).mpr (Or.inr (Or.inl ⟨rfl, rfl⟩))
  have hWcache : W ∉ s.explored_cache := by
    intro h1
    have := ((h.cache W).mp h1).2
    rw [hWw] at this; exact absurd this (by decide)
  have hBcache : B ∉ s.explored_cache := by
    intro h1
    have := ((h.cache B).mp h1).2
    rw [hB] at this; exact absurd this (by decide)
  constructor
  · intro y x hr
    by_cases h1 : y = B.1 ∧ x = B.2
    · rw [h1.1, h1.2]; exact Or.inr hBe
    · have h2 : ¬ (y = W.1 ∧ x = W.2) := by
        intro h3
        have := hWc.2; have := hr.2
        rw [h3.1, h3.2] at hr
        have := hr.2
        omega
      rw [hsame y x h2 h1]; exact h.rooms y x hr
  · intro y x hin hnr
    have h1 : ¬ (y = B.1 ∧ x = B.2) := by
      intro h2; rw [h2.1, h2.2] at hnr; exact hnr hBr
    by_cases h2 : y = W.1 ∧ x = W.2
    · right
      rw [h2.1, h2.2]
      refine ⟨hWe, hWc, ?_, ?_⟩
      · rcases hside _ (Or.inl rfl) with h3 | h3 <;> rw [h3]
        · exact hmono _ _ hA
        · exact hBe
      · rcases hside _ (Or.inr rfl) with h3 | h3 <;> rw [h3]
        · exact hmono _ _ hA
        · exact hBe
    · rw [hsame y x h2 h1]
      rcases h.others y x hin hnr with h3 | ⟨h3, h4, h5, h6⟩
      · exact Or.inl h3
      · exact Or.inr ⟨h3, h4, hmono _ _ h5, hmono _ _ h6⟩
  · intro p
    rw [hcache, hexp]
    simp only [List.mem_append, List.mem_singleton]
    constructor
    · rintro ((h1 | h1) | h1)
      · exact ⟨((h.cache p).mp h1).1, Or.inl ((h.cache p).mp h1).2⟩
      · rw [h1]; exact ⟨hWin, Or.inr (Or.inl ⟨rfl, rfl⟩)⟩
      · rw [h1]; exact ⟨hBin, Or.inr (Or.inr ⟨rfl, rfl⟩)⟩
    · rintro ⟨h1, h2 | h2 | h2⟩
      · exact Or.inl (Or.inl ((h.cache p).mpr ⟨h1, h2⟩))
      · exact Or.inl (Or.inr (Prod.ext h2.1 h2.2))
      · exact Or.inr (Prod.ext h2.1 h2.2)
  · rw [hcache]
    simp only [List.reverse_append, List.reverse_cons, List.reverse_nil, List.nil_append,
      List.singleton_append, List.cons_append, TreeOrder, List.mem_cons, List.mem_reverse]
    refine ⟨?_, Or.inr ⟨W, ⟨Or.inl rfl, adjacent_symm hBW⟩, ?_⟩, hWcache,
      Or.inr ⟨A, ⟨(h.cache A).mpr ⟨inMaze_in hAr.1, hA⟩, hAW⟩, ?_⟩, h.tree⟩
    · rintro (h1 | h1)
      · exact hWB ⟨(congrArg Prod.fst h1).symm, (congrArg Prod.snd h1).symm⟩
      · exact hBcache h1
    · rintro w ⟨h1 | h1, h2⟩
      · exact h1
      · exfalso
        have h3 := (h.cache w).mp h1
        have := h.explored_next_to_room hBr.2 h3.1 h3.2 h2
        rw [hB] at this; exact absurd this (by decide)
    · rintro w ⟨h1, h2⟩
      have h3 := (h.cache w).mp h1
      rcases hside w (h.explored_next_to_connector hWc.2 h3.1 h3.2 h2) with h4 | h4
      · exact h4
      · rw [h4, hB] at h3; exact absurd h3.2 (by decide)
  · intro p hp
    rw [hcl] at hp
    rcases wallCandidates_mem _ _ _ _ _ _ p hp with h1 | ⟨j, hj, h1, _, rfl⟩
    · obtain ⟨h2, h3⟩ := h.cand p (List.mem_of_mem_eraseIdx h1)
      exact ⟨h2, h3.imp (hmono _ _) (hmono _ _)⟩
    · have hd := index_dir (ho.subset hj)
      obtain ⟨h2, h3⟩ := room_plus_dir hBr.2 hd h1
      refine ⟨h2, ?_⟩
      rcases room_next_to_connector hBr.2 h3 with h4 | h4
      · left; rw [← h4]; exact hBe
      · right; rw [← h4]; exact hBe
  · intro p hp hw hs
    obtain ⟨hw0, hpW⟩ := hwall _ _ hw
    rw [hcl]
    by_cases h1 : B = side1 p ∨ B = side2 p
    · have h2 : adjacent B p := by
        rcases h1 with h1 | h1 <;> rw [h1]
        · exact side1_adjacent p
        · exact side2_adjacent p
      obtain ⟨d, hd, h3, h4⟩ := h2
      obtain ⟨j, hj, rfl⟩ := dir_index hd
      have h5 : p = (B.1 + (dir_vec.getD j (0, 0)).1, B.2 + (dir_vec.getD j (0, 0)).2) :=
        Prod.ext h3 h4
      rw [h5]
      apply wallCandidates_new _ _ _ _ _ _ j (ho.symm.subset hj)
      · have := hp.1
        rw [h5] at this
        unfold inMaze at *
        simpa using this
      · rw [← h3, ← h4]; exact hw
    · apply wallCandidates_subset
      have hs1 : ¬ ((side1 p).1 = B.1 ∧ (side1 p).2 = B.2) :=
        fun h2 => h1 (Or.inl (Prod.ext h2.1 h2.2).symm)
      have hs2 : ¬ ((side2 p).1 = B.1 ∧ (side2 p).2 = B.2) :=
        fun h2 => h1 (Or.inr (Prod.ext h2.1 h2.2).symm)
      obtain ⟨hq1, hq2⟩ := connector_sides_rooms hc hp
      have hn1 : ¬ ((side1 p).1 = W.1 ∧ (side1 p).2 = W.2) := by
        intro h2
        have := hq1.2; have := hWc.2
        rw [h2.1, h2.2] at hq1
        have := hq1.2
        omega
      have hn2 : ¬ ((side2 p).1 = W.1 ∧ (side2 p).2 = W.2) := by
        intro h2
        have := hWc.2
        rw [h2.1, h2.2] at hq2
        have := hq2.2
        omega
      rw [hsame _ _ hn1 hs1, hsame _ _ hn2 hs2] at hs
      apply mem_eraseIdx_of_ne (h.frontier p hp hw0 hs)
      rw [hWi]
      exact fun h2 => hpW ⟨(congrArg Prod.fst h2).symm, (congrArg Prod.snd h2).symm⟩
  · exact ho
  · obtain ⟨y, x, h1, h2⟩ := h.seed
    exact ⟨y, x, h1, hmono _ _ h2⟩

theorem primStep_inv (c : Config) (hc : OddDims c) (rnd : Nat → Nat) (s : PrimState)
    (h : PrimInv c s) (hne : s.candidate_list ≠ []) : PrimInv c (primStep c rnd s) := by
  have hlt := randomIndex_lt s.candidate_list hne (rnd s.pos)
  have hmem : s.candidate_list.getD (uniform 0 ((s.candidate_list.length : Int) - 1)
      (rnd s.pos)).toNat (0, 0) ∈ s.candidate_list := by
    rw [List.getD_eq_getElem _ _ hlt]; exact List.getElem_mem _
  obtain ⟨hWc, hWs⟩ := h.cand _ hmem
  obtain ⟨hp1, hp2, hp3⟩ := h.pick hc hWc
  obtain ⟨hr1, hr2⟩ := connector_sides_rooms hc hWc
  unfold primStep
  simp only
  split_ifs with h1 h2
  · exact h.erase _ (hp1.mp h2) rfl rfl rfl rfl
  · have h3 : ¬ (s.m.maze (side1 (s.candidate_list.getD (uniform 0
        ((s.candidate_list.length : Int) - 1) (rnd s.pos)).toNat (0, 0))).1
        (side1 (s.candidate_list.getD (uniform 0
        ((s.candidate_list.length : Int) - 1) (rnd s.pos)).toNat (0, 0))).2 = EXPLORED ∧
        s.m.maze (side2 (s.candidate_list.getD (uniform 0
        ((s.candidate_list.length : Int) - 1) (rnd s.pos)).toNat (0, 0))).1
        (side2 (s.candidate_list.getD (uniform 0
        ((s.candidate_list.length : Int) - 1) (rnd s.pos)).toNat (0, 0))).2 = EXPLORED) :=
      fun h4 => h2 (hp1.mpr h4)
    rcases h.rooms _ _ hr1 with ha | ha <;> rcases h.rooms _ _ hr2 with hb | hb
    · rcases hWs with h4 | h4
      · rw [ha] at h4; exact absurd h4 (by decide)
      · rw [hb] at h4; exact absurd h4 (by decide)
    · simp only [hp3 ha hb]
      exact h.carve hc _ _ _ _ rfl hWc h1 (Or.inr ⟨rfl, rfl⟩) hb ha rfl rfl rfl
        ((shuffle_perm _ _).trans h.order)
    · simp only [hp2 ha hb]
      exact h.carve hc _ _ _ _ rfl hWc h1 (Or.inl ⟨rfl, rfl⟩) ha hb rfl rfl rfl
        ((shuffle_perm _ _).trans h.order)
    · exact absurd ⟨ha, hb⟩ h3
  · exact ⟨h.rooms, h.others, h.cache, h.tree, h.cand, h.frontier, h.order, h.seed⟩

theorem primLoop_inv (c : Config) (hc : OddDims c) (rnd : Nat → Nat) :
    ∀ (fuel : Nat) (s s1 : PrimState), PrimInv c s → primLoop c rnd fuel s = some s1 →
      PrimInv c s1 ∧ s1.candidate_list = [] := by
  intro fuel
  induction fuel with
  | zero =>
    intro s s1 h h1
    simp only [primLoop] at h1
    split_ifs at h1 with h2
    simp only [Option.some.injEq] at h1
    rw [← h1]; exact ⟨h, h2⟩
  | succ n ih =>
    intro s s1 h h1
    simp only [primLoop] at h1
    split_ifs at h1 with h2
    · simp only [Option.some.injEq] at h1
      rw [← h1]; exact ⟨h, h2⟩
    · exact ih _ _ (primStep_inv c hc rnd s h h2) h1

theorem resetValue_room {c : Config} {y x : Int} (h : isRoom c y x) :
    resetValue c y x = GROUND := by
  obtain ⟨h1, h2, h3⟩ := h
  unfold inMaze at h1
  unfold resetValue
  rw [if_neg (by omega), if_pos ⟨h3, h2⟩]

theorem resetValue_other {c : Config} {y x : Int} (hin : is_in_maze c y x)
    (h : ¬ isRoom c y x) : resetValue c y x = WALL := by
  unfold resetValue
  split_ifs with h1 h2
  · rfl
  · exfalso
    apply h
    unfold is_in_maze at hin
    refine ⟨?_, h2.2, h2.1⟩
    unfold inMaze; omega
  · rfl

theorem PrimInv.seeded (c : Config) (hc : OddDims c) (g : Grid) (sy sx : Int)
    (hS : isRoom c sy sx) (s : PrimState)
    (hmz : s.m.maze = (resetGrid c g).set sy sx EXPLORED)
    (hcache : s.explored_cache = [(sy, sx)])
    (hcl : s.candidate_list = seedCandidates c sy sx s.direction_order [])
    (hperm : s.direction_order.Perm [0, 1, 2, 3]) : PrimInv c s := by
  have hm : ∀ y x, s.m.maze y x =
      if y = sy ∧ x = sx then EXPLORED
      else if is_in_maze c y x then resetValue c y x else g y x := by
    intro y x
    rw [hmz]
    unfold Grid.set
    rw [resetGrid_apply]
  have hSe : s.m.maze sy sx = EXPLORED := by rw [hmz]; exact set_self _ _ _ _
  have hexp : ∀ y x, is_in_maze c y x → s.m.maze y x = EXPLORED → y = sy ∧ x = sx := by
    intro y x hin h1
    by_contra h2
    rw [hm, if_neg h2, if_pos hin] at h1
    by_cases h3 : isRoom c y x
    · rw [resetValue_room h3] at h1; exact absurd h1 (by decide)
    · rw [resetValue_other hin h3] at h1; exact absurd h1 (by decide)
  constructor
  · intro y x hr
    rw [hm]
    split_ifs with h1 h2
    · exact Or.inr rfl
    · exact Or.inl (resetValue_room hr)
    · exact absurd (inMaze_in hr.1) h2
  · intro y x hin hnr
    left
    rw [hm, if_neg, if_pos hin, resetValue_other hin hnr]
    rintro ⟨rfl, rfl⟩; exact hnr hS
  · intro p
    rw [hcache, List.mem_singleton]
    constructor
    · intro h1; rw [h1]; exact ⟨inMaze_in hS.1, hSe⟩
    · rintro ⟨h1, h2⟩
      obtain ⟨h3, h4⟩ := hexp _ _ h1 h2
      exact Prod.ext h3 h4
  · rw [hcache]
    simp [TreeOrder]
  · intro p hp
    rw [hcl] at hp
    rcases seedCandidates_mem _ _ _ _ _ p hp with h1 | ⟨j, hj, h1, rfl⟩
    · exact absurd h1 (List.not_mem_nil _)
    · have hd := index_dir (hperm.subset hj)
      obtain ⟨h2, h3⟩ := room_plus_dir (r := (sy, sx)) hS.2 hd h1
      refine ⟨h2, ?_⟩
      rcases room_next_to_connector (r := (sy, sx)) hS.2 h3 with h4 | h4
      · left; rw [← h4]; exact hSe
      · right; rw [← h4]; exact hSe
  · intro p hp _ hs
    rw [hcl]
    obtain ⟨hq1, hq2⟩ := connector_sides_rooms hc hp
    have h2 : adjacent (sy, sx) p := by
      rcases hs with ⟨h3, _⟩ | ⟨_, h3⟩
      · obtain ⟨h4, h5⟩ := hexp _ _ (inMaze_in hq1.1) h3
        rw [← h4, ← h5]; exact side1_adjacent p
      · obtain ⟨h4, h5⟩ := hexp _ _ (inMaze_in hq2.1) h3
        rw [← h4, ← h5]; exact side2_adjacent p
    obtain ⟨d, hd, h3, h4⟩ := h2
    obtain ⟨j, hj, rfl⟩ := dir_index hd
    have h5 : p = (sy + (dir_vec.getD j (0, 0)).1, sx + (dir_vec.getD j (0, 0)).2) :=
      Prod.ext h3 h4
    rw [h5]
    apply seedCandidates_new _ _ _ _ _ j (hperm.symm.subset hj)
    have := hp.1
    rw [h5] at this
    unfold inMaze at *
    simpa using this
  · exact hperm
  · exact ⟨sy, sx, hS, hSe⟩

theorem primInit_inv (c : Config) (hc : OddDims c) (rnd : Nat → Nat) (m : MazeModel) :
    PrimInv c (primInit c rnd m) := by
  have hy := seed_interior c.MAZE_HEIGHT hc.1 (rnd 0)
  have hx := seed_interior c.MAZE_WIDTH hc.2.1 (rnd (0 + 1))
  have hS : isRoom c (2 * uniform 0 ((c.MAZE_HEIGHT - 3).tdiv 2) (rnd 0) + 1)
      (2 * uniform 0 ((c.MAZE_WIDTH - 3).tdiv 2) (rnd (0 + 1)) + 1) := by
    unfold isRoom inMaze; omega
  exact PrimInv.seeded c hc m.maze _ _ hS _ rfl rfl rfl (shuffle_perm _ _)

theorem PrimInv.sides_alike {c : Config} {s : PrimState} (h : PrimInv c s) (hc : OddDims c)
    (hempty : s.candidate_list = []) {p : Int × Int} (hp : isConnector c p.1 p.2) :
    s.m.maze (side1 p).1 (side1 p).2 = EXPLORED ↔ s.m.maze (side2 p).1 (side2 p).2 = EXPLORED := by
  obtain ⟨hq1, hq2⟩ := connector_sides_rooms hc hp
  have hnr : ¬ isRoom c p.1 p.2 := fun h1 => by have := hp.2; have := h1.2; omega
  rcases h.others p.1 p.2 (inMaze_in hp.1) hnr with h1 | ⟨_, _, h2, h3⟩
  · have hf := h.frontier p hp h1
    rw [hempty] at hf
    rcases h.rooms _ _ hq1 with ha | ha <;> rcases h.rooms _ _ hq2 with hb | hb
    · rw [ha, hb]
    · exact absurd (hf (Or.inr ⟨ha, hb⟩)) (List.not_mem_nil _)
    · exact absurd (hf (Or.inl ⟨ha, hb⟩)) (List.not_mem_nil _)
    · rw [ha, hb]
  · rw [h2, h3]

theorem PrimInv.step_down {c : Config} {s : PrimState} (h : PrimInv c s) (hc : OddDims c)
    (hempty : s.candidate_list = []) {y x : Int} (h1 : isRoom c y x) (h2 : isRoom c (y + 2) x) :
    s.m.maze y x = EXPLORED ↔ s.m.maze (y + 2) x = EXPLORED := by
  have hp : isConnector c (y + 1) x := by
    have := h1.1; have := h2.1; have := h1.2
    unfold isConnector inMaze at *; omega
  have e1 : side1 (y + 1, x) = (y, x) := by
    unfold side1; rw [if_pos (by have := h1.2; dsimp only; omega)]
    exact Prod.ext (by dsimp only; omega) rfl
  have e2 : side2 (y + 1, x) = (y + 2, x) := by
    unfold side2; rw [if_pos (by have := h1.2; dsimp only; omega)]
    exact Prod.ext (by dsimp only; omega) rfl
  have := h.sides_alike hc hempty (p := (y + 1, x)) hp
  rw [e1, e2] at this
  exact this

theorem PrimInv.step_right {c : Config} {s : PrimState} (h : PrimInv c s) (hc : OddDims c)
    (hempty : s.candidate_list = []) {y x : Int} (h1 : isRoom c y x) (h2 : isRoom c y (x + 2)) :
    s.m.maze y x = EXPLORED ↔ s.m.maze y (x + 2) = EXPLORED := by
  have hp : isConnector c y (x + 1) := by
    have := h1.1; have := h2.1; have := h1.2
    unfold isConnector inMaze at *; omega
  have e1 : side1 (y, x + 1) = (y, x) := by
    unfold side1; rw [if_neg (by have := h1.2; dsimp only; omega)]
    exact Prod.ext rfl (by dsimp only; omega)
  have e2 : side2 (y, x + 1) = (y, x + 2) := by
    unfold side2; rw [if_neg (by have := h1.2; dsimp only; omega)]
    exact Prod.ext rfl (by dsimp only; omega)
  have := h.sides_alike hc hempty (p := (y, x + 1)) hp
  rw [e1, e2] at this
  exact this

theorem PrimInv.column {c : Config} {s : PrimState} (h : PrimInv c s) (hc : OddDims c)
    (hempty : s.candidate_list = []) (x : Int) :
    ∀ (n : Nat) (y : Int), isRoom c y x → isRoom c (y + 2 * n) x →
      (s.m.maze y x = EXPLORED ↔ s.m.maze (y + 2 * n) x = EXPLORED) := by
  intro n
  induction n with
  | zero => intro y _ _; simp
  | succ n ih =>
    intro y h1 h2
    have h3 : isRoom c (y + 2 * n) x := by
      have := h1.1; have := h2.1; have := h1.2
      unfold isRoom inMaze at *; push_cast at *; omega
    have h4 : y + 2 * ((n + 1 : Nat) : Int) = y + 2 * n + 2 := by push_cast; ring
    rw [h4] at h2 ⊢
    exact (ih y h1 h3).trans (h.step_down hc hempty h3 h2)

theorem PrimInv.row {c : Config} {s : PrimState} (h : PrimInv c s) (hc : OddDims c)
    (hempty : s.candidate_list = []) (y : Int) :
    ∀ (n : Nat) (x : Int), isRoom c y x → isRoom c y (x + 2 * n) →
      (s.m.maze y x = EXPLORED ↔ s.m.maze y (x + 2 * n) = EXPLORED) := by
  intro n
  induction n with
  | zero => intro x _ _; simp
  | succ n ih =>
    intro x h1 h2
    have h3 : isRoom c y (x + 2 * n) := by
      have := h1.1; have := h2.1; have := h1.2
      unfold isRoom inMaze at *; push_cast at *; omega
    have h4 : x + 2 * ((n + 1 : Nat) : Int) = x + 2 * n + 2 := by push_cast; ring
    rw [h4] at h2 ⊢
    exact (ih x h1 h3).trans (h.step_right hc hempty h3 h2)

theorem PrimInv.rooms_alike {c : Config} {s : PrimState} (h : PrimInv c s) (hc : OddDims c)
    (hempty : s.candidate_list = []) {y1 x1 y2 x2 : Int} (h1 : isRoom c y1 x1)
    (h2 : isRoom c y2 x2) : s.m.maze y1 x1 = EXPLORED ↔ s.m.maze y2 x2 = EXPLORED := by
  have h3 : isRoom c y2 x1 := ⟨by have := h1.1; have := h2.1; unfold inMaze at *; omega,
    h2.2.1, h1.2.2⟩
  have hv : s.m.maze y1 x1 = EXPLORED ↔ s.m.maze y2 x1 = EXPLORED := by
    rcases le_total y1 y2 with hle | hle
    · have e : y2 = y1 + 2 * (((y2 - y1) / 2).toNat : Int) := by
        have := h1.2.1; have := h2.2.1; omega
      have := h.column hc hempty x1 ((y2 - y1) / 2).toNat y1 h1 (by rw [← e]; exact h3)
      rw [← e] at this; exact this
    · have e : y1 = y2 + 2 * (((y1 - y2) / 2).toNat : Int) := by
        have := h1.2.1; have := h2.2.1; omega
      have := h.column hc hempty x1 ((y1 - y2) / 2).toNat y2 h3 (by rw [← e]; exact h1)
      rw [← e] at this; exact this.symm
  have hh : s.m.maze y2 x1 = EXPLORED ↔ s.m.maze y2 x2 = EXPLORED := by
    rcases le_total x1 x2 with hle | hle
    · have e : x2 = x1 + 2 * (((x2 - x1) / 2).toNat : Int) := by
        have := h1.2.2; have := h2.2.2; omega
      have := h.row hc hempty y2 ((x2 - x1) / 2).toNat x1 h3 (by rw [← e]; exact h2)
      rw [← e] at this; exact this
    · have e : x1 = x2 + 2 * (((x1 - x2) / 2).toNat : Int) := by
        have := h1.2.2; have := h2.2.2; omega
      have := h.row hc hempty y2 ((x1 - x2) / 2).toNat x2 h2 (by rw [← e]; exact h3)
      rw [← e] at this; exact this.symm
  exact hv.trans hh

/-- When the candidate list is empty every room is Explored. -/
theorem PrimInv.all_explored {c : Config} {s : PrimState} (h : PrimInv c s) (hc : OddDims c)
    (hempty : s.candidate_list = []) {y x : Int} (hr : isRoom c y x) :
    s.m.maze y x = EXPLORED := by
  obtain ⟨sy, sx, h1, h2⟩ := h.seed
  exact (h.rooms_alike hc hempty h1 hr).mp h2

theorem revertPrim_maze :
    ∀ (cache : List (Int × Int)) (m : MazeModel) (y x : Int),
      (revertPrim m cache).maze y x = if (y, x) ∈ cache then GROUND else m.maze y x := by
  intro cache
  induction cache with
  | nil => intro m y x; simp [revertPrim]
  | cons p ps ih =>
    intro m y x
    unfold revertPrim
    rw [List.foldl_cons]
    have := ih ((m.setCell p.1 p.2 GROUND).enFramequeue p.1 p.2 GROUND) y x
    unfold revertPrim at this
    rw [this]
    by_cases h1 : (y, x) ∈ ps
    · rw [if_pos h1, if_pos (List.mem_cons_of_mem _ h1)]
    · rw [if_neg h1]
      by_cases h2 : y = p.1 ∧ x = p.2
      · rw [if_pos (by rw [h2.1, h2.2]; exact List.mem_cons_self _ _)]
        simp only [MazeModel.enFramequeue, MazeModel.setCell]
        rw [h2.1, h2.2, set_self]
      · rw [if_neg]
        · simp only [MazeModel.enFramequeue, MazeModel.setCell]
          exact set_other _ _ _ _ _ _ h2
        · intro h3
          rcases List.mem_cons.mp h3 with h4 | h4
          · exact h2 ⟨congrArg Prod.fst h4, congrArg Prod.snd h4⟩
          · exact h1 h4

/-- The non-Wall cells after `generateMazePrim` are the cells of the cache. -/
theorem PrimInv.passable_iff {c : Config} {s : PrimState} (h : PrimInv c s) (hc : OddDims c)
    (hempty : s.candidate_list = []) (hB : isRoom c c.BEGIN_Y c.BEGIN_X)
    (hE : isRoom c c.END_Y c.END_X) (p : Int × Int) :
    passable c (setFlag c (revertPrim s.m s.explored_cache)).maze p ↔ p ∈ s.explored_cache := by
  have hval : ∀ y x, (setFlag c (revertPrim s.m s.explored_cache)).maze y x =
      if y = c.END_Y ∧ x = c.END_X then END else if y = c.BEGIN_Y ∧ x = c.BEGIN_X then BEGIN
      else if (y, x) ∈ s.explored_cache then GROUND else s.m.maze y x := by
    intro y x
    simp only [setFlag, MazeModel.enFramequeue, MazeModel.setCell]
    unfold Grid.set
    rw [revertPrim_maze]
  have hBc : (c.BEGIN_Y, c.BEGIN_X) ∈ s.explored_cache :=
    (h.cache _).mpr ⟨inMaze_in hB.1, h.all_explored hc hempty hB⟩
  have hEc : (c.END_Y, c.END_X) ∈ s.explored_cache :=
    (h.cache _).mpr ⟨inMaze_in hE.1, h.all_explored hc hempty hE⟩
  unfold passable
  rw [hval]
  constructor
  · rintro ⟨hin, hnw⟩
    by_contra hp
    have h1 : ¬ (p.1 = c.END_Y ∧ p.2 = c.END_X) := by
      intro h2; apply hp; rw [show p = (c.END_Y, c.END_X) from Prod.ext h2.1 h2.2]; exact hEc
    have h2 : ¬ (p.1 = c.BEGIN_Y ∧ p.2 = c.BEGIN_X) := by
      intro h2; apply hp; rw [show p = (c.BEGIN_Y, c.BEGIN_X) from Prod.ext h2.1 h2.2]; exact hBc
    rw [if_neg h1, if_neg h2, if_neg hp] at hnw
    have h3 : s.m.maze p.1 p.2 ≠ EXPLORED := fun h4 => hp ((h.cache p).mpr ⟨hin, h4⟩)
    by_cases hr : isRoom c p.1 p.2
    · exact h3 (h.all_explored hc hempty hr)
    · rcases h.others p.1 p.2 hin hr with h4 | ⟨h4, _⟩
      · exact hnw h4
      · exact h3 h4
  · intro hp
    refine ⟨((h.cache p).mp hp).1, ?_⟩
    split_ifs <;> decide

theorem prim_tree (c : Config) (hc : OddDims c) (hB : isRoom c c.BEGIN_Y c.BEGIN_X)
    (hE : isRoom c c.END_Y c.END_X) (rnd : Nat → Nat) (m : MazeModel) (fuel : Nat)
    (m1 : MazeModel) (hrun : generateMazePrim c rnd fuel m = some m1) :
    (∀ y x, isRoom c y x → passable c m1.maze (y, x)) ∧
    (∀ p q, passable c m1.maze p → passable c m1.maze q → joined c m1.maze p q) ∧
    ¬ hasCycle c m1.maze := by
  unfold generateMazePrim at hrun
  split at hrun
  · exact absurd hrun (by simp)
  · next s hs =>
    simp only [Option.some.injEq] at hrun
    rw [← hrun]
    obtain ⟨hinv, hempty⟩ := primLoop_inv c hc rnd fuel _ s (primInit_inv c hc rnd m) hs
    have hiff := hinv.passable_iff hc hempty hB hE
    have htree : TreeOrder s.explored_cache.reverse := hinv.tree
    refine ⟨?_, ?_, ?_⟩
    · intro y x hr
      exact (hiff _).mpr ((hinv.cache _).mpr ⟨inMaze_in hr.1, hinv.all_explored hc hempty hr⟩)
    · intro p q hp hq
      have := tree_connected _ htree p (List.mem_reverse.mpr ((hiff p).mp hp)) q
        (List.mem_reverse.mpr ((hiff q).mp hq))
      refine Relation.ReflTransGen.mono ?_ this
      intro a b hab
      exact ⟨(hiff a).mpr (List.mem_reverse.mp hab.1), (hiff b).mpr (List.mem_reverse.mp hab.2.1),
        hab.2.2⟩
    · rintro ⟨n, f, hinj, hpass, hadj⟩
      exact tree_acyclic _ htree n f hinj
        (fun i => List.mem_reverse.mpr ((hiff _).mp (hpass i))) hadj

theorem odd_cell_room {c : Config} (hc : OddDims c) {y x : Int}
    (h : is_in_maze c y x ∧ y % 2 = 1 ∧ x % 2 = 1) : isRoom c y x := by
  obtain ⟨⟨h1, h2, h3, h4⟩, h5, h6⟩ := h
  obtain ⟨_, _, h7, h8⟩ := hc
  refine ⟨?_, h5, h6⟩
  unfold inMaze; omega

theorem count_eraseIdx_le (p : Int × Int) :
    ∀ (l : List (Int × Int)) (i : Nat), (l.eraseIdx i).count p ≤ l.count p := by
  intro l
  induction l with
  | nil => intro i; simp
  | cons a l ih =>
    intro i
    cases i with
    | zero => simp only [List.eraseIdx_cons_zero, List.count_cons]; omega
    | succ j =>
      simp only [List.eraseIdx_cons_succ, List.count_cons]
      have := ih j
      omega

theorem count_eraseIdx_getD :
    ∀ (l : List (Int × Int)) (i : Nat), i < l.length →
      (l.eraseIdx i).count (l.getD i (0, 0)) + 1 = l.count (l.getD i (0, 0)) := by
  intro l
  induction l with
  | nil => intro i h; simp at h
  | cons a l ih =>
    intro i h
    cases i with
    | zero => simp [List.count_cons]
    | succ j =>
      simp only [List.length_cons, Nat.add_lt_add_iff_right] at h
      simp only [List.eraseIdx_cons_succ, List.getD_cons_succ, List.count_cons]
      have := ih j h
      omega

/-- The cell that the direction index leads to from `(ty, tx)`. -/
theorem dirTarget_filter (ty tx : Int) (p : Int × Int) (order : List Nat)
    (ho : order.Perm [0, 1, 2, 3]) :
    (order.filter (fun index => decide ((ty + (dir_vec.getD index (0, 0)).1,
      tx + (dir_vec.getD index (0, 0)).2) = p))).length ≤ 1 := by
  rw [(ho.filter _).length_eq]
  simp only [List.filter, dir_vec, List.getD_cons_zero, List.getD_cons_succ]
  obtain ⟨py, px⟩ := p
  simp only [Prod.mk.injEq]
  split <;> split <;> split <;> split <;> simp_all <;> omega

theorem wallCandidates_count (c : Config) (g : Grid) (ty tx : Int) (p : Int × Int) :
    ∀ (order : List Nat) (cl : List (Int × Int)),
      (wallCandidates c g ty tx order cl).count p ≤ cl.count p +
        (order.filter (fun index => decide ((ty + (dir_vec.getD index (0, 0)).1,
          tx + (dir_vec.getD index (0, 0)).2) = p))).length := by
  intro order
  induction order with
  | nil => intro cl; simp [wallCandidates]
  | cons i is ih =>
    intro cl
    unfold wallCandidates
    rw [List.foldl_cons]
    have h1 := ih (if inMaze c ty tx (dir_vec.getD i (0, 0)).1 (dir_vec.getD i (0, 0)).2 ∧
      g (ty + (dir_vec.getD i (0, 0)).1) (tx + (dir_vec.getD i (0, 0)).2) = WALL then
      cl ++ [(ty + (dir_vec.getD i (0, 0)).1, tx + (dir_vec.getD i (0, 0)).2)] else cl)
    unfold wallCandidates at h1
    refine le_trans h1 ?_
    by_cases h2 : (ty + (dir_vec.getD i (0, 0)).1, tx + (dir_vec.getD i (0, 0)).2) = p
    · rw [List.filter_cons_of_pos (by simpa using h2), List.length_cons]
      split_ifs
      · rw [List.count_append, h2, List.count_singleton_self]; omega
      · omega
    · rw [List.filter_cons_of_neg (by simpa using h2)]
      split_ifs
      · rw [List.count_append, List.count_singleton, if_neg (by simpa using h2)]; omega
      · omega

theorem seedCandidates_count (c : Config) (sy sx : Int) (p : Int × Int) :
    ∀ (order : List Nat) (cl : List (Int × Int)),
      (seedCandidates c sy sx order cl).count p ≤ cl.count p +
        (order.filter (fun index => decide ((sy + (dir_vec.getD index (0, 0)).1,
          sx + (dir_vec.getD index (0, 0)).2) = p))).length := by
  intro order
  induction order with
  | nil => intro cl; simp [seedCandidates]
  | cons i is ih =>
    intro cl
    unfold seedCandidates
    rw [List.foldl_cons]
    have h1 := ih (if inMaze c sy sx (dir_vec.getD i (0, 0)).1 (dir_vec.getD i (0, 0)).2 then
      cl ++ [(sy + (dir_vec.getD i (0, 0)).1, sx + (dir_vec.getD i (0, 0)).2)] else cl)
    unfold seedCandidates at h1
    refine le_trans h1 ?_
    by_cases h2 : (sy + (dir_vec.getD i (0, 0)).1, sx + (dir_vec.getD i (0, 0)).2) = p
    · rw [List.filter_cons_of_pos (by simpa using h2), List.length_cons]
      split_ifs
      · rw [List.count_append, h2, List.count_singleton_self]; omega
      · omega
    · rw [List.filter_cons_of_neg (by simpa using h2)]
      split_ifs
      · rw [List.count_append, List.count_singleton, if_neg (by simpa using h2)]; omega
      · omega

theorem wallCandidates_length (c : Config) (g : Grid) (ty tx : Int) :
    ∀ (order : List Nat) (cl : List (Int × Int)),
      (wallCandidates c g ty tx order cl).length ≤ cl.length + order.length := by
  intro order
  induction order with
  | nil => intro cl; simp [wallCandidates]
  | cons i is ih =>
    intro cl
    unfold wallCandidates
    rw [List.foldl_cons]
    have h1 := ih (if inMaze c ty tx (dir_vec.getD i (0, 0)).1 (dir_vec.getD i (0, 0)).2 ∧
      g (ty + (dir_vec.getD i (0, 0)).1) (tx + (dir_vec.getD i (0, 0)).2) = WALL then
      cl ++ [(ty + (dir_vec.getD i (0, 0)).1, tx + (dir_vec.getD i (0, 0)).2)] else cl)
    unfold wallCandidates at h1
    refine le_trans h1 ?_
    rw [List.length_cons]
    split_ifs
    · rw [List.length_append, List.length_singleton]; omega
    · omega

theorem seedCandidates_length (c : Config) (sy sx : Int) :
    ∀ (order : List Nat) (cl : List (Int × Int)),
      (seedCandidates c sy sx order cl).length ≤ cl.length + order.length := by
  intro order
  induction order with
  | nil => intro cl; simp [seedCandidates]
  | cons i is ih =>
    intro cl
    unfold seedCandidates
    rw [List.foldl_cons]
    have h1 := ih (if inMaze c sy sx (dir_vec.getD i (0, 0)).1 (dir_vec.getD i (0, 0)).2 then
      cl ++ [(sy + (dir_vec.getD i (0, 0)).1, sx + (dir_vec.getD i (0, 0)).2)] else cl)
    unfold seedCandidates at h1
    refine le_trans h1 ?_
    rw [List.length_cons]
    split_ifs
    · rw [List.length_append, List.length_singleton]; omega
    · omega

/-- The three ways a round of the candidate loop can go. -/
theorem primStep_cases (c : Config) (hc : OddDims c) (rnd : Nat → Nat) (s : PrimState)
    (h : PrimInv c s) (hne : s.candidate_list ≠ []) :
    ∃ (i : Nat) (W : Int × Int), i < s.candidate_list.length ∧
      s.candidate_list.getD i (0, 0) = W ∧ isConnector c W.1 W.2 ∧
      ((s.m.maze W.1 W.2 ≠ WALL ∧ (primStep c rnd s).m.maze = s.m.maze ∧
          (primStep c rnd s).candidate_list = s.candidate_list) ∨
        (s.m.maze W.1 W.2 = WALL ∧
          (s.m.maze (side1 W).1 (side1 W).2 = EXPLORED ∧
            s.m.maze (side2 W).1 (side2 W).2 = EXPLORED) ∧
          (primStep c rnd s).m.maze = s.m.maze ∧
          (primStep c rnd s).candidate_list = s.candidate_list.eraseIdx i) ∨
        (s.m.maze W.1 W.2 = WALL ∧ ∃ A B : Int × Int,
          ((A = side1 W ∧ B = side2 W) ∨ (A = side2 W ∧ B = side1 W)) ∧
          s.m.maze A.1 A.2 = EXPLORED ∧ s.m.maze B.1 B.2 = GROUND ∧
          (primStep c rnd s).m.maze = (s.m.maze.set W.1 W.2 EXPLORED).set B.1 B.2 EXPLORED ∧
          (primStep c rnd s).candidate_list =
            wallCandidates c (primStep c rnd s).m.maze B.1 B.2
              (primStep c rnd s).direction_order (s.candidate_list.eraseIdx i) ∧
          (primStep c rnd s).direction_order.Perm [0, 1, 2, 3])) := by
  have hlt := randomIndex_lt s.candidate_list hne (rnd s.pos)
  have hmem : s.candidate_list.getD (uniform 0 ((s.candidate_list.length : Int) - 1)
      (rnd s.pos)).toNat (0, 0) ∈ s.candidate_list := by
    rw [List.getD_eq_getElem _ _ hlt]; exact List.getElem_mem _
  obtain ⟨hWc, hWs⟩ := h.cand _ hmem
  obtain ⟨hp1, hp2, hp3⟩ := h.pick hc hWc
  obtain ⟨hr1, hr2⟩ := connector_sides_rooms hc hWc
  refine ⟨_, _, hlt, rfl, hWc, ?_⟩
  by_cases h1 : s.m.maze (s.candidate_list.getD (uniform 0 ((s.candidate_list.length : Int) - 1)
      (rnd s.pos)).toNat (0, 0)).1 (s.candidate_list.getD (uniform 0
      ((s.candidate_list.length : Int) - 1) (rnd s.pos)).toNat (0, 0)).2 = WALL
  · right
    rcases h.rooms _ _ hr1 with ha | ha <;> rcases h.rooms _ _ hr2 with hb | hb
    · rcases hWs with h4 | h4
      · rw [ha] at h4; exact absurd h4 (by decide)
      · rw [hb] at h4; exact absurd h4 (by decide)
    · right
      have h2 : ¬ ((probe c s.m.maze _ _ (-1) 0 = EXPLORED ∧ probe c s.m.maze _ _ 1 0 = EXPLORED) ∨
          (probe c s.m.maze _ _ 0 (-1) = EXPLORED ∧ probe c s.m.maze _ _ 0 1 = EXPLORED)) :=
        fun h3 => by have := (hp1.mp h3).1; rw [ha] at this; exact absurd this (by decide)
      refine ⟨h1, _, _, Or.inr ⟨rfl, rfl⟩, hb, ha, ?_, ?_, ?_⟩
      · unfold primStep
        simp only [h1, if_true, h2, if_false, hp3 ha hb]
        rfl
      · unfold primStep
        simp only [h1, if_true, h2, if_false, hp3 ha hb]
        rfl
      · unfold primStep
        simp only [h1, if_true, h2, if_false]
        exact (shuffle_perm _ _).trans h.order
    · right
      have h2 : ¬ ((probe c s.m.maze _ _ (-1) 0 = EXPLORED ∧ probe c s.m.maze _ _ 1 0 = EXPLORED) ∨
          (probe c s.m.maze _ _ 0 (-1) = EXPLORED ∧ probe c s.m.maze _ _ 0 1 = EXPLORED)) :=
        fun h3 => by have := (hp1.mp h3).2; rw [hb] at this; exact absurd this (by decide)
      refine ⟨h1, _, _, Or.inl ⟨rfl, rfl⟩, ha, hb, ?_, ?_, ?_⟩
      · unfold primStep
        simp only [h1, if_true, h2, if_false, hp2 ha hb]
        rfl
      · unfold primStep
        simp only [h1, if_true, h2, if_false, hp2 ha hb]
        rfl
      · unfold primStep
        simp only [h1, if_true, h2, if_false]
        exact (shuffle_perm _ _).trans h.order
    · left
      have h2 := hp1.mpr ⟨ha, hb⟩
      refine ⟨h1, ⟨ha, hb⟩, ?_, ?_⟩
      · unfold primStep
        simp only [h1, if_true, h2]
      · unfold primStep
        simp only [h1, if_true, h2]
  · left
    refine ⟨h1, ?_, ?_⟩
    · unfold primStep
      simp only [h1, if_false]
    · unfold primStep
      simp only [h1, if_false]

theorem primStep_count (c : Config) (hc : OddDims c) (rnd : Nat → Nat) (s : PrimState)
    (h : PrimInv c s) (hk : PrimCount c s) (hne : s.candidate_list ≠ []) :
    PrimCount c (primStep c rnd s) ∧ primMeasure c (primStep c rnd s) < primMeasure c s := by
  obtain ⟨i, W, hi, hW, hWc, hcase⟩ := primStep_cases c hc rnd s h hne
  have hWmem : W ∈ s.candidate_list := by
    rw [← hW, List.getD_eq_getElem _ _ hi]; exact List.getElem_mem _
  have hlen : (s.candidate_list.eraseIdx i).length + 1 = s.candidate_list.length := by
    rw [List.length_eraseIdx, if_pos hi]; omega
  rcases hcase with ⟨h1, _⟩ | ⟨_, _, hm, hcl⟩ | ⟨hWw, A, B, hsides, hA, hB, hm, hcl, ho⟩
  · exact absurd (hk.walls W hWmem) h1
  · refine ⟨⟨?_, ?_⟩, ?_⟩
    · rw [hm, hcl]
      exact fun p hp => hk.walls p (List.mem_of_mem_eraseIdx hp)
    · rw [hm, hcl]
      exact fun p hp => le_trans (count_eraseIdx_le p _ i) (hk.once p hp)
    · unfold primMeasure
      rw [hm, hcl]; omega
  · obtain ⟨hr1, hr2⟩ := connector_sides_rooms hc hWc
    have hBr : isRoom c B.1 B.2 := by
      rcases hsides with ⟨_, h1⟩ | ⟨_, h1⟩ <;> rw [h1] <;> assumption
    have hnb : ¬ (s.m.maze (side1 W).1 (side1 W).2 = EXPLORED ∧
        s.m.maze (side2 W).1 (side2 W).2 = EXPLORED) := by
      rintro ⟨h1, h2⟩
      rcases hsides with ⟨_, h3⟩ | ⟨_, h3⟩
      · rw [h3, h2] at hB; exact absurd hB (by decide)
      · rw [h3, h1] at hB; exact absurd hB (by decide)
    have hWout : W ∉ s.candidate_list.eraseIdx i := by
      have h1 := count_eraseIdx_getD s.candidate_list i hi
      rw [hW] at h1
      have h2 := hk.once W hnb
      exact List.count_eq_zero.mp (by omega)
    have hval : ∀ y x, (primStep c rnd s).m.maze y x =
        if y = B.1 ∧ x = B.2 then EXPLORED else if y = W.1 ∧ x = W.2 then EXPLORED
        else s.m.maze y x := by
      intro y x; rw [hm]; rfl
    have hmono : ∀ y x, s.m.maze y x = EXPLORED → (primStep c rnd s).m.maze y x = EXPLORED := by
      intro y x h1
      rw [hval]; split_ifs <;> first | rfl | exact h1
    have hBe : (primStep c rnd s).m.maze B.1 B.2 = EXPLORED := by
      rw [hval, if_pos ⟨rfl, rfl⟩]
    refine ⟨⟨?_, ?_⟩, ?_⟩
    · intro p hp
      rw [hcl] at hp
      rcases wallCandidates_mem _ _ _ _ _ _ p hp with h1 | ⟨j, _, _, h2, rfl⟩
      · have h2 := hk.walls p (List.mem_of_mem_eraseIdx h1)
        have h3 : ¬ (p.1 = B.1 ∧ p.2 = B.2) := by
          intro h4; rw [h4.1, h4.2, hB] at h2; exact absurd h2 (by decide)
        have h4 : ¬ (p.1 = W.1 ∧ p.2 = W.2) := by
          intro h5; exact hWout (by rw [← show p = W from Prod.ext h5.1 h5.2]; exact h1)
        rw [hval, if_neg h3, if_neg h4]; exact h2
      · exact h2
    · intro p hp
      rw [hcl]
      refine le_trans (wallCandidates_count c _ B.1 B.2 p _ _) ?_
      by_cases hf : (List.filter (fun index => decide ((B.1 + (dir_vec.getD index (0, 0)).1,
          B.2 + (dir_vec.getD index (0, 0)).2) = p)) (primStep c rnd s).direction_order) = []
      · rw [hf, List.length_nil, add_zero]
        refine le_trans (count_eraseIdx_le p _ i) (hk.once p ?_)
        exact fun h1 => hp ⟨hmono _ _ h1.1, hmono _ _ h1.2⟩
      · have h1 := dirTarget_filter B.1 B.2 p _ ho
        obtain ⟨j, hj⟩ := List.exists_mem_of_ne_nil _ hf
        obtain ⟨hj1, hj2⟩ := List.mem_filter.mp hj
        have hj3 : (B.1 + (dir_vec.getD j (0, 0)).1, B.2 + (dir_vec.getD j (0, 0)).2) = p := by
          simpa using hj2
        have hadj : adjacent B p :=
          ⟨_, index_dir (ho.subset hj1), (congrArg Prod.fst hj3).symm,
            (congrArg Prod.snd hj3).symm⟩
        have hnot : p ∉ s.candidate_list := by
          intro h2
          obtain ⟨_, h3⟩ := h.cand p h2
          rcases room_next_to_connector hBr.2 hadj with h4 | h4
          · rcases h3 with h3 | h3
            · rw [← h4, hB] at h3; exact absurd h3 (by decide)
            · apply hp
              refine ⟨?_, hmono _ _ h3⟩
              rw [← h4]; exact hBe
          · rcases h3 with h3 | h3
            · apply hp
              refine ⟨hmono _ _ h3, ?_⟩
              rw [← h4]; exact hBe
            · rw [← h4, hB] at h3; exact absurd h3 (by decide)
        have h2 : (s.candidate_list.eraseIdx i).count p = 0 :=
          List.count_eq_zero.mpr (fun h3 => hnot (List.mem_of_mem_eraseIdx h3))
        omega
    · unfold primMeasure
      have h1 : groundCount c (primStep c rnd s).m.maze < groundCount c s.m.maze := by
        apply groundCount_lt _ B.1 B.2 (inMaze_in hBr.1) hB (by rw [hBe]; decide)
        rw [hm]
        exact noNewGround_trans (noNewGround_set _ _ _ EXPLORED (by decide))
          (noNewGround_set _ _ _ EXPLORED (by decide))
      have h2 := wallCandidates_length c (primStep c rnd s).m.maze B.1 B.2
        (primStep c rnd s).direction_order (s.candidate_list.eraseIdx i)
      rw [← hcl, ho.length_eq] at h2
      simp only [List.length_cons, List.length_nil] at h2
      omega

theorem primLoop_returns (c : Config) (hc : OddDims c) (rnd : Nat → Nat) :
    ∀ (fuel : Nat) (s : PrimState), PrimInv c s → PrimCount c s → primMeasure c s ≤ fuel →
      ∃ s1, primLoop c rnd fuel s = some s1 := by
  intro fuel
  induction fuel with
  | zero =>
    intro s _ _ hm
    unfold primMeasure at hm
    have : s.candidate_list = [] := List.length_eq_zero.mp (by omega)
    exact ⟨s, by simp [primLoop, this]⟩
  | succ n ih =>
    intro s h hk hm
    simp only [primLoop]
    split_ifs with h1
    · exact ⟨s, rfl⟩
    · obtain ⟨hk1, hlt⟩ := primStep_count c hc rnd s h hk h1
      exact ih _ (primStep_inv c hc rnd s h h1) hk1 (by omega)

theorem groundCount_le_area (c : Config) (g : Grid) :
    groundCount c g ≤ c.MAZE_HEIGHT.toNat * c.MAZE_WIDTH.toNat := by
  unfold groundCount
  refine le_trans (Finset.card_filter_le _ _) ?_
  rw [Finset.card_product, Int.card_Ico, Int.card_Ico, sub_zero, sub_zero]

theorem primInit_count (c : Config) (hc : OddDims c) (rnd : Nat → Nat) (m : MazeModel) :
    PrimCount c (primInit c rnd m) ∧
      primMeasure c (primInit c rnd m) ≤ 4 * (c.MAZE_HEIGHT.toNat * c.MAZE_WIDTH.toNat) := by
  have hy := seed_interior c.MAZE_HEIGHT hc.1 (rnd 0)
  have hx := seed_interior c.MAZE_WIDTH hc.2.1 (rnd (0 + 1))
  have hS : isRoom c (2 * uniform 0 ((c.MAZE_HEIGHT - 3).tdiv 2) (rnd 0) + 1)
      (2 * uniform 0 ((c.MAZE_WIDTH - 3).tdiv 2) (rnd (0 + 1)) + 1) := by
    unfold isRoom inMaze; omega
  have hinv := primInit_inv c hc rnd m
  have hperm : (primInit c rnd m).direction_order.Perm [0, 1, 2, 3] := hinv.order
  have hcl : (primInit c rnd m).candidate_list =
      seedCandidates c (2 * uniform 0 ((c.MAZE_HEIGHT - 3).tdiv 2) (rnd 0) + 1)
        (2 * uniform 0 ((c.MAZE_WIDTH - 3).tdiv 2) (rnd (0 + 1)) + 1)
        (primInit c rnd m).direction_order [] := rfl
  have hmz : (primInit c rnd m).m.maze =
      (resetGrid c m.maze).set (2 * uniform 0 ((c.MAZE_HEIGHT - 3).tdiv 2) (rnd 0) + 1)
        (2 * uniform 0 ((c.MAZE_WIDTH - 3).tdiv 2) (rnd (0 + 1)) + 1) EXPLORED := rfl
  refine ⟨⟨?_, ?_⟩, ?_⟩
  · intro p hp
    obtain ⟨h1, _⟩ := hinv.cand p hp
    have hnr : ¬ isRoom c p.1 p.2 := fun h2 => by have := h1.2; have := h2.2; omega
    rcases hinv.others p.1 p.2 (inMaze_in h1.1) hnr with h2 | ⟨h2, _, h3, _⟩
    · exact h2
    · exfalso
      have h4 := (hinv.cache p).mpr ⟨inMaze_in h1.1, h2⟩
      have h5 : (primInit c rnd m).explored_cache = [(2 * uniform 0
        ((c.MAZE_HEIGHT - 3).tdiv 2) (rnd 0) + 1,
        2 * uniform 0 ((c.MAZE_WIDTH - 3).tdiv 2) (rnd (0 + 1)) + 1)] := rfl
      rw [h5, List.mem_singleton] at h4
      rw [h4] at hnr
      exact hnr hS
  · intro p _
    rw [hcl]
    have h1 := seedCandidates_count c (2 * uniform 0 ((c.MAZE_HEIGHT - 3).tdiv 2) (rnd 0) + 1)
      (2 * uniform 0 ((c.MAZE_WIDTH - 3).tdiv 2) (rnd (0 + 1)) + 1) p
      (primInit c rnd m).direction_order []
    have h2 := dirTarget_filter (2 * uniform 0 ((c.MAZE_HEIGHT - 3).tdiv 2) (rnd 0) + 1)
      (2 * uniform 0 ((c.MAZE_WIDTH - 3).tdiv 2) (rnd (0 + 1)) + 1) p _ hperm
    rw [List.count_nil] at h1
    omega
  · unfold primMeasure
    have h1 : groundCount c (primInit c rnd m).m.maze < groundCount c (resetGrid c m.maze) := by
      apply groundCount_lt _ _ _ (inMaze_in hS.1)
      · rw [resetGrid_apply, if_pos (inMaze_in hS.1)]; exact resetValue_room hS
      · rw [hmz, set_self]; decide
      · rw [hmz]; exact noNewGround_set _ _ _ EXPLORED (by decide)
    have h2 := groundCount_le_area c (resetGrid c m.maze)
    have h3 := seedCandidates_length c (2 * uniform 0 ((c.MAZE_HEIGHT - 3).tdiv 2) (rnd 0) + 1)
      (2 * uniform 0 ((c.MAZE_WIDTH - 3).tdiv 2) (rnd (0 + 1)) + 1)
      (primInit c rnd m).direction_order []
    rw [← hcl, hperm.length_eq] at h3
    simp only [List.length_cons, List.length_nil] at h3
    omega

/-- On an array of odd dimensions `generateMazePrim` returns as soon as the fuel is four times
the number of cells. -/
theorem prim_returns (c : Config) (hc : OddDims c) (rnd : Nat → Nat) (m : MazeModel)
    (fuel : Nat) (hfuel : 4 * (c.MAZE_HEIGHT.toNat * c.MAZE_WIDTH.toNat) ≤ fuel) :
    ∃ m1, generateMazePrim c rnd fuel m = some m1 := by
  obtain ⟨hk, hm⟩ := primInit_count c hc rnd m
  obtain ⟨s1, h1⟩ := primLoop_returns c hc rnd fuel _ (primInit_inv c hc rnd m) hk
    (le_trans hm hfuel)
  exact ⟨_, by unfold generateMazePrim; rw [h1]⟩

/-- The notion of cycle is not vacuous: four Ground cells in a square form one. -/
theorem hasCycle_square : hasCycle cfg2 (fun _ _ => GROUND) := by
  refine ⟨1, ring2, by decide, ?_, ?_⟩
  · intro i
    fin_cases i <;> exact ⟨by decide, by decide⟩
  · intro i
    fin_cases i
    · exact ⟨(0, 1), by decide, by decide, by decide⟩
    · exact ⟨(1, 0), by decide, by decide, by decide⟩
    · exact ⟨(0, -1), by decide, by decide, by decide⟩
    · exact ⟨(-1, 0), by decide, by decide, by decide⟩

/-- C1: on an array of odd height and odd width, both at least 3, with Begin and End on cells
of odd row and odd column, for every random stream: `generateMazePrim` finishes once the fuel is
four times the number of cells, and whenever it finishes the non-Wall cells contain Begin, End
and every cell of odd row and odd column, any two non-Wall cells are joined by a path of
orthogonally adjacent non-Wall cells, and the non-Wall cells contain no cycle. -/
theorem prim_spanning_tree (c : Config) (hc : OddDims c)
    (hB : is_in_maze c c.BEGIN_Y c.BEGIN_X ∧ c.BEGIN_Y % 2 = 1 ∧ c.BEGIN_X % 2 = 1)
    (hE : is_in_maze c c.END_Y c.END_X ∧ c.END_Y % 2 = 1 ∧ c.END_X % 2 = 1)
    (rnd : Nat → Nat) (m : MazeModel) :
    (∀ fuel, 4 * (c.MAZE_HEIGHT.toNat * c.MAZE_WIDTH.toNat) ≤ fuel →
      ∃ m1, generateMazePrim c rnd fuel m = some m1) ∧
    (∀ fuel m1, generateMazePrim c rnd fuel m = some m1 →
      passable c m1.maze (c.BEGIN_Y, c.BEGIN_X) ∧ passable c m1.maze (c.END_Y, c.END_X) ∧
      (∀ y x, is_in_maze c y x → y % 2 = 1 → x % 2 = 1 → passable c m1.maze (y, x)) ∧
      (∀ p q, passable c m1.maze p → passable c m1.maze q → joined c m1.maze p q) ∧
      ¬ hasCycle c m1.maze) := by
  refine ⟨fun fuel hfuel => prim_returns c hc rnd m fuel hfuel, ?_⟩
  intro fuel m1 hrun
  obtain ⟨h1, h2, h3⟩ := prim_tree c hc (odd_cell_room hc hB) (odd_cell_room hc hE) rnd m fuel
    m1 hrun
  exact ⟨h1 _ _ (odd_cell_room hc hB), h1 _ _ (odd_cell_room hc hE),
    fun y x hin hy hx => h1 y x (odd_cell_room hc ⟨hin, hy, hx⟩), h2, h3⟩

theorem prim_spanning_tree_witness :
    ∃ m1, generateMazePrim cfg5 rndZero 16 MazeModel.init = some m1 ∧
      passable cfg5 m1.maze (cfg5.BEGIN_Y, cfg5.BEGIN_X) ∧
      passable cfg5 m1.maze (cfg5.END_Y, cfg5.END_X) ∧
      (∀ y x, is_in_maze cfg5 y x → y % 2 = 1 → x % 2 = 1 → passable cfg5 m1.maze (y, x)) ∧
      (∀ p q, passable cfg5 m1.maze p → passable cfg5 m1.maze q → joined cfg5 m1.maze p q) ∧
      ¬ hasCycle cfg5 m1.maze :=
  ⟨(generateMazePrim cfg5 rndZero 16 MazeModel.init).get (by decide),
    (Option.some_get _).symm,
    (prim_spanning_tree cfg5 ⟨by decide, by decide, by decide, by decide⟩
      ⟨by decide, by decide, by decide⟩ ⟨by decide, by decide, by decide⟩ rndZero
      MazeModel.init).2 16 _ (Option.some_get _).symm⟩

/-! ## Recursive backtracker: the loop never leaves the seed (C2) -/

theorem joined_self_or_step {c : Config} {g : Grid} {p q : Int × Int} (h : joined c g p q) :
    p = q ∨ ∃ r, passable c g r ∧ adjacent r q := by
  unfold joined at h
  rcases Relation.ReflTransGen.cases_tail h with h1 | ⟨r, _, hr⟩
  · exact Or.inl h1.symm
  · exact Or.inr ⟨r, hr.1, hr.2.2⟩

/-- C2 (fails on the code): on the 5 x 5 array, with the all-zero random stream, the seed is
room (1, 1) and after `generateMazeRecursionBacktracker` room (3, 3) is joined to room (1, 1) by
no path of non-Wall cells at all: its four neighbours are Wall. -/
theorem backtracker_room_not_joined :
    ¬ joined cfg5 (generateMazeRecursionBacktracker cfg5 rndZero MazeModel.init).maze
      (1, 1) (3, 3) := by
  intro h
  rcases joined_self_or_step h with h1 | ⟨r, hr, d, hd, h1, h2⟩
  · exact absurd h1 (by decide)
  · obtain ⟨ry, rx⟩ := r
    simp only [dir_vec, List.mem_cons, List.mem_singleton, List.mem_nil_iff, or_false] at hd
    have hw : ∀ y x : Int, (y = 2 ∧ x = 3) ∨ (y = 4 ∧ x = 3) ∨ (y = 3 ∧ x = 2) ∨
        (y = 3 ∧ x = 4) →
        (generateMazeRecursionBacktracker cfg5 rndZero MazeModel.init).maze y x = WALL := by
      rintro y x (⟨rfl, rfl⟩ | ⟨rfl, rfl⟩ | ⟨rfl, rfl⟩ | ⟨rfl, rfl⟩) <;> rfl
    apply hr.2
    apply hw
    simp only at h1 h2
    rcases hd with rfl | rfl | rfl | rfl <;> simp only at h1 h2 <;> omega

/-! ## Recursive division: the closing loop has no exit (C3) -/

theorem gapLoop_none (rnd : Nat → Nat) (lo hi : Int) (fuel pos : Nat) :
    gapLoop rnd lo hi fuel pos = none := by
  induction fuel generalizing pos with
  | zero => rfl
  | succ n ih => simp only [gapLoop]; exact ih _

theorem division_split_none (c : Config) (rnd : Nat → Nat) (fuel : Nat) (s : Grid × Nat)
    (uy lx dy rx : Int) (hin : inMaze c uy lx (dy - uy + 1 - 1) (rx - lx + 1 - 1))
    (hsplit : (rx - lx + 1 ≤ dy - uy + 1 ∧ dy - uy + 1 - 2 > 0) ∨
      (¬ rx - lx + 1 ≤ dy - uy + 1 ∧ rx - lx + 1 - 2 > 0)) :
    generateMazeRecursionDivision c rnd fuel s uy lx dy rx = none := by
  cases fuel with
  | zero => rfl
  | succ n =>
    have h2 : ¬ (rx - lx + 1 < 2 ∧ dy - uy + 1 < 2) := by omega
    rcases hsplit with ⟨h3, h4⟩ | ⟨h3, h4⟩
    · simp only [generateMazeRecursionDivision, h2, hin, not_true_eq_false, if_false, h3,
        decide_True, h4, and_self, if_true, gapLoop_none]
      split
      · rfl
      · split <;> rfl
    · simp only [generateMazeRecursionDivision, h2, hin, not_true_eq_false, if_false, h3,
        decide_False, h4, and_self, if_true, gapLoop_none, Bool.false_eq_true, false_and]
      split
      · rfl
      · split <;> rfl

/-- C3 (fails on the code): on the 5 x 5 array the rectangle (1, 1)-(3, 3) is split, and for
every amount of fuel, every random stream and every grid `generateMazeRecursionDivision` does
not return: the loop that picks the gap has no exit. -/
theorem division_never_returns (rnd : Nat → Nat) (fuel : Nat) (g : Grid) (pos : Nat) :
    generateMazeRecursionDivision cfg5 rnd fuel (g, pos) 1 1 3 3 = none :=
  division_split_none cfg5 rnd fuel (g, pos) 1 1 3 3 (by decide) (by decide)

/-! ## The border ring after generation (C4) -/

theorem border_set {c : Config} {g : Grid} (h : ∀ y x, onBorder c y x → g y x = WALL)
    (y x : Int) (e : MazeElement) (hin : inMaze c y x 0 0) :
    ∀ y' x', onBorder c y' x' → (g.set y x e) y' x' = WALL := by
  intro y' x' hb
  unfold Grid.set
  rw [if_neg]
  · exact h y' x' hb
  · rintro ⟨rfl, rfl⟩
    obtain ⟨h1, h2, h3, h4⟩ := hin
    obtain ⟨_, h5⟩ := hb
    omega

theorem probe_ground {c : Config} {g : Grid} {y x dy dx : Int}
    (h : probe c g y x dy dx = GROUND) : inMaze c y x dy dx := by
  unfold probe at h
  by_contra h1
  rw [if_neg h1] at h
  exact absurd h (by decide)

theorem primMove_interior (c : Config) (g : Grid) (y x : Int) (h : inMaze c y x 0 0) :
    inMaze c (primMove (probe c g y x (-1) 0) (probe c g y x 1 0) (probe c g y x 0 (-1))
      (probe c g y x 0 1) y x).1 (primMove (probe c g y x (-1) 0) (probe c g y x 1 0)
      (probe c g y x 0 (-1)) (probe c g y x 0 1) y x).2 0 0 := by
  unfold primMove
  split_ifs with h1 h2 h3 h4
  · simpa using inMaze_shift (probe_ground h1.2)
  · have := inMaze_shift (probe_ground h2.1)
    simpa [sub_eq_add_neg] using this
  · simpa using inMaze_shift (probe_ground h3.2)
  · have := inMaze_shift (probe_ground h4.1)
    simpa [sub_eq_add_neg] using this
  · exact h

theorem primStep_interior (c : Config) (rnd : Nat → Nat) (s : PrimState)
    (h : PrimInterior c s) (hne : s.candidate_list ≠ []) : PrimInterior c (primStep c rnd s) := by
  obtain ⟨hb, hc, he⟩ := h
  have hlt := randomIndex_lt s.candidate_list hne (rnd s.pos)
  have hmem : s.candidate_list.getD (uniform 0 ((s.candidate_list.length : Int) - 1)
      (rnd s.pos)).toNat (0, 0) ∈ s.candidate_list := by
    rw [List.getD_eq_getElem _ _ hlt]; exact List.getElem_mem _
  have hin := hc _ hmem
  unfold primStep
  simp only
  split_ifs with h1 h2
  · exact ⟨hb, fun p hp => hc p (List.mem_of_mem_eraseIdx hp), he⟩
  · have hmv := primMove_interior c s.m.maze _ _ hin
    refine ⟨?_, ?_, ?_⟩
    · exact border_set (border_set hb _ _ _ hin) _ _ _ hmv
    · intro p hp
      rcases wallCandidates_mem _ _ _ _ _ _ p hp with h3 | ⟨j, _, h3, _, rfl⟩
      · exact hc p (List.mem_of_mem_eraseIdx h3)
      · exact inMaze_shift h3
    · intro p hp
      simp only [List.mem_append, List.mem_singleton] at hp
      rcases hp with (hp | rfl) | rfl
      · exact he p hp
      · exact hin
      · exact hmv
  · exact ⟨hb, hc, he⟩

theorem primLoop_interior (c : Config) (rnd : Nat → Nat) :
    ∀ (fuel : Nat) (s s' : PrimState), PrimInterior c s → primLoop c rnd fuel s = some s' →
      PrimInterior c s' := by
  intro fuel
  induction fuel with
  | zero =>
    intro s s' h h1
    simp only [primLoop] at h1
    split_ifs at h1
    simp only [Option.some.injEq] at h1
    rw [← h1]; exact h
  | succ n ih =>
    intro s s' h h1
    simp only [primLoop] at h1
    split_ifs at h1 with h2
    · simp only [Option.some.injEq] at h1
      rw [← h1]; exact h
    · exact ih _ _ (primStep_interior c rnd s h h2) h1

theorem resetGrid_border (c : Config) (g : Grid) (y x : Int) (h : onBorder c y x) :
    resetGrid c g y x = WALL := by
  rw [resetGrid_apply, if_pos h.1]
  unfold resetValue
  rw [if_pos h.2]

theorem primInit_interior (c : Config) (hH : 3 ≤ c.MAZE_HEIGHT) (hW : 3 ≤ c.MAZE_WIDTH)
    (rnd : Nat → Nat) (m : MazeModel) : PrimInterior c (primInit c rnd m) := by
  have hy := seed_interior c.MAZE_HEIGHT hH (rnd 0)
  have hx := seed_interior c.MAZE_WIDTH hW (rnd (0 + 1))
  have hs : inMaze c (2 * uniform 0 ((c.MAZE_HEIGHT - 3).tdiv 2) (rnd 0) + 1)
      (2 * uniform 0 ((c.MAZE_WIDTH - 3).tdiv 2) (rnd (0 + 1)) + 1) 0 0 := by
    unfold inMaze; omega
  refine ⟨?_, ?_, ?_⟩
  · simp only [primInit, setBeginPoint, MazeModel.enFramequeue, MazeModel.setCell, resetMaze]
    exact border_set (fun y x hb => resetGrid_border c _ y x hb) _ _ _ hs
  · intro p hp
    simp only [primInit, setBeginPoint] at hp
    rcases seedCandidates_mem _ _ _ _ _ p hp with h1 | ⟨j, _, h1, rfl⟩
    · simp at h1
    · exact inMaze_shift h1
  · intro p hp
    simp only [primInit, setBeginPoint, List.mem_singleton] at hp
    rw [hp]; exact hs

theorem revertPrim_maze_border (c : Config) :
    ∀ (cache : List (Int × Int)) (m : MazeModel), (∀ p ∈ cache, inMaze c p.1 p.2 0 0) →
      (∀ y x, onBorder c y x → m.maze y x = WALL) →
      ∀ y x, onBorder c y x → (revertPrim m cache).maze y x = WALL := by
  intro cache
  induction cache with
  | nil => intro m _ h; exact h
  | cons p ps ih =>
    intro m hc h
    unfold revertPrim
    rw [List.foldl_cons]
    exact ih _ (fun q hq => hc q (List.mem_cons_of_mem _ hq))
      (border_set h _ _ _ (hc p (List.mem_cons_self _ _)))

theorem setFlag_maze_border (c : Config) (m : MazeModel)
    (hB : inMaze c c.BEGIN_Y c.BEGIN_X 0 0) (hE : inMaze c c.END_Y c.END_X 0 0)
    (h : ∀ y x, onBorder c y x → m.maze y x = WALL) :
    ∀ y x, onBorder c y x → (setFlag c m).maze y x = WALL := by
  simp only [setFlag, MazeModel.enFramequeue, MazeModel.setCell]
  exact border_set (border_set h _ _ _ hB) _ _ _ hE

theorem seedRooms_mem (c : Config) (sy sx : Int) (order : List Nat) :
    ∀ (st : List (Int × Int)) (p : Int × Int), p ∈ seedRooms c sy sx order st →
      p ∈ st ∨ ∃ index ∈ order, inMaze c sy sx (2 * (dir_vec.getD index (0, 0)).1)
        (2 * (dir_vec.getD index (0, 0)).2) ∧
        p = (sy + 2 * (dir_vec.getD index (0, 0)).1, sx + 2 * (dir_vec.getD index (0, 0)).2) := by
  unfold seedRooms
  induction order with
  | nil => intro st p h; exact Or.inl h
  | cons i is ih =>
    intro st p h
    rw [List.foldl_cons] at h
    rcases ih _ p h with h1 | ⟨j, hj, h2⟩
    · dsimp only at h1
      split_ifs at h1 with h3
      · rcases List.mem_cons.mp h1 with h4 | h4
        · exact Or.inr ⟨i, List.mem_cons_self _ _, h3, h4⟩
        · exact Or.inl h4
      · exact Or.inl h1
    · exact Or.inr ⟨j, List.mem_cons_of_mem _ hj, h2⟩

theorem backtrackerLoop_border (c : Config) (sy sx : Int) (hs : inMaze c sy sx 0 0) :
    ∀ (st : List (Int × Int)) (g : Grid) (cache : List (Int × Int)),
      (∀ p ∈ st, ∃ d : Int × Int, inMaze c sy sx (2 * d.1) (2 * d.2) ∧
        p = (sy + 2 * d.1, sx + 2 * d.2)) →
      (∀ p ∈ cache, inMaze c p.1 p.2 0 0) → (∀ y x, onBorder c y x → g y x = WALL) →
      (∀ y x, onBorder c y x → (backtrackerLoop (sy, sx) st g cache).1 y x = WALL) ∧
      (∀ p ∈ (backtrackerLoop (sy, sx) st g cache).2, inMaze c p.1 p.2 0 0) := by
  intro st
  induction st with
  | nil => intro g cache _ hc hb; exact ⟨hb, hc⟩
  | cons t rest ih =>
    intro g cache hst hc hb
    obtain ⟨d, hd, rfl⟩ := hst t (List.mem_cons_self _ _)
    have hrest : ∀ p ∈ rest, ∃ d : Int × Int, inMaze c sy sx (2 * d.1) (2 * d.2) ∧
        p = (sy + 2 * d.1, sx + 2 * d.2) := fun p hp => hst p (List.mem_cons_of_mem _ hp)
    simp only [backtrackerLoop]
    split_ifs with h1
    · have hy : (sy + 2 * d.1 - sy).tdiv 2 = d.1 := by
        rw [show sy + 2 * d.1 - sy = 2 * d.1 by ring]
        exact Int.mul_tdiv_cancel_left _ (by decide)
      have hx : (sx + 2 * d.2 - sx).tdiv 2 = d.2 := by
        rw [show sx + 2 * d.2 - sx = 2 * d.2 by ring]
        exact Int.mul_tdiv_cancel_left _ (by decide)
      rw [hy, hx]
      have ht : inMaze c (sy + 2 * d.1) (sx + 2 * d.2) 0 0 := inMaze_shift hd
      have hm : inMaze c (sy + d.1) (sx + d.2) 0 0 := by
        unfold inMaze at *; omega
      apply ih _ _ hrest
      · intro p hp
        simp only [List.mem_cons] at hp
        rcases hp with rfl | rfl | hp
        · exact ht
        · exact hs
        · exact hc p hp
      · exact border_set (border_set hb _ _ _ hm) _ _ _ ht
    · exact ih _ _ hrest hc hb

theorem revertBacktracker_maze_border (c : Config) :
    ∀ (cache : List (Int × Int)) (m : MazeModel), (∀ p ∈ cache, inMaze c p.1 p.2 0 0) →
      (∀ y x, onBorder c y x → m.maze y x = WALL) →
      ∀ y x, onBorder c y x → (revertBacktracker m cache).maze y x = WALL := by
  intro cache
  induction cache with
  | nil => intro m _ h; exact h
  | cons p ps ih =>
    intro m hc h
    unfold revertBacktracker
    exact ih _ (fun q hq => hc q (List.mem_cons_of_mem _ hq))
      (border_set h _ _ _ (hc p (List.mem_cons_self _ _)))

theorem prim_border (c : Config) (hH : 3 ≤ c.MAZE_HEIGHT) (hW : 3 ≤ c.MAZE_WIDTH)
    (hB : inMaze c c.BEGIN_Y c.BEGIN_X 0 0) (hE : inMaze c c.END_Y c.END_X 0 0)
    (rnd : Nat → Nat) (m : MazeModel) (fuel : Nat) (m' : MazeModel)
    (hrun : generateMazePrim c rnd fuel m = some m') :
    ∀ y x, onBorder c y x → m'.maze y x = WALL := by
  unfold generateMazePrim at hrun
  split at hrun
  · exact absurd hrun (by simp)
  · next s hs =>
    simp only [Option.some.injEq] at hrun
    rw [← hrun]
    obtain ⟨h1, _, h3⟩ := primLoop_interior c rnd fuel _ s (primInit_interior c hH hW rnd m) hs
    exact setFlag_maze_border c _ hB hE (revertPrim_maze_border c _ _ h3 h1)

theorem backtracker_border (c : Config) (hH : 3 ≤ c.MAZE_HEIGHT) (hW : 3 ≤ c.MAZE_WIDTH)
    (hB : inMaze c c.BEGIN_Y c.BEGIN_X 0 0) (hE : inMaze c c.END_Y c.END_X 0 0)
    (rnd : Nat → Nat) (m : MazeModel) :
    ∀ y x, onBorder c y x → (generateMazeRecursionBacktracker c rnd m).maze y x = WALL := by
  have hy := seed_interior c.MAZE_HEIGHT hH (rnd 0)
  have hx := seed_interior c.MAZE_WIDTH hW (rnd (0 + 1))
  have hs : inMaze c (2 * uniform 0 ((c.MAZE_HEIGHT - 3).tdiv 2) (rnd 0) + 1)
      (2 * uniform 0 ((c.MAZE_WIDTH - 3).tdiv 2) (rnd (0 + 1)) + 1) 0 0 := by
    unfold inMaze; omega
  simp only [generateMazeRecursionBacktracker, setBeginPoint, MazeModel.enFramequeue,
    MazeModel.setCell, resetMaze]
  apply setFlag_maze_border c _ hB hE
  have hl := backtrackerLoop_border c _ _ hs
    (seedRooms c _ _ (shuffle [0, 1, 2, 3] (rnd (0 + 2))) [])
    ((resetGrid c m.maze).set (2 * uniform 0 ((c.MAZE_HEIGHT - 3).tdiv 2) (rnd 0) + 1)
      (2 * uniform 0 ((c.MAZE_WIDTH - 3).tdiv 2) (rnd (0 + 1)) + 1) EXPLORED)
    [(2 * uniform 0 ((c.MAZE_HEIGHT - 3).tdiv 2) (rnd 0) + 1,
      2 * uniform 0 ((c.MAZE_WIDTH - 3).tdiv 2) (rnd (0 + 1)) + 1)]
    (by
      intro p hp
      rcases seedRooms_mem _ _ _ _ _ p hp with h1 | ⟨j, _, h1, h2⟩
      · simp at h1
      · exact ⟨_, h1, h2⟩)
    (by
      intro p hp
      rw [List.mem_singleton.mp hp]; exact hs)
    (border_set (fun y x hb => resetGrid_border c _ y x hb) _ _ _ hs)
  exact revertBacktracker_maze_border c _ _ hl.2 hl.1

/-- C4: on an array of height and width at least 3 with Begin and End inside the border ring,
for every random stream, a run of `generateMazePrim` that completes and every run of
`generateMazeRecursionBacktracker` leave every cell of row 0, row HEIGHT-1, column 0 and column
WIDTH-1 Wall. -/
theorem generators_border_wall (c : Config) (hH : 3 ≤ c.MAZE_HEIGHT) (hW : 3 ≤ c.MAZE_WIDTH)
    (hB : inMaze c c.BEGIN_Y c.BEGIN_X 0 0) (hE : inMaze c c.END_Y c.END_X 0 0)
    (rnd : Nat → Nat) (m : MazeModel) :
    (∀ fuel m', generateMazePrim c rnd fuel m = some m' →
      ∀ y x, onBorder c y x → m'.maze y x = WALL) ∧
    (∀ y x, onBorder c y x → (generateMazeRecursionBacktracker c rnd m).maze y x = WALL) :=
  ⟨fun fuel m' h => prim_border c hH hW hB hE rnd m fuel m' h,
   backtracker_border c hH hW hB hE rnd m⟩

theorem generators_border_wall_witness :
    (∀ y x, onBorder cfg5 y x →
      ((generateMazePrim cfg5 rndZero 16 MazeModel.init).get (by decide)).maze y x = WALL) ∧
    (∀ y x, onBorder cfg5 y x →
      (generateMazeRecursionBacktracker cfg5 rndZero MazeModel.init).maze y x = WALL) :=
  ⟨(generators_border_wall cfg5 (by decide) (by decide) (by decide) (by decide) rndZero
      MazeModel.init).1 16 _ (Option.some_get _).symm,
   (generators_border_wall cfg5 (by decide) (by decide) (by decide) (by decide) rndZero
      MazeModel.init).2⟩

/-! ## Depth-first search reaches End through Ground cells (C5) -/

theorem noNewGround_refl (g : Grid) : noNewGround g g := fun _ _ h => h

theorem closedAt_mono {c : Config} {g g1 : Grid} (h : noNewGround g g1) {y x : Int}
    (hc : closedAt c g y x) : closedAt c g1 y x :=
  fun d hd hin h1 => hc d hd hin (h _ _ h1)

/-- The grid on entry to the loop of `solveMazeDFS`. -/
theorem dfsEntry_noNewGround (g : Grid) (y x : Int) :
    noNewGround g ((g.set 1 0 BEGIN).set y x EXPLORED) :=
  noNewGround_trans (noNewGround_set g 1 0 BEGIN (by decide))
    (noNewGround_set _ y x EXPLORED (by decide))

theorem dfsDirs_mono (c : Config) (self : Grid → Int → Int → Option (Bool × Grid)) (y x : Int)
    (hself : ∀ g ty tx r, self g ty tx = some r → noNewGround g r.2 ∧ r.2 ty tx ≠ GROUND) :
    ∀ (ds : List (Int × Int)) (g : Grid) (r : Bool × Grid),
      dfsDirs c self y x ds g = some r → noNewGround g r.2 := by
  intro ds
  induction ds with
  | nil =>
    intro g r h
    simp only [dfsDirs, Option.some.injEq] at h
    rw [← h]; exact noNewGround_refl g
  | cons d ds ih =>
    intro g r h
    simp only [dfsDirs] at h
    split_ifs at h with h1
    · split at h
      · exact absurd h (by simp)
      · next g1 h2 =>
        simp only [Option.some.injEq] at h
        rw [← h]; exact (hself _ _ _ _ h2).1
      · next g1 h2 =>
        exact noNewGround_trans (hself _ _ _ _ h2).1 (ih _ _ h)
    · exact ih _ _ h

theorem solveMazeDFS_mono (c : Config) :
    ∀ (fuel : Nat) (g : Grid) (y x : Int) (r : Bool × Grid),
      solveMazeDFS c fuel g y x = some r → noNewGround g r.2 ∧ r.2 y x ≠ GROUND := by
  intro fuel
  induction fuel with
  | zero => intro g y x r h; simp [solveMazeDFS] at h
  | succ n ih =>
    intro g y x r h
    simp only [solveMazeDFS] at h
    split_ifs at h with h1
    · simp only [Option.some.injEq] at h
      rw [← h]
      refine ⟨noNewGround_trans (dfsEntry_noNewGround g y x)
        (noNewGround_set _ y x END (by decide)), ?_⟩
      simp only [set_self]; decide
    · have hm := dfsDirs_mono c _ y x ih dir_vec _ r h
      refine ⟨noNewGround_trans (dfsEntry_noNewGround g y x) hm, ?_⟩
      intro h2
      have := hm y x h2
      rw [set_self] at this
      exact absurd this (by decide)

theorem dfsDirs_post (c : Config) (self : Grid → Int → Int → Option (Bool × Grid)) (y x : Int)
    (hmono : ∀ g ty tx r, self g ty tx = some r → noNewGround g r.2 ∧ r.2 ty tx ≠ GROUND)
    (hself : ∀ g ty tx r, g 1 0 ≠ GROUND → self g ty tx = some r → DfsPost c g ty tx r) :
    ∀ (ds : List (Int × Int)) (g : Grid) (r : Bool × Grid), g 1 0 ≠ GROUND →
      dfsDirs c self y x ds g = some r →
      (r.1 = true → r.2 c.END_Y c.END_X = END) ∧
      (r.1 = false → (∀ d ∈ ds, is_in_maze c (y + d.1) (x + d.2) →
          r.2 (y + d.1) (x + d.2) ≠ GROUND) ∧
        (∀ u v, g u v = GROUND → r.2 u v ≠ GROUND → closedAt c r.2 u v) ∧
        (g c.END_Y c.END_X = GROUND → r.2 c.END_Y c.END_X = GROUND)) := by
  intro ds
  induction ds with
  | nil =>
    intro g r h10 h
    simp only [dfsDirs, Option.some.injEq] at h
    rw [← h]
    refine ⟨by simp, fun _ => ⟨by simp, fun u v h1 h2 => absurd h1 h2, fun h1 => h1⟩⟩
  | cons d ds ih =>
    intro g r h10 h
    have hm := dfsDirs_mono c self y x hmono (d :: ds) g r h
    simp only [dfsDirs] at h
    split_ifs at h with h1
    · split at h
      · exact absurd h (by simp)
      · next g1 h2 =>
        simp only [Option.some.injEq] at h
        rw [← h]
        exact ⟨fun _ => (hself _ _ _ _ h10 h2).1 rfl, by simp⟩
      · next g1 h2 =>
        have hp := (hself _ _ _ _ h10 h2).2 rfl
        have hm1 := hmono _ _ _ _ h2
        have h10' : g1 1 0 ≠ GROUND := fun h3 => h10 (hm1.1 _ _ h3)
        have hm2 := dfsDirs_mono c self y x hmono ds g1 r h
        obtain ⟨ht, hf⟩ := ih g1 r h10' h
        refine ⟨ht, fun hb => ?_⟩
        obtain ⟨hf1, hf2, hf3⟩ := hf hb
        refine ⟨?_, ?_, ?_⟩
        · intro d' hd' hin
          rcases List.mem_cons.mp hd' with rfl | hd'
          · exact fun h3 => hm1.2 (hm2 _ _ h3)
          · exact hf1 d' hd' hin
        · intro u v hg hr
          by_cases h3 : g1 u v = GROUND
          · exact hf2 u v h3 hr
          · exact closedAt_mono hm2 (hp.2.2.1 u v hg h3)
        · exact fun h3 => hf3 (hp.2.2.2 h3)
    · obtain ⟨ht, hf⟩ := ih g r h10 h
      refine ⟨ht, fun hb => ?_⟩
      obtain ⟨hf1, hf2, hf3⟩ := hf hb
      refine ⟨?_, hf2, hf3⟩
      intro d' hd' hin
      rcases List.mem_cons.mp hd' with rfl | hd'
      · exact fun h3 => h1 ⟨hin, hm _ _ h3⟩
      · exact hf1 d' hd' hin

theorem solveMazeDFS_post (c : Config) :
    ∀ (fuel : Nat) (g : Grid) (y x : Int) (r : Bool × Grid), g 1 0 ≠ GROUND →
      solveMazeDFS c fuel g y x = some r → DfsPost c g y x r := by
  intro fuel
  induction fuel with
  | zero => intro g y x r _ h; simp [solveMazeDFS] at h
  | succ n ih =>
    intro g y x r h10 h
    simp only [solveMazeDFS] at h
    split_ifs at h with h1
    · simp only [Option.some.injEq] at h
      rw [← h]
      refine ⟨fun _ => ?_, by simp⟩
      simp only
      rw [h1.1, h1.2, set_self]
    · have he := dfsEntry_noNewGround g y x
      have h10' : ((g.set 1 0 BEGIN).set y x EXPLORED) 1 0 ≠ GROUND := fun h3 => h10 (he _ _ h3)
      obtain ⟨ht, hf⟩ := dfsDirs_post c _ y x (solveMazeDFS_mono c n) ih dir_vec _ r h10' h
      refine ⟨ht, fun hb => ?_⟩
      obtain ⟨hf1, hf2, hf3⟩ := hf hb
      refine ⟨h1, hf1, ?_, ?_⟩
      · intro u v hg hr
        by_cases h3 : ((g.set 1 0 BEGIN).set y x EXPLORED) u v = GROUND
        · exact hf2 u v h3 hr
        · by_cases h4 : u = y ∧ v = x
          · rw [h4.1, h4.2]; exact hf1
          · rw [set_other _ _ _ _ _ _ h4] at h3
            by_cases h5 : u = 1 ∧ v = 0
            · rw [h5.1, h5.2] at hg; exact absurd hg h10
            · rw [set_other _ _ _ _ _ _ h5] at h3; exact absurd hg h3
      · intro hg
        apply hf3
        rw [set_other _ _ _ _ _ _ (fun h4 => h1 ⟨h4.1.symm, h4.2.symm⟩),
          set_other _ _ _ _ _ _ ?_]
        · exact hg
        · rintro ⟨h5, h6⟩
          rw [h5, h6] at hg; exact h10 hg

/-- Completeness of the depth-first search: if End is reached from the start through Ground
cells, a call that returns does not return false. -/
theorem solveMazeDFS_complete (c : Config) (fuel : Nat) (g : Grid) (y x : Int)
    (r : Bool × Grid) (h10 : g 1 0 ≠ GROUND) (h : solveMazeDFS c fuel g y x = some r)
    (hreach : groundReach c g (y, x) (c.END_Y, c.END_X)) :
    r.1 = true ∧ r.2 c.END_Y c.END_X = END := by
  obtain ⟨ht, hf⟩ := solveMazeDFS_post c fuel g y x r h10 h
  by_cases hb : r.1 = true
  · exact ⟨hb, ht hb⟩
  · exfalso
    have hb' : r.1 = false := by simpa using hb
    obtain ⟨hne, hc, hch, hE⟩ := hf hb'
    have key : ∀ q : Int × Int, groundReach c g (y, x) q →
        closedAt c r.2 q.1 q.2 ∧ (q = (y, x) ∨ (g q.1 q.2 = GROUND ∧ r.2 q.1 q.2 ≠ GROUND)) := by
      intro q hq
      induction hq with
      | refl => exact ⟨hc, Or.inl rfl⟩
      | tail _ hstep ihq =>
        rename_i p q'
        obtain ⟨⟨d, hd, h1, h2⟩, hin, hg⟩ := hstep
        have hcl := ihq.1 d hd
        rw [← h1, ← h2] at hcl
        exact ⟨hch _ _ hg (hcl hin), Or.inr ⟨hg, hcl hin⟩⟩
    rcases (key _ hreach).2 with h1 | ⟨h1, h2⟩
    · simp only [Prod.mk.injEq] at h1
      exact hne ⟨h1.1.symm, h1.2.symm⟩
    · exact h2 (hE h1)

theorem dfsDirs_returns (c : Config) (fuel : Nat) (y x : Int)
    (hfuel : ∀ g ty tx, groundCount c ((g.set 1 0 BEGIN).set ty tx EXPLORED) < fuel →
      ∃ r, solveMazeDFS c fuel g ty tx = some r) :
    ∀ (ds : List (Int × Int)) (g : Grid), groundCount c g ≤ fuel →
      ∃ r, dfsDirs c (solveMazeDFS c fuel) y x ds g = some r := by
  intro ds
  induction ds with
  | nil => intro g _; exact ⟨_, rfl⟩
  | cons d ds ih =>
    intro g hg
    simp only [dfsDirs]
    split_ifs with h1
    · have hlt : groundCount c ((g.set 1 0 BEGIN).set (y + d.1) (x + d.2) EXPLORED) <
          groundCount c g :=
        groundCount_lt (dfsEntry_noNewGround g _ _) _ _ h1.1 h1.2
          (by rw [set_self]; decide)
      obtain ⟨r, hr⟩ := hfuel g (y + d.1) (x + d.2) (by omega)
      rw [hr]
      obtain ⟨b, g1⟩ := r
      cases b with
      | true => exact ⟨_, rfl⟩
      | false =>
        exact ih g1 (le_trans (groundCount_le (solveMazeDFS_mono c fuel _ _ _ _ hr).1) hg)
    · exact ih g hg

theorem solveMazeDFS_returns (c : Config) :
    ∀ (fuel : Nat) (g : Grid) (y x : Int),
      groundCount c ((g.set 1 0 BEGIN).set y x EXPLORED) < fuel →
      ∃ r, solveMazeDFS c fuel g y x = some r := by
  intro fuel
  induction fuel with
  | zero => intro g y x h; omega
  | succ n ih =>
    intro g y x h
    simp only [solveMazeDFS]
    split_ifs with h1
    · exact ⟨_, rfl⟩
    · exact dfsDirs_returns c n y x ih dir_vec _ (by omega)

theorem groundReach_of_joined (c : Config) (g : Grid) (by_ bx : Int)
    (hcells : ∀ y x, is_in_maze c y x → ¬ (y = by_ ∧ x = bx) → g y x = WALL ∨ g y x = GROUND)
    (q : Int × Int) (h : joined c g (by_, bx) q) : groundReach c g (by_, bx) q := by
  unfold joined at h
  induction h with
  | refl => exact Relation.ReflTransGen.refl
  | @tail p q' _ hstep ih =>
    obtain ⟨_, ⟨hin, hnw⟩, hadj⟩ := hstep
    by_cases h1 : q'.1 = by_ ∧ q'.2 = bx
    · have : q' = (by_, bx) := Prod.ext h1.1 h1.2
      rw [this]; exact Relation.ReflTransGen.refl
    · rcases hcells _ _ hin h1 with h2 | h2
      · exact absurd h2 hnw
      · exact Relation.ReflTransGen.tail ih ⟨hadj, hin, h2⟩

/-- C5, amended: on a grid in which every cell other than the Begin coordinate is Wall or
Ground (so the End coordinate is not stamped End) and cell (1, 0) is not Ground, if End is
joined to Begin by orthogonal steps through non-Wall cells then
`solveMazeDFS(BEGIN_Y, BEGIN_X)`, with more fuel than there are Ground cells, returns true and
the End cell is marked End. -/
theorem dfs_succeeds (c : Config) (g : Grid)
    (hcells : ∀ y x, is_in_maze c y x → ¬ (y = c.BEGIN_Y ∧ x = c.BEGIN_X) →
      g y x = WALL ∨ g y x = GROUND)
    (h10 : g 1 0 ≠ GROUND)
    (hreach : joined c g (c.BEGIN_Y, c.BEGIN_X) (c.END_Y, c.END_X))
    (fuel : Nat) (hfuel : groundCount c g < fuel) :
    ∃ g1, solveMazeDFS c fuel g c.BEGIN_Y c.BEGIN_X = some (true, g1) ∧
      g1 c.END_Y c.END_X = END := by
  have hlt : groundCount c ((g.set 1 0 BEGIN).set c.BEGIN_Y c.BEGIN_X EXPLORED) < fuel :=
    lt_of_le_of_lt (groundCount_le (dfsEntry_noNewGround g _ _)) hfuel
  obtain ⟨r, hr⟩ := solveMazeDFS_returns c fuel g _ _ hlt
  have hc := solveMazeDFS_complete c fuel g _ _ r h10 hr
    (groundReach_of_joined c g _ _ hcells _ hreach)
  obtain ⟨b, g1⟩ := r
  simp only at hc
  rw [hc.1] at hr
  exact ⟨g1, hr, hc.2⟩

theorem stamped34_rest (y x : Int) (h1 : ¬ (y = cfg34.BEGIN_Y ∧ x = cfg34.BEGIN_X))
    (h2 : ¬ (y = cfg34.END_Y ∧ x = cfg34.END_X)) : stamped34 y x = WALL := by
  simp only [cfg34] at h1 h2
  unfold stamped34
  rw [if_neg h1, if_neg h2]

theorem stamped34_joined : joined cfg34 stamped34 (1, 1) (1, 2) :=
  Relation.ReflTransGen.single
    ⟨⟨by decide, by decide⟩, ⟨by decide, by decide⟩, (0, 1), by decide, by decide, by decide⟩

/-- C5 (as stated, fails): on the 3 x 4 grid as a generator leaves it, Begin stamped at (1, 1),
End stamped at (1, 2) and every other cell Wall, End is joined to Begin, and
`solveMazeDFS(BEGIN_Y, BEGIN_X)` returns false: the search steps onto Ground cells only, and the
End cell holds End. -/
theorem dfs_fails_on_stamped_end :
    stamped34 cfg34.BEGIN_Y cfg34.BEGIN_X = BEGIN ∧ stamped34 cfg34.END_Y cfg34.END_X = END ∧
    (∀ y x, ¬ (y = cfg34.BEGIN_Y ∧ x = cfg34.BEGIN_X) → ¬ (y = cfg34.END_Y ∧ x = cfg34.END_X) →
      stamped34 y x = WALL) ∧
    joined cfg34 stamped34 (cfg34.BEGIN_Y, cfg34.BEGIN_X) (cfg34.END_Y, cfg34.END_X) ∧
    (solveMazeDFS cfg34 8 stamped34 cfg34.BEGIN_Y cfg34.BEGIN_X).map Prod.fst = some false :=
  ⟨by decide, by decide, stamped34_rest, stamped34_joined, by decide⟩

theorem open34_cells (y x : Int) (_h : is_in_maze cfg34 y x)
    (h1 : ¬ (y = cfg34.BEGIN_Y ∧ x = cfg34.BEGIN_X)) :
    open34 y x = WALL ∨ open34 y x = GROUND := by
  unfold open34
  simp only [cfg34] at h1
  rw [if_neg h1]
  split_ifs
  · exact Or.inr rfl
  · exact Or.inl rfl

theorem open34_joined : joined cfg34 open34 (1, 1) (1, 2) :=
  Relation.ReflTransGen.single
    ⟨⟨by decide, by decide⟩, ⟨by decide, by decide⟩, (0, 1), by decide, by decide, by decide⟩

theorem dfs_succeeds_witness :
    ∃ g1, solveMazeDFS cfg34 2 open34 cfg34.BEGIN_Y cfg34.BEGIN_X = some (true, g1) ∧
      g1 cfg34.END_Y cfg34.END_X = END :=
  dfs_succeeds cfg34 open34 open34_cells (by decide) open34_joined 2 (by decide)

/-! ## Breadth-first search explores level by level (C6) -/

theorem walkTo_step {c : Config} {g : Grid} {n : Nat} {u d : Int × Int} (hu : walkTo c g n u)
    (hd : d ∈ dir_vec) (hin : is_in_maze c (u.1 + d.1) (u.2 + d.2))
    (hg : g (u.1 + d.1) (u.2 + d.2) = GROUND) : walkTo c g (n + 1) (u.1 + d.1, u.2 + d.2) := by
  refine ⟨hin, hg, d, hd, ?_⟩
  simp only [add_sub_cancel_right]
  exact hu

theorem within_step {c : Config} {g : Grid} {k : Nat} {u d : Int × Int} (hu : within c g k u)
    (hd : d ∈ dir_vec) (hin : is_in_maze c (u.1 + d.1) (u.2 + d.2))
    (hg : g (u.1 + d.1) (u.2 + d.2) = GROUND) : within c g (k + 1) (u.1 + d.1, u.2 + d.2) := by
  obtain ⟨m, hm, hw⟩ := hu
  exact ⟨m + 1, by omega, walkTo_step hw hd hin hg⟩

theorem walkTo_succ_elim {c : Config} {g : Grid} {n : Nat} {q : Int × Int}
    (h : walkTo c g (n + 1) q) :
    is_in_maze c q.1 q.2 ∧ g q.1 q.2 = GROUND ∧
      ∃ u d, d ∈ dir_vec ∧ walkTo c g n u ∧ q = (u.1 + d.1, u.2 + d.2) := by
  obtain ⟨h1, h2, d, hd, h3⟩ := h
  refine ⟨h1, h2, (q.1 - d.1, q.2 - d.2), d, hd, h3, ?_⟩
  simp only [sub_add_cancel]

theorem walkTo_zero_iff {c : Config} {g : Grid} {q : Int × Int} :
    walkTo c g 0 q ↔ q = (c.BEGIN_Y, c.BEGIN_X) := Iff.rfl

theorem ground_of_shape {c : Config} {g gi : Grid} {y x : Int}
    (h : gi y x = g y x ∨ (g y x = GROUND ∧ gi y x = EXPLORED) ∨
      (y = c.BEGIN_Y ∧ x = c.BEGIN_X ∧ gi y x = BEGIN)) (hg : gi y x = GROUND) :
    g y x = GROUND := by
  rcases h with h | h | h
  · rw [← h]; exact hg
  · rw [h.2] at hg; exact absurd hg (by decide)
  · rw [h.2.2] at hg; exact absurd hg (by decide)

theorem BfsInv.skip {c : Config} {g gi : Grid} {k : Nat} {t dir : Int × Int}
    {ds A B : List (Int × Int)} (h : BfsInv c g k t (dir :: ds) A B gi)
    (hno : ¬ (is_in_maze c (t.1 + dir.1) (t.2 + dir.2) ∧ gi (t.1 + dir.1) (t.2 + dir.2) = GROUND)) :
    BfsInv c g k t ds A B gi := by
  refine { h with frontier := ?_ }
  intro u hu d hd hin hg
  rcases h.frontier u hu d hd hin hg with h1 | ⟨h1, h2⟩
  · exact Or.inl h1
  · rcases List.mem_cons.mp h2 with h3 | h3
    · subst h1; subst h3; exact absurd ⟨hin, hg⟩ hno
    · exact Or.inr ⟨h1, h3⟩

theorem BfsInv.mark {c : Config} {g gi : Grid} {k : Nat} {t dir : Int × Int}
    {ds A B : List (Int × Int)} (h : BfsInv c g k t (dir :: ds) A B gi) (hdir : dir ∈ dir_vec)
    (hin : is_in_maze c (t.1 + dir.1) (t.2 + dir.2))
    (hgi : gi (t.1 + dir.1) (t.2 + dir.2) = GROUND)
    (hE : ¬ (t.1 + dir.1 = c.END_Y ∧ t.2 + dir.2 = c.END_X)) :
    BfsInv c g k t ds A (B ++ [(t.1 + dir.1, t.2 + dir.2)])
      (gi.set (t.1 + dir.1) (t.2 + dir.2) EXPLORED) := by
  have hg : g (t.1 + dir.1) (t.2 + dir.2) = GROUND := ground_of_shape (h.shape _ _) hgi
  have hv : within c g (k + 1) (t.1 + dir.1, t.2 + dir.2) := within_step h.levelT hdir hin hg
  constructor
  · exact h.levelT
  · exact h.levelA
  · intro b hb
    rcases List.mem_append.mp hb with hb | hb
    · exact h.levelB b hb
    · rw [List.mem_singleton.mp hb]; exact hv
  · intro q hq
    unfold Grid.set
    split_ifs
    · decide
    · exact h.marked q hq
  · intro y x hyx
    by_cases h1 : y = t.1 + dir.1 ∧ x = t.2 + dir.2
    · rw [h1.1, h1.2]; exact hv
    · rw [set_other _ _ _ _ _ _ h1] at hyx
      exact h.changed y x hyx
  · intro u hu d hd hin1 hg1
    have h1 : ¬ (u.1 + d.1 = t.1 + dir.1 ∧ u.2 + d.2 = t.2 + dir.2) := by
      intro h2
      rw [h2.1, h2.2, set_self] at hg1
      exact absurd hg1 (by decide)
    rw [set_other _ _ _ _ _ _ h1] at hg1
    rcases h.frontier u hu d hd hin1 hg1 with h2 | ⟨h2, h3⟩
    · exact Or.inl h2
    · rcases List.mem_cons.mp h3 with h4 | h4
      · subst h2; subst h4; exact absurd ⟨rfl, rfl⟩ h1
      · exact Or.inr ⟨h2, h4⟩
  · intro y x hyx hnk
    by_cases h1 : y = t.1 + dir.1 ∧ x = t.2 + dir.2
    · rw [h1.1, h1.2]; exact List.mem_append_right _ (List.mem_singleton.mpr rfl)
    · rw [set_other _ _ _ _ _ _ h1] at hyx
      exact List.mem_append_left _ (h.fresh y x hyx hnk)
  · intro y x
    by_cases h1 : y = t.1 + dir.1 ∧ x = t.2 + dir.2
    · rw [h1.1, h1.2, set_self]; exact Or.inr (Or.inl ⟨hg, rfl⟩)
    · rw [set_other _ _ _ _ _ _ h1]; exact h.shape y x
  · rw [set_other _ _ _ _ _ _ (fun h2 => hE ⟨h2.1.symm, h2.2.symm⟩)]
    exact h.endGround

theorem BfsInv.final {c : Config} {g gi : Grid} {k : Nat} {t dir : Int × Int}
    {ds A B : List (Int × Int)} (h : BfsInv c g k t (dir :: ds) A B gi) (hdir : dir ∈ dir_vec)
    (hin : is_in_maze c (t.1 + dir.1) (t.2 + dir.2))
    (hgi : gi (t.1 + dir.1) (t.2 + dir.2) = GROUND)
    (hE : t.1 + dir.1 = c.END_Y ∧ t.2 + dir.2 = c.END_X) (d : Nat)
    (hd : distIs c g d (c.END_Y, c.END_X)) :
    BfsFinal c g d (((gi.set (t.1 + dir.1) (t.2 + dir.2) EXPLORED).set (t.1 + dir.1)
      (t.2 + dir.2) END)) := by
  have hg : g (t.1 + dir.1) (t.2 + dir.2) = GROUND := ground_of_shape (h.shape _ _) hgi
  have hv : within c g (k + 1) (t.1 + dir.1, t.2 + dir.2) := within_step h.levelT hdir hin hg
  rw [hE.1, hE.2] at hv hgi ⊢
  have hk : d = k + 1 := by
    obtain ⟨m, hm, hw⟩ := hv
    have h1 : ¬ m < d := fun h2 => hd.2 m h2 hw
    have h2 : ¬ d ≤ k := fun h3 => h.marked (c.END_Y, c.END_X) ⟨d, h3, hd.1⟩ hgi
    omega
  refine ⟨by rw [set_self], ?_, ?_⟩
  · intro m q hm1 hmd hq
    have hq1 : gi q.1 q.2 ≠ GROUND := h.marked q ⟨m, by omega, hq.1⟩
    have hqE : ¬ (q.1 = c.END_Y ∧ q.2 = c.END_X) := by
      intro h1; rw [h1.1, h1.2] at hq1; exact hq1 hgi
    rw [set_other _ _ _ _ _ _ hqE, set_other _ _ _ _ _ _ hqE]
    obtain ⟨m1, rfl⟩ : ∃ m1, m = m1 + 1 := ⟨m - 1, by omega⟩
    have hqg := (walkTo_succ_elim hq.1).2.1
    rcases h.shape q.1 q.2 with h1 | h1 | h1
    · rw [h1] at hq1; exact absurd hqg hq1
    · exact h1.2
    · exfalso
      exact hq.2 0 (by omega) (Prod.ext h1.1 h1.2.1)
  · intro y x hyx
    rw [hk]
    by_cases h1 : y = c.END_Y ∧ x = c.END_X
    · rw [h1.1, h1.2]; exact hv
    · rw [set_other _ _ _ _ _ _ h1, set_other _ _ _ _ _ _ h1] at hyx
      exact h.changed y x hyx

theorem bfsDirs_inv (c : Config) (g : Grid) (d : Nat) (hd : distIs c g d (c.END_Y, c.END_X))
    (k : Nat) (t : Int × Int) (A : List (Int × Int)) :
    ∀ (ds : List (Int × Int)) (B : List (Int × Int)) (gi : Grid), (∀ x ∈ ds, x ∈ dir_vec) →
      BfsInv c g k t ds A B gi →
      (∀ g1, bfsDirs c t.1 t.2 ds gi (A ++ B) = BFSOutcome.returned g1 → BfsFinal c g d g1) ∧
      (∀ g1 q1, bfsDirs c t.1 t.2 ds gi (A ++ B) = BFSOutcome.next g1 q1 →
        ∃ B1, q1 = A ++ B1 ∧ BfsInv c g k t [] A B1 g1) := by
  intro ds
  induction ds with
  | nil =>
    intro B gi _ h
    constructor
    · intro g1 h1; simp [bfsDirs] at h1
    · intro g1 q1 h1
      simp only [bfsDirs, BFSOutcome.next.injEq] at h1
      rw [← h1.1, ← h1.2]; exact ⟨B, rfl, h⟩
  | cons dir ds ih =>
    intro B gi hds h
    have hdir : dir ∈ dir_vec := hds dir (List.mem_cons_self _ _)
    have hds' : ∀ x ∈ ds, x ∈ dir_vec := fun x hx => hds x (List.mem_cons_of_mem _ hx)
    simp only [bfsDirs]
    split_ifs with h1 h2
    · constructor
      · intro g1 h3
        simp only [BFSOutcome.returned.injEq] at h3
        rw [← h3]; exact h.final hdir h1.1 h1.2 h2 d hd
      · intro g1 q1 h3; simp at h3
    · rw [List.append_assoc]
      exact ih _ _ hds' (h.mark hdir h1.1 h1.2 h2)
    · exact ih _ _ hds' (h.skip h1)

theorem BfsInv.advance {c : Config} {g gi : Grid} {k : Nat} {t a : Int × Int}
    {A B : List (Int × Int)} (h : BfsInv c g k t [] (a :: A) B gi) :
    BfsInv c g k a dir_vec A B gi := by
  refine { h with levelT := ?_, levelA := ?_, frontier := ?_ }
  · exact h.levelA a (List.mem_cons_self _ _)
  · exact fun x hx => h.levelA x (List.mem_cons_of_mem _ hx)
  · intro u hu d hd hin hg
    rcases h.frontier u hu d hd hin hg with h1 | ⟨_, h2⟩
    · rcases List.mem_cons.mp h1 with h3 | h3
      · exact Or.inr ⟨h3, hd⟩
      · exact Or.inl h3
    · exact absurd h2 (List.not_mem_nil _)

theorem BfsInv.marked_succ {c : Config} {g gi : Grid} {k : Nat} {t : Int × Int}
    {B : List (Int × Int)} (h : BfsInv c g k t [] [] B gi) (q : Int × Int)
    (hq : within c g (k + 1) q) : gi q.1 q.2 ≠ GROUND := by
  obtain ⟨m, hm, hw⟩ := hq
  by_cases h1 : m ≤ k
  · exact h.marked q ⟨m, h1, hw⟩
  · obtain rfl : m = k + 1 := by omega
    obtain ⟨hin, _, u, dd, hdd, hu, rfl⟩ := walkTo_succ_elim hw
    intro hgi
    rcases h.frontier u ⟨k, le_refl _, hu⟩ dd hdd hin hgi with h2 | ⟨_, h2⟩
    · exact absurd h2 (List.not_mem_nil _)
    · exact absurd h2 (List.not_mem_nil _)

theorem BfsInv.levelUp {c : Config} {g gi : Grid} {k : Nat} {t b : Int × Int}
    {B : List (Int × Int)} (h : BfsInv c g k t [] [] (b :: B) gi) :
    BfsInv c g (k + 1) b dir_vec B [] gi := by
  constructor
  · exact h.levelB b (List.mem_cons_self _ _)
  · exact fun x hx => h.levelB x (List.mem_cons_of_mem _ hx)
  · intro x hx; exact absurd hx (List.not_mem_nil _)
  · exact h.marked_succ
  · exact fun y x hyx => within_mono (h.changed y x hyx) (by omega)
  · intro u hu d hd hin hg
    by_cases h1 : within c g k u
    · rcases h.frontier u h1 d hd hin hg with h2 | ⟨_, h2⟩
      · exact absurd h2 (List.not_mem_nil _)
      · exact absurd h2 (List.not_mem_nil _)
    · have h2 : gi u.1 u.2 ≠ GROUND := h.marked_succ u hu
      obtain ⟨m, hm, hw⟩ := hu
      have h3 : m = k + 1 := by
        by_contra h4
        exact h1 ⟨m, by omega, hw⟩
      subst h3
      have h4 : g u.1 u.2 = GROUND := (walkTo_succ_elim hw).2.1
      have h5 : (u.1, u.2) ∈ b :: B := h.fresh u.1 u.2 (by rw [h4]; exact h2) h1
      rcases List.mem_cons.mp h5 with h6 | h6
      · exact Or.inr ⟨h6, hd⟩
      · exact Or.inl h6
  · intro y x hyx hn
    exact absurd (h.changed y x hyx) hn
  · exact h.shape
  · exact h.endGround

theorem BfsInv.not_stuck {c : Config} {g gi : Grid} {k : Nat} {t : Int × Int}
    (h : BfsInv c g k t [] [] [] gi) (d : Nat) (hd : distIs c g d (c.END_Y, c.END_X)) :
    False := by
  have hclose : ∀ v, within c g (k + 1) v → within c g k v := by
    intro v hv
    by_contra h1
    have h2 : gi v.1 v.2 ≠ GROUND := h.marked_succ v hv
    obtain ⟨m, hm, hw⟩ := hv
    have h3 : m = k + 1 := by
      by_contra h4
      exact h1 ⟨m, by omega, hw⟩
    subst h3
    have h4 : g v.1 v.2 = GROUND := (walkTo_succ_elim hw).2.1
    exact absurd (h.fresh v.1 v.2 (by rw [h4]; exact h2) h1) (List.not_mem_nil _)
  have hall : ∀ n v, walkTo c g n v → within c g k v := by
    intro n
    induction n with
    | zero => intro v hv; exact ⟨0, Nat.zero_le _, hv⟩
    | succ n ih =>
      intro v hv
      obtain ⟨hin, hg, u, dd, hdd, hu, rfl⟩ := walkTo_succ_elim hv
      exact hclose _ (within_step (ih u hu) hdd hin hg)
  exact h.marked (c.END_Y, c.END_X) (hall d _ hd.1) h.endGround

theorem bfsLoop_final (c : Config) (g : Grid) (d : Nat)
    (hd : distIs c g d (c.END_Y, c.END_X)) :
    ∀ (fuel : Nat) (gi : Grid) (t : Int × Int) (k : Nat) (A B : List (Int × Int)) (g1 : Grid),
      BfsInv c g k t dir_vec A B gi → bfsLoop c fuel gi (t :: (A ++ B)) = some g1 →
      BfsFinal c g d g1 := by
  intro fuel
  induction fuel with
  | zero => intro gi t k A B g1 _ h; simp [bfsLoop] at h
  | succ n ih =>
    intro gi t k A B g1 hinv h
    simp only [bfsLoop] at h
    obtain ⟨hr, hn⟩ := bfsDirs_inv c g d hd k t A dir_vec B gi (fun x hx => hx) hinv
    split at h
    · next g2 h2 =>
      simp only [Option.some.injEq] at h
      rw [← h]; exact hr g2 h2
    · next g2 q2 h2 =>
      obtain ⟨B1, rfl, hinv1⟩ := hn g2 q2 h2
      cases A with
      | cons a A1 => exact ih g2 a k A1 B1 g1 hinv1.advance h
      | nil =>
        cases B1 with
        | cons b B2 =>
          have h3 := ih g2 b (k + 1) B2 [] g1 hinv1.levelUp
          rw [List.append_nil] at h3
          exact h3 h
        | nil => exact absurd (hinv1.not_stuck d hd) id

theorem bfsDirs_measure (c : Config) (ty tx : Int) :
    ∀ (ds : List (Int × Int)) (gi : Grid) (q : List (Int × Int)) (g1 : Grid)
      (q1 : List (Int × Int)), bfsDirs c ty tx ds gi q = BFSOutcome.next g1 q1 →
      q1.length + groundCount c g1 ≤ q.length + groundCount c gi := by
  intro ds
  induction ds with
  | nil =>
    intro gi q g1 q1 h
    simp only [bfsDirs, BFSOutcome.next.injEq] at h
    rw [← h.1, ← h.2]
  | cons dir ds ih =>
    intro gi q g1 q1 h
    simp only [bfsDirs] at h
    split_ifs at h with h1 h2
    · have h3 := ih _ _ _ _ h
      have h4 : groundCount c (gi.set (ty + dir.1) (tx + dir.2) EXPLORED) < groundCount c gi :=
        groundCount_lt (noNewGround_set gi _ _ EXPLORED (by decide)) _ _ h1.1 h1.2
          (by rw [set_self]; decide)
      rw [List.length_append, List.length_singleton] at h3
      omega
    · exact ih _ _ _ _ h

theorem bfsLoop_returns (c : Config) :
    ∀ (fuel : Nat) (gi : Grid) (q : List (Int × Int)),
      q.length + groundCount c gi ≤ fuel → ∃ g1, bfsLoop c fuel gi q = some g1 := by
  intro fuel
  induction fuel with
  | zero =>
    intro gi q h
    cases q with
    | nil => exact ⟨gi, by simp [bfsLoop]⟩
    | cons t rest => simp only [List.length_cons] at h; omega
  | succ n ih =>
    intro gi q h
    cases q with
    | nil => exact ⟨gi, by simp [bfsLoop]⟩
    | cons t rest =>
      simp only [bfsLoop]
      split
      · exact ⟨_, rfl⟩
      · next g2 q2 h2 =>
        have h3 := bfsDirs_measure c _ _ _ _ _ _ _ h2
        simp only [List.length_cons] at h
        exact ih g2 q2 (by omega)

/-- C6: on a grid in which Begin and End are distinct and End is at shortest-path distance `d`
from Begin (orthogonal steps, every cell after Begin a Ground cell of the array),
`solveMazeBFS`, with more fuel than there are Ground cells, returns a grid in which the End
cell is marked End, every cell at distance 1 to `d - 1` from Begin is marked Explored, and
every cell that differs from the grid on entry is at distance at most `d` from Begin. -/
theorem bfs_level_order (c : Config) (g : Grid)
    (hne : ¬ (c.BEGIN_Y = c.END_Y ∧ c.BEGIN_X = c.END_X)) (d : Nat)
    (hd : distIs c g d (c.END_Y, c.END_X)) (fuel : Nat) (hfuel : groundCount c g < fuel) :
    ∃ g1, solveMazeBFS c fuel g = some g1 ∧ g1 c.END_Y c.END_X = END ∧
      (∀ m q, 1 ≤ m → m < d → distIs c g m q → g1 q.1 q.2 = EXPLORED) ∧
      (∀ y x, g1 y x ≠ g y x → within c g d (y, x)) := by
  have hE : g c.END_Y c.END_X = GROUND := by
    cases d with
    | zero =>
      have h1 := hd.1
      simp only [walkTo, Prod.mk.injEq] at h1
      exact absurd ⟨h1.1.symm, h1.2.symm⟩ hne
    | succ n => exact (walkTo_succ_elim hd.1).2.1
  have hm : [(c.BEGIN_Y, c.BEGIN_X)].length +
      groundCount c (g.set c.BEGIN_Y c.BEGIN_X BEGIN) ≤ fuel := by
    have := groundCount_le (c := c) (noNewGround_set g c.BEGIN_Y c.BEGIN_X BEGIN (by decide))
    simp only [List.length_singleton]
    omega
  obtain ⟨g1, h1⟩ := bfsLoop_returns c fuel _ _ hm
  have h2 := bfsLoop_final c g d hd fuel _ _ 0 [] [] g1 (BfsInv.init c g hne hE) h1
  exact ⟨g1, h1, h2⟩

theorem bfs_level_order_witness :
    ∃ g1, solveMazeBFS cfg5 9 gridL = some g1 ∧ g1 cfg5.END_Y cfg5.END_X = END ∧
      (∀ m q, 1 ≤ m → m < 4 → distIs cfg5 gridL m q → g1 q.1 q.2 = EXPLORED) ∧
      (∀ y x, g1 y x ≠ gridL y x → within cfg5 gridL 4 (y, x)) :=
  bfs_level_order cfg5 gridL (by decide) 4 (by decide) 9 (by decide)

/-! ## The queue-based solvers and Wall cells (C7) -/

theorem wallsKept_refl (g : Grid) : wallsKept g g := fun _ _ h => h

theorem wallsKept_set {g0 g : Grid} (h : wallsKept g0 g) (y x : Int) (e : MazeElement)
    (hw : g0 y x ≠ WALL) : wallsKept g0 (g.set y x e) := by
  intro y' x' h0
  unfold Grid.set
  split_ifs with h1
  · obtain ⟨rfl, rfl⟩ := h1; exact absurd h0 hw
  · exact h y' x' h0

theorem wallsKept_set_nonwall {g0 g : Grid} (h : wallsKept g0 g) (y x : Int) (e : MazeElement)
    (hw : g y x ≠ WALL) : wallsKept g0 (g.set y x e) :=
  wallsKept_set h y x e (fun h0 => hw (h y x h0))

theorem wallsKept_markExpanded (c : Config) {g0 g : Grid} (h : wallsKept g0 g) (y x : Int)
    (hg : g y x = GROUND) : wallsKept g0 (markExpanded c g y x) := by
  have hw : g y x ≠ WALL := by rw [hg]; decide
  unfold markExpanded
  split_ifs
  · exact wallsKept_set_nonwall h y x _ hw
  · exact wallsKept_set_nonwall h y x _ hw

theorem bfsDirs_wallsKept (c : Config) (g0 : Grid) (ty tx : Int) :
    ∀ (ds : List (Int × Int)) (g : Grid) (q : List (Int × Int)), wallsKept g0 g →
      (∀ g1, bfsDirs c ty tx ds g q = BFSOutcome.returned g1 → wallsKept g0 g1) ∧
      (∀ g1 q1, bfsDirs c ty tx ds g q = BFSOutcome.next g1 q1 → wallsKept g0 g1) := by
  intro ds
  induction ds with
  | nil =>
    intro g q h
    constructor
    · intro g1 h1; simp [bfsDirs] at h1
    · intro g1 q1 h1
      simp only [bfsDirs, BFSOutcome.next.injEq] at h1
      rw [← h1.1]; exact h
  | cons d ds ih =>
    intro g q h
    simp only [bfsDirs]
    split_ifs with h1 h2
    · have hw : g (ty + d.1) (tx + d.2) ≠ WALL := by rw [h1.2]; decide
      have hk := wallsKept_set_nonwall h (ty + d.1) (tx + d.2) EXPLORED hw
      constructor
      · intro g1 h3
        simp only [BFSOutcome.returned.injEq] at h3
        rw [← h3]
        exact wallsKept_set hk _ _ _ (fun h0 => hw (h _ _ h0))
      · intro g1 q1 h3; simp at h3
    · have hw : g (ty + d.1) (tx + d.2) ≠ WALL := by rw [h1.2]; decide
      exact ih _ _ (wallsKept_set_nonwall h (ty + d.1) (tx + d.2) EXPLORED hw)
    · exact ih _ _ h

theorem bfsLoop_wallsKept (c : Config) (g0 : Grid) :
    ∀ (fuel : Nat) (g : Grid) (q : List (Int × Int)) (g1 : Grid), wallsKept g0 g →
      bfsLoop c fuel g q = some g1 → wallsKept g0 g1 := by
  intro fuel
  induction fuel with
  | zero =>
    intro g q g1 h h1
    cases q with
    | nil => simp only [bfsLoop, Option.some.injEq] at h1; rw [← h1]; exact h
    | cons t r => simp [bfsLoop] at h1
  | succ n ih =>
    intro g q g1 h h1
    cases q with
    | nil => simp only [bfsLoop, Option.some.injEq] at h1; rw [← h1]; exact h
    | cons t r =>
      simp only [bfsLoop] at h1
      have hd := bfsDirs_wallsKept c g0 t.1 t.2 dir_vec g r h
      split at h1
      · next g2 h2 =>
        simp only [Option.some.injEq] at h1
        rw [← h1]; exact hd.1 g2 h2
      · next g2 q2 h2 => exact ih g2 q2 g1 (hd.2 g2 q2 h2) h1

theorem ucsLoop_wallsKept (c : Config) (actions : MazeAction) (tie : Nat → Nat) (g0 : Grid)
    (hE : g0 c.END_Y c.END_X ≠ WALL) :
    ∀ (fuel : Nat) (g : Grid) (q : List Node) (w : Int) (pos : Nat) (g1 : Grid),
      wallsKept g0 g → ucsLoop c actions tie fuel g q w pos = some g1 → wallsKept g0 g1 := by
  intro fuel
  induction fuel with
  | zero =>
    intro g q w pos g1 h h1
    cases q with
    | nil => simp only [ucsLoop, Option.some.injEq] at h1; rw [← h1]; exact h
    | cons t r => simp [ucsLoop] at h1
  | succ n ih =>
    intro g q w pos g1 h h1
    cases q with
    | nil => simp only [ucsLoop, Option.some.injEq] at h1; rw [← h1]; exact h
    | cons t r =>
      simp only [ucsLoop] at h1
      split_ifs at h1 with h2 h3
      · simp only [Option.some.injEq] at h1
        rw [← h1, h2.1, h2.2]
        exact wallsKept_set h _ _ _ hE
      · split at h1
        · exact absurd h1 (by simp)
        · exact ih _ _ _ _ _ (wallsKept_markExpanded c h _ _ h3) h1
      · exact ih _ _ _ _ _ h h1

theorem greedyLoop_wallsKept (c : Config) (tie : Nat → Nat) (g0 : Grid)
    (hE : g0 c.END_Y c.END_X ≠ WALL) :
    ∀ (fuel : Nat) (g : Grid) (q : List Node) (pos : Nat) (g1 : Grid),
      wallsKept g0 g → greedyLoop c tie fuel g q pos = some g1 → wallsKept g0 g1 := by
  intro fuel
  induction fuel with
  | zero =>
    intro g q pos g1 h h1
    cases q with
    | nil => simp only [greedyLoop, Option.some.injEq] at h1; rw [← h1]; exact h
    | cons t r => simp [greedyLoop] at h1
  | succ n ih =>
    intro g q pos g1 h h1
    cases q with
    | nil => simp only [greedyLoop, Option.some.injEq] at h1; rw [← h1]; exact h
    | cons t r =>
      simp only [greedyLoop] at h1
      split_ifs at h1 with h2 h3
      · simp only [Option.some.injEq] at h1
        rw [← h1, h2.1, h2.2]
        exact wallsKept_set h _ _ _ hE
      · exact ih _ _ _ _ (wallsKept_markExpanded c h _ _ h3) h1
      · exact ih _ _ _ _ h h1

theorem astarLoop_wallsKept (c : Config) (actions : MazeAction) (tie : Nat → Nat) (g0 : Grid)
    (hE : g0 c.END_Y c.END_X ≠ WALL) :
    ∀ (fuel : Nat) (g : Grid) (q : List AStarNode) (cw : Int × Int) (pos : Nat) (g1 : Grid),
      wallsKept g0 g → astarLoop c actions tie fuel g q cw pos = some g1 → wallsKept g0 g1 := by
  intro fuel
  induction fuel with
  | zero =>
    intro g q cw pos g1 h h1
    cases q with
    | nil => simp only [astarLoop, Option.some.injEq] at h1; rw [← h1]; exact h
    | cons t r => simp [astarLoop] at h1
  | succ n ih =>
    intro g q cw pos g1 h h1
    cases q with
    | nil => simp only [astarLoop, Option.some.injEq] at h1; rw [← h1]; exact h
    | cons t r =>
      simp only [astarLoop] at h1
      split_ifs at h1 with h2 h3
      · simp only [Option.some.injEq] at h1
        rw [← h1, h2.1, h2.2]
        exact wallsKept_set h _ _ _ hE
      · exact ih _ _ _ _ _ (wallsKept_markExpanded c h _ _ h3) h1
      · exact ih _ _ _ _ _ h h1

/-- C7: on a grid whose Begin and End cells are not Wall, whatever the selector, the order in
which the queue yields equal priorities and the fuel, a run of `solveMazeBFS`, `solveMazeUCS`,
`solveMazeGreedy` or `solveMazeAStar` that returns leaves every Wall cell Wall. -/
theorem solvers_keep_walls (c : Config) (g : Grid) (hB : g c.BEGIN_Y c.BEGIN_X ≠ WALL)
    (hE : g c.END_Y c.END_X ≠ WALL) (actions : MazeAction) (tie : Nat → Nat) (fuel : Nat)
    (g1 : Grid) :
    (solveMazeBFS c fuel g = some g1 → wallsKept g g1) ∧
    (solveMazeUCS c actions tie fuel g = some g1 → wallsKept g g1) ∧
    (solveMazeGreedy c tie fuel g = some g1 → wallsKept g g1) ∧
    (solveMazeAStar c actions tie fuel g = some g1 → wallsKept g g1) := by
  refine ⟨?_, ?_, ?_, ?_⟩
  · intro h
    exact bfsLoop_wallsKept c g fuel _ _ g1 (wallsKept_set (wallsKept_refl g) _ _ _ hB) h
  · intro h
    unfold solveMazeUCS at h
    split at h
    · exact absurd h (by simp)
    · exact ucsLoop_wallsKept c actions tie g hE fuel _ _ _ _ g1 (wallsKept_refl g) h
  · intro h
    exact greedyLoop_wallsKept c tie g hE fuel _ _ _ g1 (wallsKept_refl g) h
  · intro h
    exact astarLoop_wallsKept c actions tie g hE fuel _ _ _ _ g1 (wallsKept_refl g) h

theorem solvers_keep_walls_witness :
    ∃ g1 g2 g3 g4, solveMazeBFS cfg34 8 grid34 = some g1 ∧ wallsKept grid34 g1 ∧
      solveMazeUCS cfg34 MazeAction.S_UCS_MANHATTAN rndZero 8 grid34 = some g2 ∧
      wallsKept grid34 g2 ∧
      solveMazeGreedy cfg34 rndZero 8 grid34 = some g3 ∧ wallsKept grid34 g3 ∧
      solveMazeAStar cfg34 MazeAction.S_ASTAR_INTERVAL rndZero 8 grid34 = some g4 ∧
      wallsKept grid34 g4 :=
  ⟨(solveMazeBFS cfg34 8 grid34).get (by decide),
   (solveMazeUCS cfg34 MazeAction.S_UCS_MANHATTAN rndZero 8 grid34).get (by decide),
   (solveMazeGreedy cfg34 rndZero 8 grid34).get (by decide),
   (solveMazeAStar cfg34 MazeAction.S_ASTAR_INTERVAL rndZero 8 grid34).get (by decide),
   (Option.some_get _).symm,
   (solvers_keep_walls cfg34 grid34 (by decide) (by decide) MazeAction.S_UCS_MANHATTAN
      rndZero 8 _).1 (Option.some_get _).symm,
   (Option.some_get _).symm,
   (solvers_keep_walls cfg34 grid34 (by decide) (by decide) MazeAction.S_UCS_MANHATTAN
      rndZero 8 _).2.1 (Option.some_get _).symm,
   (Option.some_get _).symm,
   (solvers_keep_walls cfg34 grid34 (by decide) (by decide) MazeAction.S_UCS_MANHATTAN
      rndZero 8 _).2.2.1 (Option.some_get _).symm,
   (Option.some_get _).symm,
   (solvers_keep_walls cfg34 grid34 (by decide) (by decide) MazeAction.S_ASTAR_INTERVAL
      rndZero 8 _).2.2.2 (Option.some_get _).symm⟩

/-! ## Depth-first search and the cell (1, 0) (C8) -/

theorem grid34_border (y x : Int) (h : onBorder cfg34 y x) : grid34 y x = WALL := by
  obtain ⟨⟨h1, h2, h3, h4⟩, h5⟩ := h
  simp only [cfg34] at h1 h2 h5
  unfold grid34
  rw [if_neg]
  omega

/-- C8 (fails on the code): the 3 x 4 grid has a Wall ring and an interior Ground Begin, and
`solveMazeDFS(BEGIN_Y, BEGIN_X)` returns with the border cell (1, 0), Wall before the call,
holding Begin: the first statement of the method writes `maze[1][0]`. -/
theorem dfs_overwrites_wall :
    (∀ y x, onBorder cfg34 y x → grid34 y x = WALL) ∧ grid34 1 0 = WALL ∧
    inMaze cfg34 cfg34.BEGIN_Y cfg34.BEGIN_X 0 0 ∧ grid34 cfg34.BEGIN_Y cfg34.BEGIN_X = GROUND ∧
    (solveMazeDFS cfg34 8 grid34 cfg34.BEGIN_Y cfg34.BEGIN_X).map (fun r => (r.1, r.2 1 0))
      = some (true, BEGIN) :=
  ⟨grid34_border, by decide, by decide, by decide, by decide⟩

/-! ## The nodes that A* pushes (C9) -/

/-- C9 (fails on the code): on the 3 x 4 grid, with the selector `S_ASTAR_INTERVAL`, the first
node has cost 50; when it is expanded the node pushed for its neighbour (1, 2) has cost 50, not
50 + 50, and priority 50 + 0: the cost of the expanded node is not added. With another selector
the pushed node has cost 0 and priority 0. -/
theorem astar_cost_not_accumulated :
    astarStart cfg34 MazeAction.S_ASTAR_INTERVAL = (50, 51) ∧
    (astarDirs cfg34 MazeAction.S_ASTAR_INTERVAL (markExpanded cfg34 grid34 1 1) ⟨50, 51, 1, 1⟩
      dir_vec ([], 50, 51)).1 = [⟨50, 50, 1, 2⟩] ∧
    astarStart cfg34 (MazeAction.OTHER 0) = (0, 0) ∧
    (astarDirs cfg34 (MazeAction.OTHER 0) (markExpanded cfg34 grid34 1 1) ⟨0, 0, 1, 1⟩
      dir_vec ([], 0, 0)).1 = [⟨0, 0, 1, 2⟩] :=
  ⟨by decide, by decide, by decide, by decide⟩

/-! ## The nodes that uniform-cost search pushes (C10) -/

theorem abs_eq_abs (a : Int) : abs a = |a| := by
  unfold abs
  split
  · rw [abs_of_neg (by assumption)]
  · rw [abs_of_nonneg (by omega)]

/-- The divisors of the interval policy are not zero: the selector is not `S_UCS_INTERVAL`, or
neither `MAZE_HEIGHT / 10` nor `MAZE_WIDTH / 10` is zero. -/
theorem ucsStart_divisors {c : Config} {actions : MazeAction} {w : Int}
    (h : ucsStart c actions = some w) :
    actions = MazeAction.S_UCS_INTERVAL →
      c.MAZE_HEIGHT.tdiv 10 ≠ 0 ∧ c.MAZE_WIDTH.tdiv 10 ≠ 0 := by
  intro ha
  subst ha
  simp only [ucsStart] at h
  split_ifs at h with h1
  · exact not_or.mp h1
  · exact not_or.mp h1

theorem ucsWeight_some (c : Config) (actions : MazeAction)
    (hz : actions = MazeAction.S_UCS_INTERVAL →
      c.MAZE_HEIGHT.tdiv 10 ≠ 0 ∧ c.MAZE_WIDTH.tdiv 10 ≠ 0) (weight y x : Int) :
    ∃ w, ucsWeight c actions weight y x = some w := by
  unfold ucsWeight
  split
  · exact ⟨_, rfl⟩
  · exact ⟨_, rfl⟩
  · have h1 := hz rfl
    dsimp only
    rw [if_neg (not_or.mpr h1)]
    split_ifs <;> exact ⟨_, rfl⟩
  · exact ⟨_, rfl⟩

/-- The three weighting policies of `solveMazeUCS`, where the interval policy does not divide
by zero. -/
theorem ucsWeight_eq_score (c : Config) (actions : MazeAction)
    (ha : actions = MazeAction.S_UCS_MANHATTAN ∨ actions = MazeAction.S_UCS_TWO_NORM ∨
      actions = MazeAction.S_UCS_INTERVAL)
    (hz : actions = MazeAction.S_UCS_INTERVAL →
      c.MAZE_HEIGHT.tdiv 10 ≠ 0 ∧ c.MAZE_WIDTH.tdiv 10 ≠ 0)
    (weight y x : Int) (hin : is_in_maze c y x) :
    ucsWeight c actions weight y x = some (score c actions y x) := by
  obtain ⟨h1, h2, h3, h4⟩ := hin
  rcases ha with rfl | rfl | rfl
  · simp only [ucsWeight, score, abs_eq_abs]
  · simp only [ucsWeight, score, pow_two_norm]
  · obtain ⟨hzy, hzx⟩ := hz rfl
    simp only [ucsWeight, score]
    rw [if_neg (not_or.mpr ⟨hzy, hzx⟩)]
    have hH : c.MAZE_HEIGHT.tdiv 10 = c.MAZE_HEIGHT / 10 :=
      Int.tdiv_eq_ediv (by omega) (by omega)
    have hW : c.MAZE_WIDTH.tdiv 10 = c.MAZE_WIDTH / 10 :=
      Int.tdiv_eq_ediv (by omega) (by omega)
    have hy : y.tdiv (c.MAZE_HEIGHT / 10) = y / (c.MAZE_HEIGHT / 10) :=
      Int.tdiv_eq_ediv h3 (Int.ediv_nonneg (by omega) (by omega))
    have hx : x.tdiv (c.MAZE_WIDTH / 10) = x / (c.MAZE_WIDTH / 10) :=
      Int.tdiv_eq_ediv h4 (Int.ediv_nonneg (by omega) (by omega))
    rw [hH, hW, hy, hx]
    split_ifs with h5
    · rw [min_eq_left (le_of_lt h5)]
    · rw [min_eq_right (not_lt.mp h5)]

theorem ucsDirs_pushed (c : Config) (actions : MazeAction)
    (ha : actions = MazeAction.S_UCS_MANHATTAN ∨ actions = MazeAction.S_UCS_TWO_NORM ∨
      actions = MazeAction.S_UCS_INTERVAL)
    (hz : actions = MazeAction.S_UCS_INTERVAL →
      c.MAZE_HEIGHT.tdiv 10 ≠ 0 ∧ c.MAZE_WIDTH.tdiv 10 ≠ 0) (g : Grid) (temp : Node) :
    ∀ (ds : List (Int × Int)) (s : List Node × Int),
      ∃ weight1, ucsDirs c actions g temp ds s = some (s.1 ++
        (ds.filter (fun d => decide (is_in_maze c (temp.y + d.1) (temp.x + d.2) ∧
          g (temp.y + d.1) (temp.x + d.2) = GROUND))).map
          (fun d => ⟨temp.__Weight + score c actions (temp.y + d.1) (temp.x + d.2),
            temp.y + d.1, temp.x + d.2⟩), weight1) := by
  intro ds
  induction ds with
  | nil => intro s; exact ⟨s.2, by simp [ucsDirs]⟩
  | cons d ds ih =>
    intro s
    simp only [ucsDirs]
    split_ifs with h1
    · rw [ucsWeight_eq_score c actions ha hz _ _ _ h1.1]
      obtain ⟨w1, h2⟩ := ih (s.1 ++ [⟨temp.__Weight + score c actions (temp.y + d.1)
        (temp.x + d.2), temp.y + d.1, temp.x + d.2⟩], score c actions (temp.y + d.1)
        (temp.x + d.2))
      refine ⟨w1, ?_⟩
      dsimp only
      rw [h2, List.filter_cons_of_pos (by simpa using h1), List.map_cons]
      simp
    · obtain ⟨w1, h2⟩ := ih s
      refine ⟨w1, ?_⟩
      rw [h2, List.filter_cons_of_neg (by simpa using h1)]

/-- A run of `solveMazeUCS` that has reached some round has not divided by zero at its
start. -/
theorem ucsRounds_start (c : Config) (actions : MazeAction) (tie : Nat → Nat) (g0 : Grid) :
    ∀ (k : Nat) (st : Grid × List Node × Int), ucsRounds c actions tie g0 k = some st →
      ∃ w, ucsStart c actions = some w := by
  intro k
  induction k with
  | zero =>
    intro st h
    simp only [ucsRounds] at h
    split at h
    · exact absurd h (by simp)
    · next w hw => exact ⟨w, hw⟩
  | succ k ih =>
    intro st h
    simp only [ucsRounds] at h
    split at h
    · next g n ns w hk => exact ih _ hk
    · exact absurd h (by simp)

/-- The states of `ucsRounds` are the states that `solveMazeUCS` passes through. -/
theorem ucsRounds_run (c : Config) (actions : MazeAction) (tie : Nat → Nat) (g0 : Grid) :
    ∀ (k : Nat) (g : Grid) (q : List Node) (weight : Int),
      ucsRounds c actions tie g0 k = some (g, q, weight) →
      ∀ fuel, solveMazeUCS c actions tie (k + fuel) g0 =
        ucsLoop c actions tie fuel g q weight k := by
  intro k
  induction k with
  | zero =>
    intro g q weight h fuel
    simp only [ucsRounds] at h
    split at h
    · exact absurd h (by simp)
    · next w hw =>
      simp only [Option.some.injEq, Prod.mk.injEq] at h
      obtain ⟨h1, h2, h3⟩ := h
      rw [← h1, ← h2, ← h3, Nat.zero_add]
      unfold solveMazeUCS
      rw [hw]
  | succ k ih =>
    intro g q weight h fuel
    simp only [ucsRounds] at h
    split at h
    · next g' n ns w' hk =>
      have h0 := ih _ _ _ hk (fuel + 1)
      rw [show k + 1 + fuel = k + (fuel + 1) by omega, h0]
      simp only [ucsLoop]
      split_ifs at h with h3 h4
      · rw [if_neg h3, if_pos h4]
        split at h
        · exact absurd h (by simp)
        · next s hs =>
          simp only [Option.some.injEq, Prod.mk.injEq] at h
          obtain ⟨h5, h6, h7⟩ := h
          rw [← h5, ← h6, ← h7]
      · simp only [Option.some.injEq, Prod.mk.injEq] at h
        obtain ⟨h5, h6, h7⟩ := h
        rw [if_neg h3, if_neg h4, ← h5, ← h6, ← h7]
    · exact absurd h (by simp)

/-- C10: in every state that a run of `solveMazeUCS` passes through under one of the three
weighting policies, when the node `temp` on top of the queue is expanded (it is not End and its
cell is Ground) the queue of the next round is the rest of the queue followed by exactly one
node per in-array Ground neighbour `(y, x)` of `temp`, in the order of `dir_vec`, with priority
`temp.__Weight + score (y, x)`, where `score` is the Manhattan distance to End, the squared
Euclidean distance to End, or ten minus the smaller interval index. The states are those of
`solveMazeUCS`: from round `k` on, the run is the loop resumed from the state of round `k`. (A
run under the interval policy on an array with `MAZE_HEIGHT / 10 = 0` or `MAZE_WIDTH / 10 = 0`
divides by zero before its first node is queued, and passes through no state.) -/
theorem ucs_pushed_priority (c : Config) (actions : MazeAction)
    (ha : actions = MazeAction.S_UCS_MANHATTAN ∨ actions = MazeAction.S_UCS_TWO_NORM ∨
      actions = MazeAction.S_UCS_INTERVAL) (tie : Nat → Nat) (g0 : Grid) (k : Nat)
    (g : Grid) (n : Node) (ns : List Node) (weight : Int)
    (hk : ucsRounds c actions tie g0 k = some (g, n :: ns, weight))
    (temp : Node) (result : List Node)
    (htemp : temp = (n :: ns).getD (topIndex Node.__Weight (n :: ns) (tie k)) n)
    (hresult : result = (n :: ns).eraseIdx (topIndex Node.__Weight (n :: ns) (tie k)))
    (hE : ¬ (temp.y = c.END_Y ∧ temp.x = c.END_X)) (hG : g temp.y temp.x = GROUND) :
    (∀ fuel, solveMazeUCS c actions tie (k + fuel) g0 =
      ucsLoop c actions tie fuel g (n :: ns) weight k) ∧
    ∃ weight1, ucsRounds c actions tie g0 (k + 1) =
      some (markExpanded c g temp.y temp.x,
        result ++ (dir_vec.filter (fun d => decide (is_in_maze c (temp.y + d.1) (temp.x + d.2) ∧
          markExpanded c g temp.y temp.x (temp.y + d.1) (temp.x + d.2) = GROUND))).map
          (fun d => ⟨temp.__Weight + score c actions (temp.y + d.1) (temp.x + d.2),
            temp.y + d.1, temp.x + d.2⟩), weight1) := by
  refine ⟨ucsRounds_run c actions tie g0 k g (n :: ns) weight hk, ?_⟩
  obtain ⟨w0, hw0⟩ := ucsRounds_start c actions tie g0 k _ hk
  obtain ⟨w1, h1⟩ := ucsDirs_pushed c actions ha (ucsStart_divisors hw0)
    (markExpanded c g temp.y temp.x) temp dir_vec (result, weight)
  refine ⟨w1, ?_⟩
  subst htemp hresult
  simp only [ucsRounds, hk, if_neg hE, if_pos hG, h1]

theorem ucs_pushed_priority_witness :
    (∀ fuel, solveMazeUCS cfg10 MazeAction.S_UCS_INTERVAL rndZero (0 + fuel) grid34 =
      ucsLoop cfg10 MazeAction.S_UCS_INTERVAL rndZero fuel grid34 [⟨9, 1, 1⟩] 9 0) ∧
    ∃ weight1, ucsRounds cfg10 MazeAction.S_UCS_INTERVAL rndZero grid34 (0 + 1) =
      some (markExpanded cfg10 grid34 1 1,
        [] ++ (dir_vec.filter (fun d => decide (is_in_maze cfg10 (1 + d.1) (1 + d.2) ∧
          markExpanded cfg10 grid34 1 1 (1 + d.1) (1 + d.2) = GROUND))).map
          (fun d => (⟨9 + score cfg10 MazeAction.S_UCS_INTERVAL (1 + d.1) (1 + d.2),
            1 + d.1, 1 + d.2⟩ : Node)), weight1) :=
  ucs_pushed_priority cfg10 MazeAction.S_UCS_INTERVAL (by decide) rndZero grid34 0 grid34
    ⟨9, 1, 1⟩ [] 9 rfl ⟨9, 1, 1⟩ [] (by decide) (by decide) (by decide) (by decide)

/-! ## No cell is left Explored by Prim carving (C11) -/

theorem PrimMarks.explore {c : Config} {g : Grid} {cache : List (Int × Int)}
    (h : PrimMarks c g cache) (y x : Int) :
    PrimMarks c (g.set y x EXPLORED) (cache ++ [(y, x)]) := by
  intro y' x' hin
  by_cases h1 : y' = y ∧ x' = x
  · rw [h1.1, h1.2, set_self]
    exact Or.inr (Or.inr ⟨rfl, List.mem_append_right _ (List.mem_singleton.mpr rfl)⟩)
  · rw [set_other _ _ _ _ _ _ h1]
    rcases h y' x' hin with h2 | h2 | ⟨h2, h3⟩
    · exact Or.inl h2
    · exact Or.inr (Or.inl h2)
    · exact Or.inr (Or.inr ⟨h2, List.mem_append_left _ h3⟩)

theorem primStep_marks (c : Config) (rnd : Nat → Nat) (s : PrimState)
    (h : PrimMarks c s.m.maze s.explored_cache) :
    PrimMarks c (primStep c rnd s).m.maze (primStep c rnd s).explored_cache := by
  unfold primStep
  simp only
  split_ifs with h1 h2
  · exact h
  · exact (h.explore _ _).explore _ _
  · exact h

theorem primLoop_marks (c : Config) (rnd : Nat → Nat) :
    ∀ (fuel : Nat) (s s1 : PrimState), PrimMarks c s.m.maze s.explored_cache →
      primLoop c rnd fuel s = some s1 → PrimMarks c s1.m.maze s1.explored_cache := by
  intro fuel
  induction fuel with
  | zero =>
    intro s s1 h h1
    simp only [primLoop] at h1
    split_ifs at h1
    simp only [Option.some.injEq] at h1
    rw [← h1]; exact h
  | succ n ih =>
    intro s s1 h h1
    simp only [primLoop] at h1
    split_ifs at h1 with h2
    · simp only [Option.some.injEq] at h1
      rw [← h1]; exact h
    · exact ih _ _ (primStep_marks c rnd s h) h1

theorem primInit_marks (c : Config) (rnd : Nat → Nat) (m : MazeModel) :
    PrimMarks c (primInit c rnd m).m.maze (primInit c rnd m).explored_cache := by
  have h0 : PrimMarks c (resetGrid c m.maze) [] := by
    intro y x hin
    rw [resetGrid_apply, if_pos hin]
    unfold resetValue
    split_ifs
    · exact Or.inl rfl
    · exact Or.inr (Or.inl rfl)
    · exact Or.inl rfl
  exact h0.explore _ _

/-- The cells of the array after `generateMazePrim`: End holds End, Begin holds Begin unless it
is the End coordinate, and every other cell is Wall or Ground. -/
theorem prim_cells (c : Config) (rnd : Nat → Nat) (fuel : Nat) (m m1 : MazeModel)
    (hrun : generateMazePrim c rnd fuel m = some m1) :
    (∀ y x, is_in_maze c y x → ¬ (y = c.BEGIN_Y ∧ x = c.BEGIN_X) →
      ¬ (y = c.END_Y ∧ x = c.END_X) → m1.maze y x = WALL ∨ m1.maze y x = GROUND) ∧
    m1.maze c.END_Y c.END_X = END ∧
    (¬ (c.BEGIN_Y = c.END_Y ∧ c.BEGIN_X = c.END_X) → m1.maze c.BEGIN_Y c.BEGIN_X = BEGIN) := by
  unfold generateMazePrim at hrun
  split at hrun
  · exact absurd hrun (by simp)
  · next s hs =>
    simp only [Option.some.injEq] at hrun
    rw [← hrun]
    have hm := primLoop_marks c rnd fuel _ s (primInit_marks c rnd m) hs
    simp only [setFlag, MazeModel.enFramequeue, MazeModel.setCell]
    refine ⟨?_, set_self _ _ _ _, ?_⟩
    · intro y x hin hB hE
      rw [set_other _ _ _ _ _ _ hE, set_other _ _ _ _ _ _ hB, revertPrim_maze]
      by_cases h1 : (y, x) ∈ s.explored_cache
      · rw [if_pos h1]; exact Or.inr rfl
      · rw [if_neg h1]
        rcases hm y x hin with h2 | h2 | ⟨_, h3⟩
        · exact Or.inl h2
        · exact Or.inr h2
        · exact absurd h3 h1
    · intro hne
      rw [set_other _ _ _ _ _ _ hne, set_self]

/-- C11: for every array size, every random stream and every run of `generateMazePrim` that
finishes, no cell of the array is Explored in the resulting grid: the End coordinate holds End,
the Begin coordinate holds Begin (when it is not the End coordinate), and every other cell of
the array is Wall or Ground. -/
theorem prim_leaves_no_explored (c : Config) (rnd : Nat → Nat) (fuel : Nat) (m m1 : MazeModel)
    (hrun : generateMazePrim c rnd fuel m = some m1) :
    (∀ y x, is_in_maze c y x → m1.maze y x ≠ EXPLORED) ∧
    (∀ y x, is_in_maze c y x → ¬ (y = c.BEGIN_Y ∧ x = c.BEGIN_X) →
      ¬ (y = c.END_Y ∧ x = c.END_X) → m1.maze y x = WALL ∨ m1.maze y x = GROUND) ∧
    m1.maze c.END_Y c.END_X = END ∧
    (¬ (c.BEGIN_Y = c.END_Y ∧ c.BEGIN_X = c.END_X) → m1.maze c.BEGIN_Y c.BEGIN_X = BEGIN) := by
  obtain ⟨h1, h2, h3⟩ := prim_cells c rnd fuel m m1 hrun
  refine ⟨?_, h1, h2, h3⟩
  intro y x hin
  by_cases hE : y = c.END_Y ∧ x = c.END_X
  · rw [hE.1, hE.2, h2]; decide
  · by_cases hB : y = c.BEGIN_Y ∧ x = c.BEGIN_X
    · rw [hB.1, hB.2, h3 (fun h => hE ⟨hB.1.trans h.1, hB.2.trans h.2⟩)]; decide
    · rcases h1 y x hin hB hE with h4 | h4 <;> rw [h4] <;> decide

theorem prim_leaves_no_explored_witness :
    (∀ y x, is_in_maze cfg5 y x →
      ((generateMazePrim cfg5 rndZero 16 MazeModel.init).get (by decide)).maze y x ≠ EXPLORED) ∧
    (∀ y x, is_in_maze cfg5 y x → ¬ (y = cfg5.BEGIN_Y ∧ x = cfg5.BEGIN_X) →
      ¬ (y = cfg5.END_Y ∧ x = cfg5.END_X) →
      ((generateMazePrim cfg5 rndZero 16 MazeModel.init).get (by decide)).maze y x = WALL ∨
      ((generateMazePrim cfg5 rndZero 16 MazeModel.init).get (by decide)).maze y x = GROUND) ∧
    ((generateMazePrim cfg5 rndZero 16 MazeModel.init).get (by decide)).maze
      cfg5.END_Y cfg5.END_X = END ∧
    (¬ (cfg5.BEGIN_Y = cfg5.END_Y ∧ cfg5.BEGIN_X = cfg5.END_X) →
      ((generateMazePrim cfg5 rndZero 16 MazeModel.init).get (by decide)).maze
        cfg5.BEGIN_Y cfg5.BEGIN_X = BEGIN) :=
  prim_leaves_no_explored cfg5 rndZero 16 MazeModel.init _ (Option.some_get _).symm

/-! ## The recursive backtracker leaves connectors Explored (C12) -/

/-- C12 (fails on the code): on the 5 x 5 array (odd height and width), with the all-zero random
stream, the seed is room (1, 1); the connector cells (1, 2) and (2, 1) between the seed and the
rooms (1, 3) and (3, 1) are set to Explored by the carving loop, are not pushed on the cache
(the loop pushes `current_point` and `temp_point`), and still hold Explored when
`generateMazeRecursionBacktracker` has returned. -/
theorem backtracker_leaves_explored :
    OddDims cfg5 ∧ is_in_maze cfg5 1 2 ∧ is_in_maze cfg5 2 1 ∧
    (generateMazeRecursionBacktracker cfg5 rndZero MazeModel.init).maze 1 2 = EXPLORED ∧
    (generateMazeRecursionBacktracker cfg5 rndZero MazeModel.init).maze 2 1 = EXPLORED :=
  ⟨⟨by decide, by decide, by decide, by decide⟩, by decide, by decide, by decide, by decide⟩

/-! ## The event stream of Prim carving replays the grid (C13) -/

theorem replay_append (evs : List MazeNode) (e : MazeNode) (g : Grid) :
    replay (evs ++ [e]) g = (replay evs g).set e.y e.x e.element := by
  unfold replay
  rw [List.foldl_append]; rfl

theorem Streamed.emit {q0 : List MazeNode} {m : MazeModel} {evs : List MazeNode}
    (h : Streamed q0 m evs) (y x : Int) (e : MazeElement) (he : e ≠ INVALID) :
    Streamed q0 ((m.setCell y x e).enFramequeue y x e) (evs ++ [⟨y, x, e⟩]) := by
  refine ⟨?_, ?_⟩
  · simp only [MazeModel.enFramequeue, MazeModel.setCell]
    rw [h.1, List.append_assoc]
  · intro e1 h1
    rcases List.mem_append.mp h1 with h2 | h2
    · exact h.2 e1 h2
    · rw [List.mem_singleton.mp h2]; exact he

theorem Logged.write {q0 : List MazeNode} {m : MazeModel} {evs : List MazeNode}
    (h : Logged q0 m evs) (y x : Int) (e : MazeElement) (he : e ≠ INVALID) :
    Logged q0 ((m.setCell y x e).enFramequeue y x e) (evs ++ [⟨y, x, e⟩]) := by
  refine ⟨h.1.emit y x e he, ?_⟩
  rw [replay_append]
  simp only [MazeModel.enFramequeue, MazeModel.setCell]
  rw [h.2]

theorem primStep_logged (c : Config) (rnd : Nat → Nat) (q0 : List MazeNode) (s : PrimState)
    (h : ∃ evs, Logged q0 s.m evs) : ∃ evs, Logged q0 (primStep c rnd s).m evs := by
  obtain ⟨evs, h⟩ := h
  unfold primStep
  simp only
  split_ifs with h1 h2
  · exact ⟨evs, h⟩
  · exact ⟨_, (h.write _ _ EXPLORED (by decide)).write _ _ EXPLORED (by decide)⟩
  · exact ⟨evs, h⟩

theorem primStep_frame_maze (c : Config) (rnd : Nat → Nat) (s : PrimState) :
    (primStep c rnd s).m.frame_maze = s.m.frame_maze := by
  unfold primStep
  simp only
  split_ifs <;> rfl

theorem primLoop_logged (c : Config) (rnd : Nat → Nat) (q0 : List MazeNode) :
    ∀ (fuel : Nat) (s s1 : PrimState), (∃ evs, Logged q0 s.m evs) →
      primLoop c rnd fuel s = some s1 →
      (∃ evs, Logged q0 s1.m evs) ∧ s1.m.frame_maze = s.m.frame_maze := by
  intro fuel
  induction fuel with
  | zero =>
    intro s s1 h h1
    simp only [primLoop] at h1
    split_ifs at h1
    simp only [Option.some.injEq] at h1
    rw [← h1]; exact ⟨h, rfl⟩
  | succ n ih =>
    intro s s1 h h1
    simp only [primLoop] at h1
    split_ifs at h1 with h2
    · simp only [Option.some.injEq] at h1
      rw [← h1]; exact ⟨h, rfl⟩
    · obtain ⟨h3, h4⟩ := ih _ _ (primStep_logged c rnd q0 s h) h1
      exact ⟨h3, h4.trans (primStep_frame_maze c rnd s)⟩

theorem primInit_logged (c : Config) (rnd : Nat → Nat) (m : MazeModel) :
    (∃ evs, Logged m.frame_queue (primInit c rnd m).m evs) ∧
      (primInit c rnd m).m.frame_maze = (resetMaze c m).maze := by
  have h0 : Logged m.frame_queue (resetMaze c m) [] :=
    ⟨⟨(List.append_nil _).symm, fun e he => absurd he (List.not_mem_nil _)⟩, rfl⟩
  exact ⟨⟨_, h0.write _ _ EXPLORED (by decide)⟩, rfl⟩

theorem revertPrim_logged (q0 : List MazeNode) :
    ∀ (cache : List (Int × Int)) (m : MazeModel), (∃ evs, Logged q0 m evs) →
      (∃ evs, Logged q0 (revertPrim m cache) evs) ∧
        (revertPrim m cache).frame_maze = m.frame_maze := by
  intro cache
  induction cache with
  | nil => intro m h; exact ⟨h, rfl⟩
  | cons p ps ih =>
    intro m h
    obtain ⟨evs, h⟩ := h
    unfold revertPrim
    rw [List.foldl_cons]
    exact ih _ ⟨_, h.write p.1 p.2 GROUND (by decide)⟩

/-- The stream of a completed run of `generateMazePrim`: the queue has grown by events that
replay the grid from the snapshot of `resetMaze`, closed by Begin, End and the sentinel. -/
theorem prim_stream (c : Config) (rnd : Nat → Nat) (fuel : Nat) (m m1 : MazeModel)
    (hrun : generateMazePrim c rnd fuel m = some m1) :
    ∃ evs, m1.frame_queue = m.frame_queue ++ evs ++
        [⟨c.BEGIN_Y, c.BEGIN_X, BEGIN⟩, ⟨c.END_Y, c.END_X, END⟩, sentinel] ∧
      (∀ e ∈ evs, e.element ≠ INVALID) ∧ m1.frame_maze = (resetMaze c m).maze ∧
      replay (evs ++ [⟨c.BEGIN_Y, c.BEGIN_X, BEGIN⟩, ⟨c.END_Y, c.END_X, END⟩]) m1.frame_maze =
        m1.maze := by
  unfold generateMazePrim at hrun
  split at hrun
  · exact absurd hrun (by simp)
  · next s hs =>
    simp only [Option.some.injEq] at hrun
    obtain ⟨h0, hf0⟩ := primInit_logged c rnd m
    obtain ⟨h1, hf1⟩ := primLoop_logged c rnd m.frame_queue fuel _ s h0 hs
    obtain ⟨⟨evs, h2⟩, hf2⟩ := revertPrim_logged m.frame_queue s.explored_cache s.m h1
    have h3 := (h2.write c.BEGIN_Y c.BEGIN_X BEGIN (by decide)).write c.END_Y c.END_X END
      (by decide)
    refine ⟨evs, ?_, h2.1.2, ?_, ?_⟩
    · rw [← hrun]
      simp only [setFlag, MazeModel.enFramequeue, MazeModel.setCell]
      rw [h2.1.1]
      simp [sentinel]
    · rw [← hrun]
      simp only [setFlag, MazeModel.enFramequeue, MazeModel.setCell]
      rw [hf2, hf1, hf0]
    · have h4 := h3.2
      rw [← hrun]
      simp only [setFlag, MazeModel.enFramequeue, MazeModel.setCell] at h4 ⊢
      rw [← h4]
      simp

theorem revertBacktracker_streamed (q0 : List MazeNode) :
    ∀ (cache : List (Int × Int)) (m : MazeModel), (∃ evs, Streamed q0 m evs) →
      ∃ evs, Streamed q0 (revertBacktracker m cache) evs := by
  intro cache
  induction cache with
  | nil => intro m h; exact h
  | cons p ps ih =>
    intro m h
    obtain ⟨evs, h⟩ := h
    unfold revertBacktracker
    exact ih _ ⟨_, h.emit p.1 p.2 GROUND (by decide)⟩

theorem setFlag_revertBacktracker_stream (c : Config) (q0 : List MazeNode) (mm : MazeModel)
    (cache : List (Int × Int)) (h : ∃ evs, Streamed q0 mm evs) :
    ∃ evs, (setFlag c (revertBacktracker mm cache)).frame_queue = q0 ++ evs ++
        [⟨c.BEGIN_Y, c.BEGIN_X, BEGIN⟩, ⟨c.END_Y, c.END_X, END⟩, sentinel] ∧
      (∀ e ∈ evs, e.element ≠ INVALID) := by
  obtain ⟨evs, h1, h2⟩ := revertBacktracker_streamed q0 cache mm h
  refine ⟨evs, ?_, h2⟩
  simp only [setFlag, MazeModel.enFramequeue, MazeModel.setCell]
  rw [h1]
  simp [sentinel]

theorem backtracker_stream (c : Config) (rnd : Nat → Nat) (m : MazeModel) :
    ∃ evs, (generateMazeRecursionBacktracker c rnd m).frame_queue = m.frame_queue ++ evs ++
        [⟨c.BEGIN_Y, c.BEGIN_X, BEGIN⟩, ⟨c.END_Y, c.END_X, END⟩, sentinel] ∧
      (∀ e ∈ evs, e.element ≠ INVALID) := by
  have h0 : Streamed m.frame_queue (resetMaze c m) [] :=
    ⟨(List.append_nil _).symm, fun e he => absurd he (List.not_mem_nil _)⟩
  have h1 := h0.emit (setBeginPoint c rnd 0 (resetMaze c m)).1
    (setBeginPoint c rnd 0 (resetMaze c m)).2.1 EXPLORED (by decide)
  unfold generateMazeRecursionBacktracker
  simp only
  apply setFlag_revertBacktracker_stream
  exact ⟨_, h1.1, h1.2⟩

/-- C14: for every completed run of `generateMazePrim` and every run of
`generateMazeRecursionBacktracker`, the events emitted end with `(BEGIN_Y, BEGIN_X, BEGIN)`,
`(END_Y, END_X, END)` and the sentinel `(-1, -1, INVALID)`, in that order, and the sentinel is
none of the events emitted before its closing occurrence. -/
theorem generators_close_stream (c : Config) (rnd : Nat → Nat) (m : MazeModel) :
    (∀ fuel m1, generateMazePrim c rnd fuel m = some m1 →
      ∃ evs, m1.frame_queue = m.frame_queue ++ evs ++
          [⟨c.BEGIN_Y, c.BEGIN_X, BEGIN⟩, ⟨c.END_Y, c.END_X, END⟩, sentinel] ∧
        sentinel ∉ evs ++ [⟨c.BEGIN_Y, c.BEGIN_X, BEGIN⟩, ⟨c.END_Y, c.END_X, END⟩]) ∧
    (∃ evs, (generateMazeRecursionBacktracker c rnd m).frame_queue = m.frame_queue ++ evs ++
        [⟨c.BEGIN_Y, c.BEGIN_X, BEGIN⟩, ⟨c.END_Y, c.END_X, END⟩, sentinel] ∧
      sentinel ∉ evs ++ [⟨c.BEGIN_Y, c.BEGIN_X, BEGIN⟩, ⟨c.END_Y, c.END_X, END⟩]) := by
  have key : ∀ evs : List MazeNode, (∀ e ∈ evs, e.element ≠ INVALID) →
      sentinel ∉ evs ++ [⟨c.BEGIN_Y, c.BEGIN_X, BEGIN⟩, ⟨c.END_Y, c.END_X, END⟩] := by
    intro evs h h5
    rcases List.mem_append.mp h5 with h6 | h6
    · exact h _ h6 rfl
    · simp [sentinel] at h6
  refine ⟨?_, ?_⟩
  · intro fuel m1 hrun
    obtain ⟨evs, h1, h2, _, _⟩ := prim_stream c rnd fuel m m1 hrun
    exact ⟨evs, h1, key evs h2⟩
  · obtain ⟨evs, h1, h2⟩ := backtracker_stream c rnd m
    exact ⟨evs, h1, key evs h2⟩

theorem generators_close_stream_witness :
    (∃ evs, ((generateMazePrim cfg5 rndZero 16 MazeModel.init).get (by decide)).frame_queue =
        MazeModel.init.frame_queue ++ evs ++
          [⟨cfg5.BEGIN_Y, cfg5.BEGIN_X, BEGIN⟩, ⟨cfg5.END_Y, cfg5.END_X, END⟩, sentinel] ∧
        sentinel ∉ evs ++ [⟨cfg5.BEGIN_Y, cfg5.BEGIN_X, BEGIN⟩, ⟨cfg5.END_Y, cfg5.END_X, END⟩]) ∧
    (∃ evs, (generateMazeRecursionBacktracker cfg5 rndZero MazeModel.init).frame_queue =
        MazeModel.init.frame_queue ++ evs ++
          [⟨cfg5.BEGIN_Y, cfg5.BEGIN_X, BEGIN⟩, ⟨cfg5.END_Y, cfg5.END_X, END⟩, sentinel] ∧
      sentinel ∉ evs ++ [⟨cfg5.BEGIN_Y, cfg5.BEGIN_X, BEGIN⟩, ⟨cfg5.END_Y, cfg5.END_X, END⟩]) :=
  ⟨(generators_close_stream cfg5 rndZero MazeModel.init).1 16 _ (Option.some_get _).symm,
   (generators_close_stream cfg5 rndZero MazeModel.init).2⟩

/-! ## Recursive division: the base case (C15) -/

/-- C15 (as stated, fails): on the 5 x 5 array the rectangle (1, 1)-(3, 1) has width 1 and
height 3, so its shorter side is below 3; the split runs along the longer side, and for every
amount of fuel, every random stream and every grid `generateMazeRecursionDivision` does not
return on it. -/
theorem division_splits_thin_rectangle :
    min ((1 : Int) - 1 + 1) (3 - 1 + 1) < 3 ∧
    ∀ (rnd : Nat → Nat) (fuel : Nat) (g : Grid) (pos : Nat),
      generateMazeRecursionDivision cfg5 rnd fuel (g, pos) 1 1 3 1 = none :=
  ⟨by decide, fun rnd fuel g pos =>
    division_split_none cfg5 rnd fuel (g, pos) 1 1 3 1 (by decide) (by decide)⟩

/-- C15, amended: for every rectangle whose longer side is below 3, one call of
`generateMazeRecursionDivision` returns with the grid and the random stream as they were: with
one unit of fuel, which allows no recursive call, and with any larger amount. -/
theorem division_base_case (c : Config) (rnd : Nat → Nat) (fuel : Nat) (s : Grid × Nat)
    (uy lx dy rx : Int) (h : max (rx - lx + 1) (dy - uy + 1) < 3) :
    generateMazeRecursionDivision c rnd (fuel + 1) s uy lx dy rx = some s := by
  have h1 : rx - lx + 1 < 3 := lt_of_le_of_lt (le_max_left _ _) h
  have h2 : dy - uy + 1 < 3 := lt_of_le_of_lt (le_max_right _ _) h
  have h3 : ¬ (dy - uy + 1 - 2 > 0) := by omega
  have h4 : ¬ (rx - lx + 1 - 2 > 0) := by omega
  simp only [generateMazeRecursionDivision, h3, h4, and_false, if_false, ite_self]

theorem division_base_case_witness :
    generateMazeRecursionDivision cfg5 rndZero (0 + 1) (fun _ _ => GROUND, 0) 1 1 2 2 =
      some (fun _ _ => GROUND, 0) :=
  division_base_case cfg5 rndZero 0 (fun _ _ => GROUND, 0) 1 1 2 2 (by decide)

/-! ## The priority-queue solvers terminate (C16) -/

theorem exists_least {α : Type} (w : α → Int) :
    ∀ (q : List α), q ≠ [] → ∃ a ∈ q, ∀ b ∈ q, w a ≤ w b := by
  intro q
  induction q with
  | nil => intro h; exact absurd rfl h
  | cons a r ih =>
    intro _
    by_cases hr : r = []
    · subst hr
      exact ⟨a, List.mem_singleton.mpr rfl, fun b hb => by rw [List.mem_singleton.mp hb]⟩
    · obtain ⟨m, hm, hmin⟩ := ih hr
      by_cases h1 : w a ≤ w m
      · refine ⟨a, List.mem_cons_self _ _, fun b hb => ?_⟩
        rcases List.mem_cons.mp hb with rfl | hb
        · exact le_refl _
        · exact le_trans h1 (hmin b hb)
      · refine ⟨m, List.mem_cons_of_mem _ hm, fun b hb => ?_⟩
        rcases List.mem_cons.mp hb with rfl | hb
        · omega
        · exact hmin b hb

theorem minPositions_ne_nil {α : Type} (w : α → Int) (q : List α) (hq : q ≠ []) :
    minPositions w q ≠ [] := by
  obtain ⟨a, ha, hmin⟩ := exists_least w q hq
  obtain ⟨i, hi, hget⟩ := List.getElem_of_mem ha
  have hmem : i ∈ minPositions w q := by
    unfold minPositions
    rw [List.mem_filter]
    refine ⟨List.mem_range.mpr hi, ?_⟩
    rw [List.get?_eq_getElem?, List.getElem?_eq_getElem hi, hget]
    simpa using hmin
  exact List.ne_nil_of_mem hmem

/-- The position that `top()` reads is a position of the queue. -/
theorem topIndex_lt {α : Type} (w : α → Int) (q : List α) (hq : q ≠ []) (t : Nat) :
    topIndex w q t < q.length := by
  have hne := minPositions_ne_nil w q hq
  have hpos : 0 < (minPositions w q).length := List.length_pos.mpr hne
  have hlt : t % (minPositions w q).length < (minPositions w q).length := Nat.mod_lt _ hpos
  have hmem : topIndex w q t ∈ minPositions w q := by
    unfold topIndex
    rw [List.getD_eq_getElem _ _ hlt]
    exact List.getElem_mem _
  unfold minPositions at hmem
  exact List.mem_range.mp (List.mem_filter.mp hmem).1

theorem markExpanded_noNewGround (c : Config) (g : Grid) (y x : Int) :
    noNewGround g (markExpanded c g y x) := by
  unfold markExpanded
  split_ifs
  · exact noNewGround_set g y x BEGIN (by decide)
  · exact noNewGround_set g y x EXPLORED (by decide)

theorem markExpanded_self (c : Config) (g : Grid) (y x : Int) :
    markExpanded c g y x y x ≠ GROUND := by
  unfold markExpanded
  split_ifs <;> rw [set_self] <;> decide

theorem ucsDirs_queue (c : Config) (actions : MazeAction) (g : Grid) (temp : Node) :
    ∀ (ds : List (Int × Int)) (s r : List Node × Int),
      (∀ n ∈ s.1, is_in_maze c n.y n.x) → ucsDirs c actions g temp ds s = some r →
      r.1.length ≤ s.1.length + ds.length ∧ ∀ n ∈ r.1, is_in_maze c n.y n.x := by
  intro ds
  induction ds with
  | nil =>
    intro s r h hr
    simp only [ucsDirs, Option.some.injEq] at hr
    rw [← hr]; exact ⟨le_refl _, h⟩
  | cons d ds ih =>
    intro s r h hr
    simp only [ucsDirs] at hr
    split_ifs at hr with h1
    · split at hr
      · exact absurd hr (by simp)
      · next w hw =>
        have h2 := ih _ r (by
          intro n hn
          rcases List.mem_append.mp hn with h3 | h3
          · exact h n h3
          · rw [List.mem_singleton.mp h3]; exact h1.1) hr
        refine ⟨?_, h2.2⟩
        have h4 := h2.1
        simp only [List.length_append, List.length_cons, List.length_nil] at h4 ⊢
        omega
    · have h2 := ih s r h hr
      refine ⟨?_, h2.2⟩
      have h4 := h2.1
      simp only [List.length_cons] at h4 ⊢
      omega

theorem ucsDirs_some (c : Config) (actions : MazeAction)
    (hz : actions = MazeAction.S_UCS_INTERVAL →
      c.MAZE_HEIGHT.tdiv 10 ≠ 0 ∧ c.MAZE_WIDTH.tdiv 10 ≠ 0) (g : Grid) (temp : Node) :
    ∀ (ds : List (Int × Int)) (s : List Node × Int),
      ∃ r, ucsDirs c actions g temp ds s = some r := by
  intro ds
  induction ds with
  | nil => intro s; exact ⟨s, rfl⟩
  | cons d ds ih =>
    intro s
    simp only [ucsDirs]
    split_ifs with h1
    · obtain ⟨w, hw⟩ := ucsWeight_some c actions hz s.2 (temp.y + d.1) (temp.x + d.2)
      rw [hw]
      exact ih _
    · exact ih s

theorem greedyDirs_queue (c : Config) (g : Grid) (temp : Node) :
    ∀ (ds : List (Int × Int)) (q : List Node),
      (∀ n ∈ q, is_in_maze c n.y n.x) →
      (greedyDirs c g temp ds q).length ≤ q.length + ds.length ∧
      ∀ n ∈ greedyDirs c g temp ds q, is_in_maze c n.y n.x := by
  intro ds
  induction ds with
  | nil => intro q h; exact ⟨le_refl _, h⟩
  | cons d ds ih =>
    intro q h
    simp only [greedyDirs]
    split_ifs with h1
    · have h2 := ih (q ++ [⟨pow_two_norm c (temp.y + d.1) (temp.x + d.2), temp.y + d.1,
        temp.x + d.2⟩]) (by
          intro n hn
          rcases List.mem_append.mp hn with h3 | h3
          · exact h n h3
          · rw [List.mem_singleton.mp h3]; exact h1.1)
      refine ⟨?_, h2.2⟩
      have h4 := h2.1
      simp only [List.length_append, List.length_cons, List.length_nil] at h4 ⊢
      omega
    · have h2 := ih q h
      refine ⟨?_, h2.2⟩
      have h4 := h2.1
      simp only [List.length_cons] at h4 ⊢
      omega

theorem astarDirs_queue (c : Config) (actions : MazeAction) (g : Grid) (temp : AStarNode) :
    ∀ (ds : List (Int × Int)) (s : List AStarNode × Int × Int),
      (∀ n ∈ s.1, is_in_maze c n.y n.x) →
      (astarDirs c actions g temp ds s).1.length ≤ s.1.length + ds.length ∧
      ∀ n ∈ (astarDirs c actions g temp ds s).1, is_in_maze c n.y n.x := by
  intro ds
  induction ds with
  | nil => intro s h; exact ⟨le_refl _, h⟩
  | cons d ds ih =>
    intro s h
    simp only [astarDirs]
    split_ifs with h1
    · have h2 := ih (s.1 ++ [⟨(astarCostWeight c actions temp s.2.1 s.2.2 (temp.y + d.1)
          (temp.x + d.2)).1, (astarCostWeight c actions temp s.2.1 s.2.2 (temp.y + d.1)
          (temp.x + d.2)).2, temp.y + d.1, temp.x + d.2⟩],
        (astarCostWeight c actions temp s.2.1 s.2.2 (temp.y + d.1) (temp.x + d.2)).1,
        (astarCostWeight c actions temp s.2.1 s.2.2 (temp.y + d.1) (temp.x + d.2)).2) (by
          intro n hn
          rcases List.mem_append.mp hn with h3 | h3
          · exact h n h3
          · rw [List.mem_singleton.mp h3]; exact h1.1)
      refine ⟨?_, h2.2⟩
      have h4 := h2.1
      simp only [List.length_append, List.length_cons, List.length_nil] at h4 ⊢
      omega
    · have h2 := ih s h
      refine ⟨?_, h2.2⟩
      have h4 := h2.1
      simp only [List.length_cons] at h4 ⊢
      omega

/-- What one pop does to a queue whose nodes are cells of the array: the popped node is a cell
of the array, and the rest is one shorter and still holds cells of the array. -/
theorem pop_queue {α : Type} (w : α → Int) (P : α → Prop) (n : α) (ns : List α) (t : Nat)
    (h : ∀ a ∈ n :: ns, P a) :
    P ((n :: ns).getD (topIndex w (n :: ns) t) n) ∧
    ((n :: ns).eraseIdx (topIndex w (n :: ns) t)).length = ns.length ∧
    ∀ a ∈ (n :: ns).eraseIdx (topIndex w (n :: ns) t), P a := by
  have hlt := topIndex_lt w (n :: ns) (List.cons_ne_nil _ _) t
  refine ⟨?_, ?_, ?_⟩
  · rw [List.getD_eq_getElem _ _ hlt]
    exact h _ (List.getElem_mem _)
  · rw [List.length_eraseIdx, if_pos hlt]; rfl
  · intro a ha
    exact h a (List.mem_of_mem_eraseIdx ha)

theorem ucsLoop_returns (c : Config) (actions : MazeAction)
    (hz : actions = MazeAction.S_UCS_INTERVAL →
      c.MAZE_HEIGHT.tdiv 10 ≠ 0 ∧ c.MAZE_WIDTH.tdiv 10 ≠ 0) (tie : Nat → Nat) :
    ∀ (fuel : Nat) (g : Grid) (q : List Node) (w : Int) (pos : Nat),
      (∀ n ∈ q, is_in_maze c n.y n.x) → 5 * groundCount c g + q.length ≤ fuel →
      ∃ g1, ucsLoop c actions tie fuel g q w pos = some g1 := by
  intro fuel
  induction fuel with
  | zero =>
    intro g q w pos _ hm
    have : q = [] := List.length_eq_zero.mp (by omega)
    subst this
    exact ⟨g, by simp [ucsLoop]⟩
  | succ k ih =>
    intro g q w pos hq hm
    cases q with
    | nil => exact ⟨g, by simp [ucsLoop]⟩
    | cons n ns =>
      obtain ⟨h1, h2, h3⟩ := pop_queue Node.__Weight (fun a => is_in_maze c a.y a.x) n ns
        (tie pos) hq
      simp only [ucsLoop]
      split_ifs with h4 h5
      · exact ⟨_, rfl⟩
      · obtain ⟨r, hr⟩ := ucsDirs_some c actions hz
          (markExpanded c g ((n :: ns).getD (topIndex Node.__Weight (n :: ns) (tie pos)) n).y
            ((n :: ns).getD (topIndex Node.__Weight (n :: ns) (tie pos)) n).x)
          ((n :: ns).getD (topIndex Node.__Weight (n :: ns) (tie pos)) n) dir_vec
          ((n :: ns).eraseIdx (topIndex Node.__Weight (n :: ns) (tie pos)), w)
        have hd := ucsDirs_queue c actions _ _ dir_vec _ r h3 hr
        have hlt := groundCount_lt (markExpanded_noNewGround c g
          ((n :: ns).getD (topIndex Node.__Weight (n :: ns) (tie pos)) n).y
          ((n :: ns).getD (topIndex Node.__Weight (n :: ns) (tie pos)) n).x) _ _ h1 h5
          (markExpanded_self c g _ _)
        rw [hr]
        apply ih _ _ _ _ hd.2
        have h6 := hd.1
        have hdl : dir_vec.length = 4 := rfl
        dsimp only at h6
        rw [hdl, h2] at h6
        simp only [List.length_cons] at hm
        omega
      · apply ih _ _ _ _ h3
        simp only [List.length_cons] at hm
        omega

theorem greedyLoop_returns (c : Config) (tie : Nat → Nat) :
    ∀ (fuel : Nat) (g : Grid) (q : List Node) (pos : Nat),
      (∀ n ∈ q, is_in_maze c n.y n.x) → 5 * groundCount c g + q.length ≤ fuel →
      ∃ g1, greedyLoop c tie fuel g q pos = some g1 := by
  intro fuel
  induction fuel with
  | zero =>
    intro g q pos _ hm
    have : q = [] := List.length_eq_zero.mp (by omega)
    subst this
    exact ⟨g, by simp [greedyLoop]⟩
  | succ k ih =>
    intro g q pos hq hm
    cases q with
    | nil => exact ⟨g, by simp [greedyLoop]⟩
    | cons n ns =>
      obtain ⟨h1, h2, h3⟩ := pop_queue Node.__Weight (fun a => is_in_maze c a.y a.x) n ns
        (tie pos) hq
      simp only [greedyLoop]
      split_ifs with h4 h5
      · exact ⟨_, rfl⟩
      · have hd := greedyDirs_queue c
          (markExpanded c g ((n :: ns).getD (topIndex Node.__Weight (n :: ns) (tie pos)) n).y
            ((n :: ns).getD (topIndex Node.__Weight (n :: ns) (tie pos)) n).x)
          ((n :: ns).getD (topIndex Node.__Weight (n :: ns) (tie pos)) n) dir_vec
          ((n :: ns).eraseIdx (topIndex Node.__Weight (n :: ns) (tie pos))) h3
        have hlt := groundCount_lt (markExpanded_noNewGround c g
          ((n :: ns).getD (topIndex Node.__Weight (n :: ns) (tie pos)) n).y
          ((n :: ns).getD (topIndex Node.__Weight (n :: ns) (tie pos)) n).x) _ _ h1 h5
          (markExpanded_self c g _ _)
        apply ih _ _ _ hd.2
        have h6 := hd.1
        have hdl : dir_vec.length = 4 := rfl
        rw [hdl, h2] at h6
        simp only [List.length_cons] at hm
        omega
      · apply ih _ _ _ h3
        simp only [List.length_cons] at hm
        omega

theorem astarLoop_returns (c : Config) (actions : MazeAction) (tie : Nat → Nat) :
    ∀ (fuel : Nat) (g : Grid) (q : List AStarNode) (cw : Int × Int) (pos : Nat),
      (∀ n ∈ q, is_in_maze c n.y n.x) → 5 * groundCount c g + q.length ≤ fuel →
      ∃ g1, astarLoop c actions tie fuel g q cw pos = some g1 := by
  intro fuel
  induction fuel with
  | zero =>
    intro g q cw pos _ hm
    have : q = [] := List.length_eq_zero.mp (by omega)
    subst this
    exact ⟨g, by simp [astarLoop]⟩
  | succ k ih =>
    intro g q cw pos hq hm
    cases q with
    | nil => exact ⟨g, by simp [astarLoop]⟩
    | cons n ns =>
      obtain ⟨h1, h2, h3⟩ := pop_queue AStarNode.__Weight (fun a => is_in_maze c a.y a.x) n ns
        (tie pos) hq
      simp only [astarLoop]
      split_ifs with h4 h5
      · exact ⟨_, rfl⟩
      · have hd := astarDirs_queue c actions
          (markExpanded c g ((n :: ns).getD (topIndex AStarNode.__Weight (n :: ns) (tie pos)) n).y
            ((n :: ns).getD (topIndex AStarNode.__Weight (n :: ns) (tie pos)) n).x)
          ((n :: ns).getD (topIndex AStarNode.__Weight (n :: ns) (tie pos)) n) dir_vec
          ((n :: ns).eraseIdx (topIndex AStarNode.__Weight (n :: ns) (tie pos)), cw) h3
        have hlt := groundCount_lt (markExpanded_noNewGround c g
          ((n :: ns).getD (topIndex AStarNode.__Weight (n :: ns) (tie pos)) n).y
          ((n :: ns).getD (topIndex AStarNode.__Weight (n :: ns) (tie pos)) n).x) _ _ h1 h5
          (markExpanded_self c g _ _)
        apply ih _ _ _ _ hd.2
        have h6 := hd.1
        have hdl : dir_vec.length = 4 := rfl
        dsimp only at h6
        rw [hdl, h2] at h6
        simp only [List.length_cons] at hm
        omega
      · apply ih _ _ _ _ h3
        simp only [List.length_cons] at hm
        omega

theorem topIndex_single {α : Type} (w : α → Int) (a : α) (t : Nat) : topIndex w [a] t = 0 := by
  have h := topIndex_lt w [a] (List.cons_ne_nil _ _) t
  simp only [List.length_cons, List.length_nil] at h
  omega

/-- The first round of `solveMazeUCS`, whatever the first node is. -/
theorem ucsLoop_first (c : Config) (actions : MazeAction)
    (hz : actions = MazeAction.S_UCS_INTERVAL →
      c.MAZE_HEIGHT.tdiv 10 ≠ 0 ∧ c.MAZE_WIDTH.tdiv 10 ≠ 0) (tie : Nat → Nat) (fuel : Nat)
    (g : Grid) (n0 : Node) (w : Int) (pos : Nat) (hfuel : 5 * groundCount c g + 5 ≤ fuel) :
    ∃ g1, ucsLoop c actions tie fuel g [n0] w pos = some g1 := by
  obtain ⟨k, rfl⟩ : ∃ k, fuel = k + 1 := ⟨fuel - 1, by omega⟩
  simp only [ucsLoop, topIndex_single, List.getD_cons_zero, List.eraseIdx_cons_zero]
  split_ifs with h1 h2
  · exact ⟨_, rfl⟩
  · obtain ⟨r, hr⟩ := ucsDirs_some c actions hz (markExpanded c g n0.y n0.x) n0 dir_vec ([], w)
    have hd := ucsDirs_queue c actions (markExpanded c g n0.y n0.x) n0 dir_vec ([], w) r
      (fun n hn => absurd hn (List.not_mem_nil _)) hr
    have hle := groundCount_le (c := c) (markExpanded_noNewGround c g n0.y n0.x)
    rw [hr]
    apply ucsLoop_returns c actions hz tie _ _ _ _ _ hd.2
    have h6 := hd.1
    have hdl : dir_vec.length = 4 := rfl
    rw [hdl] at h6
    simp only [List.length_nil] at h6
    omega
  · exact ⟨g, by simp [ucsLoop]⟩

/-- The first round of `solveMazeGreedy`, whatever the first node is. -/
theorem greedyLoop_first (c : Config) (tie : Nat → Nat) (fuel : Nat)
    (g : Grid) (n0 : Node) (pos : Nat) (hfuel : 5 * groundCount c g + 5 ≤ fuel) :
    ∃ g1, greedyLoop c tie fuel g [n0] pos = some g1 := by
  obtain ⟨k, rfl⟩ : ∃ k, fuel = k + 1 := ⟨fuel - 1, by omega⟩
  simp only [greedyLoop, topIndex_single, List.getD_cons_zero, List.eraseIdx_cons_zero]
  split_ifs with h1 h2
  · exact ⟨_, rfl⟩
  · have hd := greedyDirs_queue c (markExpanded c g n0.y n0.x) n0 dir_vec []
      (fun n hn => absurd hn (List.not_mem_nil _))
    have hle := groundCount_le (c := c) (markExpanded_noNewGround c g n0.y n0.x)
    apply greedyLoop_returns c tie _ _ _ _ hd.2
    have h6 := hd.1
    have hdl : dir_vec.length = 4 := rfl
    rw [hdl] at h6
    simp only [List.length_nil] at h6
    omega
  · exact ⟨g, by simp [greedyLoop]⟩

/-- The first round of `solveMazeAStar`, whatever the first node is. -/
theorem astarLoop_first (c : Config) (actions : MazeAction) (tie : Nat → Nat) (fuel : Nat)
    (g : Grid) (n0 : AStarNode) (cw : Int × Int) (pos : Nat)
    (hfuel : 5 * groundCount c g + 5 ≤ fuel) :
    ∃ g1, astarLoop c actions tie fuel g [n0] cw pos = some g1 := by
  obtain ⟨k, rfl⟩ : ∃ k, fuel = k + 1 := ⟨fuel - 1, by omega⟩
  simp only [astarLoop, topIndex_single, List.getD_cons_zero, List.eraseIdx_cons_zero]
  split_ifs with h1 h2
  · exact ⟨_, rfl⟩
  · have hd := astarDirs_queue c actions (markExpanded c g n0.y n0.x) n0 dir_vec ([], cw)
      (fun n hn => absurd hn (List.not_mem_nil _))
    have hle := groundCount_le (c := c) (markExpanded_noNewGround c g n0.y n0.x)
    apply astarLoop_returns c actions tie _ _ _ _ _ hd.2
    have h6 := hd.1
    have hdl : dir_vec.length = 4 := rfl
    rw [hdl] at h6
    simp only [List.length_nil] at h6
    omega
  · exact ⟨g, by simp [astarLoop]⟩

theorem ucsStart_some (c : Config) (actions : MazeAction)
    (hz : actions = MazeAction.S_UCS_INTERVAL →
      c.MAZE_HEIGHT.tdiv 10 ≠ 0 ∧ c.MAZE_WIDTH.tdiv 10 ≠ 0) :
    ∃ w, ucsStart c actions = some w := by
  unfold ucsStart
  split
  · exact ⟨_, rfl⟩
  · exact ⟨_, rfl⟩
  · have h1 := hz rfl
    dsimp only
    rw [if_neg (not_or.mpr h1)]
    split_ifs <;> exact ⟨_, rfl⟩
  · exact ⟨_, rfl⟩

theorem tdiv_ten_ne_zero {a : Int} (h : 10 ≤ a) : a.tdiv 10 ≠ 0 := by
  rw [Int.tdiv_eq_ediv (by omega) (by omega)]
  omega

/-- C16 (as stated, fails): on the 5 x 5 array, Begin (1, 1) and End (3, 3) being cells of the
array, under the selector `S_UCS_INTERVAL` the opening `switch` of `solveMazeUCS` divides by
`MAZE_HEIGHT / 10 = 0`: the call yields no grid, whatever the fuel and the order in which the
queue yields equal priorities. -/
theorem ucs_interval_small_array :
    is_in_maze cfg5 cfg5.BEGIN_Y cfg5.BEGIN_X ∧ is_in_maze cfg5 cfg5.END_Y cfg5.END_X ∧
    cfg5.MAZE_HEIGHT.tdiv 10 = 0 ∧
    ∀ (tie : Nat → Nat) (fuel : Nat),
      solveMazeUCS cfg5 MazeAction.S_UCS_INTERVAL tie fuel gridL = none :=
  ⟨by decide, by decide, by decide, fun _ _ => rfl⟩

/-- C16, amended: on every array and every grid, whichever node of least priority the queue
yields first, `solveMazeGreedy` and `solveMazeAStar`, for every selector and with Begin in the
array, and `solveMazeUCS`, for every selector, if height and width are at least 10 under
`S_UCS_INTERVAL` and if the cell `(BEGIN_Y, BEGIN_Y)` that its first node names is in the array,
return as soon as the fuel, which counts the nodes popped, reaches five times the number of
Ground cells plus five: every pop shortens the queue by one node, and a pop that expands a
cell takes one Ground cell away for at most four nodes pushed. (The premises on Begin and on
`(BEGIN_Y, BEGIN_Y)` keep the statement to the runs in which the source reads cells of the
array only; the loops of the model end without them.) -/
theorem priority_solvers_terminate (c : Config) (g : Grid) (actions : MazeAction)
    (tie : Nat → Nat) (fuel : Nat) (hfuel : 5 * groundCount c g + 5 ≤ fuel) :
    ((actions = MazeAction.S_UCS_INTERVAL → 10 ≤ c.MAZE_HEIGHT ∧ 10 ≤ c.MAZE_WIDTH) →
      is_in_maze c c.BEGIN_Y c.BEGIN_Y → ∃ g1, solveMazeUCS c actions tie fuel g = some g1) ∧
    (is_in_maze c c.BEGIN_Y c.BEGIN_X → ∃ g1, solveMazeGreedy c tie fuel g = some g1) ∧
    (is_in_maze c c.BEGIN_Y c.BEGIN_X →
      ∃ g1, solveMazeAStar c actions tie fuel g = some g1) := by
  refine ⟨?_, fun _ => greedyLoop_first c tie fuel g _ 0 hfuel,
    fun _ => astarLoop_first c actions tie fuel g _ _ 0 hfuel⟩
  intro hdim _
  have hz : actions = MazeAction.S_UCS_INTERVAL →
      c.MAZE_HEIGHT.tdiv 10 ≠ 0 ∧ c.MAZE_WIDTH.tdiv 10 ≠ 0 :=
    fun ha => ⟨tdiv_ten_ne_zero (hdim ha).1, tdiv_ten_ne_zero (hdim ha).2⟩
  obtain ⟨w, hw⟩ := ucsStart_some c actions hz
  unfold solveMazeUCS
  rw [hw]
  exact ucsLoop_first c actions hz tie fuel g _ _ 0 hfuel

theorem priority_solvers_terminate_witness :
    (∃ g1, solveMazeUCS cfg10 MazeAction.S_UCS_INTERVAL rndZero 15 grid34 = some g1) ∧
    (∃ g1, solveMazeGreedy cfg10 rndZero 15 grid34 = some g1) ∧
    (∃ g1, solveMazeAStar cfg10 MazeAction.S_UCS_INTERVAL rndZero 15 grid34 = some g1) :=
  ⟨(priority_solvers_terminate cfg10 grid34 MazeAction.S_UCS_INTERVAL rndZero 15
      (by decide)).1 (fun _ => ⟨by decide, by decide⟩) (by decide),
   (priority_solvers_terminate cfg10 grid34 MazeAction.S_UCS_INTERVAL rndZero 15
      (by decide)).2.1 (by decide),
   (priority_solvers_terminate cfg10 grid34 MazeAction.S_UCS_INTERVAL rndZero 15
      (by decide)).2.2 (by decide)⟩

/-! ## The reset pattern (C17) -/

theorem resetValue_eq_pattern (c : Config) (y x : Int) (h : is_in_maze c y x) :
    resetValue c y x = resetPattern c y x := by
  obtain ⟨h1, h2, h3, h4⟩ := h
  unfold resetValue resetPattern
  by_cases hb : y = 0 ∨ y = c.MAZE_HEIGHT - 1 ∨ x = 0 ∨ x = c.MAZE_WIDTH - 1
  · rw [if_pos hb, if_neg]
    omega
  · rw [if_neg hb]
    by_cases ho : x % 2 = 1 ∧ y % 2 = 1
    · rw [if_pos ho, if_pos]
      omega
    · rw [if_neg ho, if_neg]
      omega

/-- C17: for every height and width, `resetMaze` leaves in each cell of the array the reset
pattern: the cell `(y, x)` is Ground if and only if `0 < y < HEIGHT - 1`, `0 < x < WIDTH - 1`
and `y` and `x` are both odd, and it is Wall otherwise; what is not a cell of the array is not
written, and the snapshot handed to the controller is the reset grid. -/
theorem resetMaze_pattern (c : Config) (m : MazeModel) (y x : Int) :
    (resetMaze c m).maze y x =
      (if is_in_maze c y x then resetPattern c y x else m.maze y x) ∧
    (is_in_maze c y x → ((resetMaze c m).maze y x = GROUND ↔
      (0 < y ∧ y < c.MAZE_HEIGHT - 1 ∧ 0 < x ∧ x < c.MAZE_WIDTH - 1 ∧ y % 2 = 1 ∧ x % 2 = 1))) ∧
    (is_in_maze c y x → ¬ (0 < y ∧ y < c.MAZE_HEIGHT - 1 ∧ 0 < x ∧ x < c.MAZE_WIDTH - 1 ∧
      y % 2 = 1 ∧ x % 2 = 1) → (resetMaze c m).maze y x = WALL) ∧
    (resetMaze c m).frame_maze = (resetMaze c m).maze := by
  have h0 : (resetMaze c m).maze y x =
      (if is_in_maze c y x then resetPattern c y x else m.maze y x) := by
    show resetGrid c m.maze y x = _
    rw [resetGrid_apply]
    by_cases h : is_in_maze c y x
    · rw [if_pos h, if_pos h, resetValue_eq_pattern c y x h]
    · rw [if_neg h, if_neg h]
  refine ⟨h0, ?_, ?_, rfl⟩
  · intro h
    rw [h0, if_pos h]
    unfold resetPattern
    constructor
    · intro h1
      by_contra h2
      rw [if_neg h2] at h1
      exact absurd h1 (by decide)
    · intro h1
      rw [if_pos h1]
  · intro h h1
    rw [h0, if_pos h]
    unfold resetPattern
    rw [if_neg h1]

theorem resetMaze_pattern_witness :
    (resetMaze cfg5 MazeModel.init).maze 1 3 = GROUND ∧
    (resetMaze cfg5 MazeModel.init).maze 2 3 = WALL ∧
    (resetMaze cfg5 MazeModel.init).maze 0 1 = WALL :=
  ⟨((resetMaze_pattern cfg5 MazeModel.init 1 3).2.1 (by decide)).mpr (by decide),
   (resetMaze_pattern cfg5 MazeModel.init 2 3).2.2.1 (by decide) (by decide),
   (resetMaze_pattern cfg5 MazeModel.init 0 1).2.2.1 (by decide) (by decide)⟩

/-! ## The test `inMaze` (C18) -/

/-- C18: for all integers `y`, `x`, `delta_y`, `delta_x`, `inMaze` holds if and only if
`0 < y + delta_y < HEIGHT - 1` and `0 < x + delta_x < WIDTH - 1`; it fails when the offset
coordinate is a border cell and when it is not a cell of the array. -/
theorem inMaze_iff (c : Config) (y x delta_y delta_x : Int) :
    (inMaze c y x delta_y delta_x ↔
      (0 < y + delta_y ∧ y + delta_y < c.MAZE_HEIGHT - 1) ∧
      (0 < x + delta_x ∧ x + delta_x < c.MAZE_WIDTH - 1)) ∧
    (onBorder c (y + delta_y) (x + delta_x) → ¬ inMaze c y x delta_y delta_x) ∧
    (¬ is_in_maze c (y + delta_y) (x + delta_x) → ¬ inMaze c y x delta_y delta_x) := by
  unfold inMaze onBorder is_in_maze
  refine ⟨?_, ?_, ?_⟩
  · constructor
    · rintro ⟨h1, h2, h3, h4⟩; exact ⟨⟨h3, h1⟩, ⟨h4, h2⟩⟩
    · rintro ⟨⟨h3, h1⟩, ⟨h4, h2⟩⟩; exact ⟨h1, h2, h3, h4⟩
  · rintro ⟨_, h⟩ ⟨h1, h2, h3, h4⟩; omega
  · rintro h ⟨h1, h2, h3, h4⟩
    apply h
    omega

theorem inMaze_iff_witness :
    inMaze cfg5 1 1 2 0 ∧ ¬ inMaze cfg5 1 1 (-1) 0 ∧ ¬ inMaze cfg5 3 3 2 0 :=
  ⟨(inMaze_iff cfg5 1 1 2 0).1.mpr (by decide),
   (inMaze_iff cfg5 1 1 (-1) 0).2.1 ⟨by decide, Or.inl (by decide)⟩,
   (inMaze_iff cfg5 3 3 2 0).2.2 (by decide)⟩

/-! ## Depth-first search returns true exactly when a Ground path exists (C19) -/

theorem groundReach_mono {c : Config} {g g1 : Grid} (h : noNewGround g g1) {p q : Int × Int}
    (hr : groundReach c g1 p q) : groundReach c g p q :=
  Relation.ReflTransGen.mono (fun _ _ hs => ⟨hs.1, hs.2.1, h _ _ hs.2.2⟩) hr

theorem dfsDirs_sound (c : Config) (self : Grid → Int → Int → Option (Bool × Grid)) (y x : Int)
    (hmono : ∀ g ty tx r, self g ty tx = some r → noNewGround g r.2 ∧ r.2 ty tx ≠ GROUND)
    (hself : ∀ g ty tx r, self g ty tx = some r → r.1 = true →
      groundReach c g (ty, tx) (c.END_Y, c.END_X)) :
    ∀ (ds : List (Int × Int)), (∀ d ∈ ds, d ∈ dir_vec) → ∀ (g : Grid) (r : Bool × Grid),
      dfsDirs c self y x ds g = some r → r.1 = true →
      groundReach c g (y, x) (c.END_Y, c.END_X) := by
  intro ds
  induction ds with
  | nil =>
    intro _ g r h hb
    simp only [dfsDirs, Option.some.injEq] at h
    rw [← h] at hb
    exact absurd hb (by simp)
  | cons d ds ih =>
    intro hds g r h hb
    have hds' : ∀ d' ∈ ds, d' ∈ dir_vec := fun d' hd' => hds d' (List.mem_cons_of_mem _ hd')
    simp only [dfsDirs] at h
    split_ifs at h with h1
    · split at h
      · exact absurd h (by simp)
      · next g1 h2 =>
        exact Relation.ReflTransGen.head
          ⟨⟨d, hds d (List.mem_cons_self _ _), rfl, rfl⟩, h1.1, h1.2⟩ (hself _ _ _ _ h2 rfl)
      · next g1 h2 =>
        exact groundReach_mono (hmono _ _ _ _ h2).1 (ih hds' _ _ h hb)
    · exact ih hds' _ _ h hb

/-- Soundness of the depth-first search: a call that returns true has a path from its start to
End on which every cell after the start is Ground in the grid of the call. -/
theorem solveMazeDFS_sound (c : Config) :
    ∀ (fuel : Nat) (g : Grid) (y x : Int) (r : Bool × Grid),
      solveMazeDFS c fuel g y x = some r → r.1 = true →
      groundReach c g (y, x) (c.END_Y, c.END_X) := by
  intro fuel
  induction fuel with
  | zero => intro g y x r h; simp [solveMazeDFS] at h
  | succ n ih =>
    intro g y x r h hb
    simp only [solveMazeDFS] at h
    split_ifs at h with h1
    · rw [h1.1, h1.2]
      exact Relation.ReflTransGen.refl
    · exact groundReach_mono (dfsEntry_noNewGround g y x)
        (dfsDirs_sound c _ y x (solveMazeDFS_mono c n) ih dir_vec (fun _ hd => hd) _ r h hb)

/-- C19: on every grid in which cell (1, 0) is not Ground and for every start `(y, x)`:
`solveMazeDFS(y, x)` returns as soon as the fuel exceeds the number of Ground cells; a call
that returns gives true if and only if End is reached from `(y, x)` by orthogonal steps, every
cell after the start being a Ground cell of the initial grid; and when it gives true the End
cell is marked End. -/
theorem dfs_true_iff_ground_path (c : Config) (g : Grid) (y x : Int) (h10 : g 1 0 ≠ GROUND) :
    (∀ fuel, groundCount c g < fuel → ∃ r, solveMazeDFS c fuel g y x = some r) ∧
    (∀ fuel r, solveMazeDFS c fuel g y x = some r →
      (r.1 = true ↔ groundReach c g (y, x) (c.END_Y, c.END_X)) ∧
      (r.1 = true → r.2 c.END_Y c.END_X = END)) := by
  refine ⟨?_, ?_⟩
  · intro fuel hfuel
    exact solveMazeDFS_returns c fuel g y x
      (lt_of_le_of_lt (groundCount_le (dfsEntry_noNewGround g _ _)) hfuel)
  · intro fuel r h
    refine ⟨⟨solveMazeDFS_sound c fuel g y x r h, fun hr =>
      (solveMazeDFS_complete c fuel g y x r h10 h hr).1⟩, ?_⟩
    exact (solveMazeDFS_post c fuel g y x r h10 h).1

theorem dfs_true_iff_ground_path_witness :
    (∃ r, solveMazeDFS cfg34 2 open34 1 1 = some r) ∧
    (((solveMazeDFS cfg34 2 open34 1 1).get (by decide)).1 = true ↔
      groundReach cfg34 open34 (1, 1) (cfg34.END_Y, cfg34.END_X)) ∧
    (((solveMazeDFS cfg34 2 open34 1 1).get (by decide)).1 = true →
      ((solveMazeDFS cfg34 2 open34 1 1).get (by decide)).2 cfg34.END_Y cfg34.END_X = END) :=
  ⟨(dfs_true_iff_ground_path cfg34 open34 1 1 (by decide)).1 2 (by decide),
   (dfs_true_iff_ground_path cfg34 open34 1 1 (by decide)).2 2 _ (Option.some_get _).symm⟩

/-! ## The candidate loop of Prim carving terminates (C20) -/

theorem resetGrid_ground_le (c : Config) (g : Grid) :
    groundCount c (resetGrid c g) ≤ oddCells c := by
  apply Finset.card_le_card
  intro p hp
  simp only [Finset.mem_filter, Finset.mem_product, Finset.mem_Ico] at hp ⊢
  refine ⟨hp.1, ?_⟩
  have hin : is_in_maze c p.1 p.2 := ⟨hp.1.1.2, hp.1.2.2, hp.1.1.1, hp.1.2.1⟩
  have h1 := hp.2
  rw [resetGrid_apply, if_pos hin] at h1
  unfold resetValue at h1
  split_ifs at h1 with h2 h3
  exact ⟨h3.2, h3.1⟩

theorem wallCandidates_append (c : Config) (g : Grid) (ty tx : Int) :
    ∀ (order : List Nat) (cl : List (Int × Int)),
      ∃ added, wallCandidates c g ty tx order cl = cl ++ added ∧
        added.length ≤ order.length := by
  intro order
  induction order with
  | nil => intro cl; exact ⟨[], by simp [wallCandidates], le_refl _⟩
  | cons i is ih =>
    intro cl
    unfold wallCandidates
    rw [List.foldl_cons]
    dsimp only
    split_ifs with h1
    · obtain ⟨added, h2, h3⟩ := ih (cl ++ [(ty + (dir_vec.getD i (0, 0)).1,
        tx + (dir_vec.getD i (0, 0)).2)])
      unfold wallCandidates at h2
      refine ⟨(ty + (dir_vec.getD i (0, 0)).1, tx + (dir_vec.getD i (0, 0)).2) :: added, ?_, ?_⟩
      · rw [h2, List.append_assoc]; rfl
      · simp only [List.length_cons]; omega
    · obtain ⟨added, h2, h3⟩ := ih cl
      unfold wallCandidates at h2
      exact ⟨added, h2, by simp only [List.length_cons]; omega⟩

theorem primInit_measure (c : Config) (hc : OddDims c) (rnd : Nat → Nat) (m : MazeModel) :
    primMeasure c (primInit c rnd m) ≤ 4 * oddCells c := by
  have hy := seed_interior c.MAZE_HEIGHT hc.1 (rnd 0)
  have hx := seed_interior c.MAZE_WIDTH hc.2.1 (rnd (0 + 1))
  have hS : isRoom c (2 * uniform 0 ((c.MAZE_HEIGHT - 3).tdiv 2) (rnd 0) + 1)
      (2 * uniform 0 ((c.MAZE_WIDTH - 3).tdiv 2) (rnd (0 + 1)) + 1) := by
    unfold isRoom inMaze; omega
  have hperm : (primInit c rnd m).direction_order.Perm [0, 1, 2, 3] :=
    (primInit_inv c hc rnd m).order
  have hcl : (primInit c rnd m).candidate_list =
      seedCandidates c (2 * uniform 0 ((c.MAZE_HEIGHT - 3).tdiv 2) (rnd 0) + 1)
        (2 * uniform 0 ((c.MAZE_WIDTH - 3).tdiv 2) (rnd (0 + 1)) + 1)
        (primInit c rnd m).direction_order [] := rfl
  have hmz : (primInit c rnd m).m.maze =
      (resetGrid c m.maze).set (2 * uniform 0 ((c.MAZE_HEIGHT - 3).tdiv 2) (rnd 0) + 1)
        (2 * uniform 0 ((c.MAZE_WIDTH - 3).tdiv 2) (rnd (0 + 1)) + 1) EXPLORED := rfl
  unfold primMeasure
  have h1 : groundCount c (primInit c rnd m).m.maze < groundCount c (resetGrid c m.maze) := by
    apply groundCount_lt _ _ _ (inMaze_in hS.1)
    · rw [resetGrid_apply, if_pos (inMaze_in hS.1)]; exact resetValue_room hS
    · rw [hmz, set_self]; decide
    · rw [hmz]; exact noNewGround_set _ _ _ EXPLORED (by decide)
  have h2 := resetGrid_ground_le c m.maze
  have h3 := seedCandidates_length c (2 * uniform 0 ((c.MAZE_HEIGHT - 3).tdiv 2) (rnd 0) + 1)
    (2 * uniform 0 ((c.MAZE_WIDTH - 3).tdiv 2) (rnd (0 + 1)) + 1)
    (primInit c rnd m).direction_order []
  rw [← hcl, hperm.length_eq] at h3
  simp only [List.length_cons, List.length_nil] at h3
  omega

theorem primRounds_inv (c : Config) (hc : OddDims c) (rnd : Nat → Nat) :
    ∀ (k : Nat) (s0 s : PrimState), PrimInv c s0 → PrimCount c s0 →
      primRounds c rnd k s0 = some s →
      PrimInv c s ∧ PrimCount c s ∧ primMeasure c s + k ≤ primMeasure c s0 := by
  intro k
  induction k with
  | zero =>
    intro s0 s h hk hr
    simp only [primRounds, Option.some.injEq] at hr
    rw [← hr]; exact ⟨h, hk, le_refl _⟩
  | succ k ih =>
    intro s0 s h hk hr
    simp only [primRounds] at hr
    split_ifs at hr with h1
    obtain ⟨hk1, hlt⟩ := primStep_count c hc rnd s0 h hk h1
    obtain ⟨h2, h3, h4⟩ := ih _ _ (primStep_inv c hc rnd s0 h h1) hk1 hr
    exact ⟨h2, h3, by omega⟩

/-- A round of the candidate loop takes one candidate off the list and appends at most four. -/
theorem primStep_removes_one (c : Config) (hc : OddDims c) (rnd : Nat → Nat) (s : PrimState)
    (h : PrimInv c s) (hk : PrimCount c s) (hne : s.candidate_list ≠ []) :
    ∃ (i : Nat) (added : List (Int × Int)), i < s.candidate_list.length ∧ added.length ≤ 4 ∧
      (primStep c rnd s).candidate_list = s.candidate_list.eraseIdx i ++ added := by
  obtain ⟨i, W, hi, hW, _, hcase⟩ := primStep_cases c hc rnd s h hne
  have hWmem : W ∈ s.candidate_list := by
    rw [← hW, List.getD_eq_getElem _ _ hi]; exact List.getElem_mem _
  rcases hcase with ⟨h1, _⟩ | ⟨_, _, _, hcl⟩ | ⟨_, A, B, _, _, _, _, hcl, ho⟩
  · exact absurd (hk.walls W hWmem) h1
  · exact ⟨i, [], hi, by simp, by rw [hcl, List.append_nil]⟩
  · obtain ⟨added, h2, h3⟩ := wallCandidates_append c (primStep c rnd s).m.maze B.1 B.2
      (primStep c rnd s).direction_order (s.candidate_list.eraseIdx i)
    refine ⟨i, added, hi, ?_, by rw [hcl]; exact h2⟩
    rw [ho.length_eq] at h3
    simpa using h3

/-- C20: on an array of odd height and odd width, both at least 3, for every random stream, the
candidate loop of `generateMazePrim` ends within four rounds per cell of odd row and odd
column. In the state after `k` rounds every candidate of the list is Wall; if the list is not
empty the next round takes one candidate off the list and appends at most four; and the `k`
candidates taken off plus those still in the list, which is the number of candidates added so
far, are at most four per cell of odd row and odd column. -/
theorem prim_candidate_loop_terminates (c : Config) (hc : OddDims c) (rnd : Nat → Nat)
    (m : MazeModel) :
    (∀ fuel, 4 * oddCells c ≤ fuel → ∃ s1, primLoop c rnd fuel (primInit c rnd m) = some s1) ∧
    (∀ k s, primRounds c rnd k (primInit c rnd m) = some s →
      (∀ p ∈ s.candidate_list, s.m.maze p.1 p.2 = WALL) ∧
      k + s.candidate_list.length ≤ 4 * oddCells c ∧
      (s.candidate_list ≠ [] → ∃ (i : Nat) (added : List (Int × Int)),
        i < s.candidate_list.length ∧ added.length ≤ 4 ∧
        (primStep c rnd s).candidate_list = s.candidate_list.eraseIdx i ++ added)) := by
  have hinv := primInit_inv c hc rnd m
  have hcnt := (primInit_count c hc rnd m).1
  have hms := primInit_measure c hc rnd m
  refine ⟨?_, ?_⟩
  · intro fuel hfuel
    exact primLoop_returns c hc rnd fuel _ hinv hcnt (le_trans hms hfuel)
  · intro k s hr
    obtain ⟨h1, h2, h3⟩ := primRounds_inv c hc rnd k _ s hinv hcnt hr
    refine ⟨h2.walls, ?_, fun hne => primStep_removes_one c hc rnd s h1 h2 hne⟩
    unfold primMeasure at h3 hms
    omega

theorem prim_candidate_loop_terminates_witness :
    (∃ s1, primLoop cfg5 rndZero 16 (primInit cfg5 rndZero MazeModel.init) = some s1) ∧
    (∀ p ∈ ((primRounds cfg5 rndZero 2 (primInit cfg5 rndZero MazeModel.init)).get
        (by decide)).candidate_list,
      ((primRounds cfg5 rndZero 2 (primInit cfg5 rndZero MazeModel.init)).get
        (by decide)).m.maze p.1 p.2 = WALL) ∧
    2 + ((primRounds cfg5 rndZero 2 (primInit cfg5 rndZero MazeModel.init)).get
        (by decide)).candidate_list.length ≤ 4 * oddCells cfg5 :=
  ⟨(prim_candidate_loop_terminates cfg5 ⟨by decide, by decide, by decide, by decide⟩ rndZero
      MazeModel.init).1 16 (by decide),
   ((prim_candidate_loop_terminates cfg5 ⟨by decide, by decide, by decide, by decide⟩ rndZero
      MazeModel.init).2 2 _ (Option.some_get _).symm).1,
   ((prim_candidate_loop_terminates cfg5 ⟨by decide, by decide, by decide, by decide⟩ rndZero
      MazeModel.init).2 2 _ (Option.some_get _).symm).2.1⟩

/-! ## The first node of uniform-cost search (C21) -/

theorem gridB_reach : groundReach cfg13 gridB (1, 3) (3, 3) :=
  Relation.ReflTransGen.tail
    (Relation.ReflTransGen.single
      (⟨⟨(1, 0), by decide, by decide, by decide⟩, by decide, by decide⟩ :
        groundStep cfg13 gridB (1, 3) (2, 3)))
    ⟨⟨(1, 0), by decide, by decide, by decide⟩, by decide, by decide⟩

theorem ucs_gridB (tie : Nat → Nat) (k : Nat) (actions : MazeAction) (w : Int) :
    ucsLoop cfg13 actions tie (k + 1) gridB [⟨w, 1, 1⟩] w 0 =
      some (gridB.set 1 1 EXPLORED) := by
  have h1 : ¬ ((1 : Int) = cfg13.END_Y ∧ (1 : Int) = cfg13.END_X) := by decide
  have h2 : gridB 1 1 = GROUND := by decide
  have h3 : markExpanded cfg13 gridB 1 1 = gridB.set 1 1 EXPLORED := by
    unfold markExpanded
    rw [if_neg (by decide)]
  have h4 : ∀ s : List Node × Int,
      ucsDirs cfg13 actions (gridB.set 1 1 EXPLORED) ⟨w, 1, 1⟩ dir_vec s = some s := by
    intro s
    have e1 : ¬ (is_in_maze cfg13 (1 + -1) 1 ∧ (gridB.set 1 1 EXPLORED) (1 + -1) 1 = GROUND) := by
      decide
    have e2 : ¬ (is_in_maze cfg13 (1 + 1) 1 ∧ (gridB.set 1 1 EXPLORED) (1 + 1) 1 = GROUND) := by
      decide
    have e3 : ¬ (is_in_maze cfg13 1 (1 + -1) ∧ (gridB.set 1 1 EXPLORED) 1 (1 + -1) = GROUND) := by
      decide
    have e4 : ¬ (is_in_maze cfg13 1 (1 + 1) ∧ (gridB.set 1 1 EXPLORED) 1 (1 + 1) = GROUND) := by
      decide
    simp only [dir_vec, ucsDirs, add_zero]
    rw [if_neg e1, if_neg e2, if_neg e3, if_neg e4]
  simp only [ucsLoop, topIndex_single, List.getD_cons_zero, List.eraseIdx_cons_zero, h1, h2,
    h3, h4, if_false, if_true]

/-- C21 (fails on the code): on the 5 x 5 array with Begin at (1, 3) and End at (3, 3), under the
Manhattan and the two-norm policy, `solveMazeUCS` runs its loop from a queue whose one node is
the cell (1, 1), that is `(BEGIN_Y, BEGIN_Y)`, not Begin. On the grid `gridB`, where End is
reached from Begin through Ground cells, (1, 1) is the cell expanded, Begin is never expanded
and End is not found: the call returns the grid with (1, 1) Explored and nothing else changed,
whichever node of least priority the queue yields and whatever the fuel. -/
theorem ucs_starts_off_begin :
    (cfg13.BEGIN_Y, cfg13.BEGIN_X) = (1, 3) ∧ (cfg13.END_Y, cfg13.END_X) = (3, 3) ∧
    groundReach cfg13 gridB (cfg13.BEGIN_Y, cfg13.BEGIN_X) (cfg13.END_Y, cfg13.END_X) ∧
    (∀ (tie : Nat → Nat) (fuel : Nat),
      solveMazeUCS cfg13 MazeAction.S_UCS_MANHATTAN tie fuel gridB =
        ucsLoop cfg13 MazeAction.S_UCS_MANHATTAN tie fuel gridB [⟨2, 1, 1⟩] 2 0 ∧
      solveMazeUCS cfg13 MazeAction.S_UCS_TWO_NORM tie fuel gridB =
        ucsLoop cfg13 MazeAction.S_UCS_TWO_NORM tie fuel gridB [⟨4, 1, 1⟩] 4 0) ∧
    (∀ (tie : Nat → Nat) (fuel : Nat),
      solveMazeUCS cfg13 MazeAction.S_UCS_MANHATTAN tie (fuel + 1) gridB =
        some (gridB.set 1 1 EXPLORED) ∧
      solveMazeUCS cfg13 MazeAction.S_UCS_TWO_NORM tie (fuel + 1) gridB =
        some (gridB.set 1 1 EXPLORED)) ∧
    (gridB.set 1 1 EXPLORED) cfg13.BEGIN_Y cfg13.BEGIN_X = GROUND ∧
    (gridB.set 1 1 EXPLORED) cfg13.END_Y cfg13.END_X = GROUND :=
  ⟨rfl, rfl, gridB_reach, fun _ _ => ⟨rfl, rfl⟩,
    fun tie fuel => ⟨ucs_gridB tie fuel _ 2, ucs_gridB tie fuel _ 4⟩, by decide, by decide⟩

/-! ## The cost and priority of the nodes of A* (C22) -/

theorem astarCostWeight_eq (c : Config) (actions : MazeAction) (temp : AStarNode)
    (cost weight y x : Int) :
    astarCostWeight c actions temp cost weight y x =
      if actions = MazeAction.S_ASTAR_INTERVAL then
        (50, 50 + |c.END_X - x| + |c.END_Y - y|)
      else (cost, weight) := by
  unfold astarCostWeight
  simp only [abs_eq_abs]
  split_ifs <;> rfl

theorem astarStart_eq (c : Config) (actions : MazeAction) :
    astarStart c actions =
      if actions = MazeAction.S_ASTAR_INTERVAL then
        (50, 50 + |c.END_X - c.BEGIN_X| + |c.END_Y - c.BEGIN_Y|)
      else (0, 0) := by
  unfold astarStart
  simp only [abs_eq_abs]
  split_ifs <;> rfl

theorem astarDirs_asStated (c : Config) (actions : MazeAction) (g : Grid) (temp : AStarNode) :
    ∀ (ds : List (Int × Int)) (s : List AStarNode × Int × Int),
      (∀ n ∈ s.1, astarNodeAsStated c actions n) →
      (actions ≠ MazeAction.S_ASTAR_INTERVAL → s.2 = (0, 0)) →
      (∀ n ∈ (astarDirs c actions g temp ds s).1, astarNodeAsStated c actions n) ∧
      (actions ≠ MazeAction.S_ASTAR_INTERVAL → (astarDirs c actions g temp ds s).2 = (0, 0)) := by
  intro ds
  induction ds with
  | nil => intro s h1 h2; exact ⟨h1, h2⟩
  | cons d ds ih =>
    intro s h1 h2
    simp only [astarDirs]
    split_ifs with h3
    · apply ih
      · intro n hn
        rcases List.mem_append.mp hn with h4 | h4
        · exact h1 n h4
        · rw [List.mem_singleton.mp h4, astarCostWeight_eq]
          refine ⟨fun ha => ?_, fun ha => ?_⟩
          · rw [if_pos ha]; exact ⟨rfl, rfl⟩
          · rw [if_neg ha]
            have h5 := h2 ha
            exact ⟨congrArg Prod.fst h5, congrArg Prod.snd h5⟩
      · intro ha
        rw [astarCostWeight_eq, if_neg ha]
        exact h2 ha
    · exact ih s h1 h2

theorem astarRounds_asStated (c : Config) (actions : MazeAction) (tie : Nat → Nat) (g0 : Grid) :
    ∀ (k : Nat) (g : Grid) (q : List AStarNode) (cw : Int × Int),
      astarRounds c actions tie g0 k = some (g, q, cw) →
      (∀ n ∈ q, astarNodeAsStated c actions n) ∧
      (actions ≠ MazeAction.S_ASTAR_INTERVAL → cw = (0, 0)) := by
  intro k
  induction k with
  | zero =>
    intro g q cw h
    simp only [astarRounds, Option.some.injEq, Prod.mk.injEq] at h
    obtain ⟨_, h2, h3⟩ := h
    rw [← h2, ← h3, astarStart_eq]
    refine ⟨fun n hn => ?_, fun ha => by rw [if_neg ha]⟩
    rw [List.mem_singleton.mp hn]
    refine ⟨fun ha => ?_, fun ha => ?_⟩
    · rw [if_pos ha]; exact ⟨rfl, rfl⟩
    · rw [if_neg ha]; exact ⟨rfl, rfl⟩
  | succ k ih =>
    intro g q cw h
    simp only [astarRounds] at h
    split at h
    · next g' n ns cw' hk =>
      obtain ⟨h1, h2⟩ := ih _ _ _ hk
      have hres : ∀ a ∈ (n :: ns).eraseIdx (topIndex AStarNode.__Weight (n :: ns) (tie k)),
          astarNodeAsStated c actions a := fun a ha => h1 a (List.mem_of_mem_eraseIdx ha)
      split_ifs at h with h3 h4
      · simp only [Option.some.injEq, Prod.mk.injEq] at h
        obtain ⟨_, h5, h6⟩ := h
        rw [← h5, ← h6]
        exact astarDirs_asStated c actions _ _ dir_vec _ hres h2
      · simp only [Option.some.injEq, Prod.mk.injEq] at h
        obtain ⟨_, h5, h6⟩ := h
        rw [← h5, ← h6]
        exact ⟨hres, h2⟩
    · exact absurd h (by simp)

/-- The states of `astarRounds` are the states that `solveMazeAStar` passes through. -/
theorem astarRounds_run (c : Config) (actions : MazeAction) (tie : Nat → Nat) (g0 : Grid) :
    ∀ (k : Nat) (g : Grid) (q : List AStarNode) (cw : Int × Int),
      astarRounds c actions tie g0 k = some (g, q, cw) →
      ∀ fuel, solveMazeAStar c actions tie (k + fuel) g0 =
        astarLoop c actions tie fuel g q cw k := by
  intro k
  induction k with
  | zero =>
    intro g q cw h fuel
    simp only [astarRounds, Option.some.injEq, Prod.mk.injEq] at h
    obtain ⟨h1, h2, h3⟩ := h
    rw [← h1, ← h2, ← h3, Nat.zero_add]
    rfl
  | succ k ih =>
    intro g q cw h fuel
    simp only [astarRounds] at h
    split at h
    · next g' n ns cw' hk =>
      have h0 := ih _ _ _ hk (fuel + 1)
      rw [show k + 1 + fuel = k + (fuel + 1) by omega, h0]
      simp only [astarLoop]
      split_ifs at h with h3 h4
      · simp only [Option.some.injEq, Prod.mk.injEq] at h
        obtain ⟨h5, h6, h7⟩ := h
        rw [if_neg h3, if_pos h4, ← h5, ← h6, ← h7]
      · simp only [Option.some.injEq, Prod.mk.injEq] at h
        obtain ⟨h5, h6, h7⟩ := h
        rw [if_neg h3, if_neg h4, ← h5, ← h6, ← h7]
    · exact absurd h (by simp)

/-- C22: for every selector value, the `if / else if` of `solveMazeAStar` never takes its
second branch: it yields cost 50 and priority 50 plus the Manhattan distance to End under
`S_ASTAR_INTERVAL`, and leaves the locals as they are under any other selector. In every state
that a run of `solveMazeAStar` passes through, every node of the queue (the first node and
every node pushed since) has cost 50 and priority `50 + |END_X - x| + |END_Y - y|` under
`S_ASTAR_INTERVAL`, and cost 0 and priority 0 under any other selector. -/
theorem astar_interval_pairing_unused (c : Config) (actions : MazeAction) (tie : Nat → Nat)
    (g0 : Grid) :
    (∀ (temp : AStarNode) (cost weight y x : Int),
      astarCostWeight c actions temp cost weight y x =
        if actions = MazeAction.S_ASTAR_INTERVAL then
          (50, 50 + |c.END_X - x| + |c.END_Y - y|)
        else (cost, weight)) ∧
    (∀ (k : Nat) (g : Grid) (q : List AStarNode) (cw : Int × Int),
      astarRounds c actions tie g0 k = some (g, q, cw) →
      (∀ fuel, solveMazeAStar c actions tie (k + fuel) g0 =
        astarLoop c actions tie fuel g q cw k) ∧
      ∀ n ∈ q,
        (actions = MazeAction.S_ASTAR_INTERVAL →
          n.__Cost = 50 ∧ n.__Weight = 50 + |c.END_X - n.x| + |c.END_Y - n.y|) ∧
        (actions ≠ MazeAction.S_ASTAR_INTERVAL → n.__Cost = 0 ∧ n.__Weight = 0)) :=
  ⟨astarCostWeight_eq c actions, fun k g q cw h =>
    ⟨astarRounds_run c actions tie g0 k g q cw h,
      (astarRounds_asStated c actions tie g0 k g q cw h).1⟩⟩

theorem astar_interval_pairing_unused_witness :
    (astarRounds cfg5 MazeAction.S_ASTAR_INTERVAL rndZero gridL 1).map (fun s => s.2.1) =
      some [⟨50, 53, 2, 1⟩, ⟨50, 53, 1, 2⟩] ∧
    ∀ n ∈ ((astarRounds cfg5 MazeAction.S_ASTAR_INTERVAL rndZero gridL 1).get (by decide)).2.1,
      (MazeAction.S_ASTAR_INTERVAL = MazeAction.S_ASTAR_INTERVAL →
        n.__Cost = 50 ∧ n.__Weight = 50 + |cfg5.END_X - n.x| + |cfg5.END_Y - n.y|) ∧
      (MazeAction.S_ASTAR_INTERVAL ≠ MazeAction.S_ASTAR_INTERVAL →
        n.__Cost = 0 ∧ n.__Weight = 0) :=
  ⟨by decide,
   ((astar_interval_pairing_unused cfg5 MazeAction.S_ASTAR_INTERVAL rndZero gridL).2 1
      ((astarRounds cfg5 MazeAction.S_ASTAR_INTERVAL rndZero gridL 1).get (by decide)).1
      ((astarRounds cfg5 MazeAction.S_ASTAR_INTERVAL rndZero gridL 1).get (by decide)).2.1
      ((astarRounds cfg5 MazeAction.S_ASTAR_INTERVAL rndZero gridL 1).get (by decide)).2.2
      (Option.some_get (by decide)).symm).2⟩

/-! ## Greedy and A* on a grid whose Begin cell is not Ground (C23) -/

/-- C23: on every grid whose Begin cell does not hold Ground, Begin and End being distinct
coordinates, `solveMazeGreedy` and `solveMazeAStar` return the grid as it was, for every
selector and as soon as the fuel allows one pop: the one node of the queue, Begin, is popped,
it is neither End nor Ground, nothing is pushed, and the queue is empty at the head of the
second round. -/
theorem greedy_astar_unchanged (c : Config) (g : Grid) (actions : MazeAction)
    (tie : Nat → Nat) (fuel : Nat) (hB : g c.BEGIN_Y c.BEGIN_X ≠ GROUND)
    (hne : ¬ (c.BEGIN_Y = c.END_Y ∧ c.BEGIN_X = c.END_X)) :
    solveMazeGreedy c tie (fuel + 1) g = some g ∧
    solveMazeAStar c actions tie (fuel + 1) g = some g ∧
    astarRounds c actions tie g 1 = some (g, [], astarStart c actions) := by
  refine ⟨?_, ?_, ?_⟩
  · simp only [solveMazeGreedy, greedyLoop, topIndex_single, List.getD_cons_zero,
      List.eraseIdx_cons_zero, if_neg hne, if_neg hB]
  · simp only [solveMazeAStar, astarLoop, topIndex_single, List.getD_cons_zero,
      List.eraseIdx_cons_zero, if_neg hne, if_neg hB]
  · simp only [astarRounds, topIndex_single, List.getD_cons_zero,
      List.eraseIdx_cons_zero, if_neg hne, if_neg hB]

theorem greedy_astar_unchanged_witness :
    solveMazeGreedy cfg34 rndZero (0 + 1) stamped34 = some stamped34 ∧
    solveMazeAStar cfg34 MazeAction.S_ASTAR_INTERVAL rndZero (0 + 1) stamped34 =
      some stamped34 ∧
    astarRounds cfg34 MazeAction.S_ASTAR_INTERVAL rndZero stamped34 1 =
      some (stamped34, [], astarStart cfg34 MazeAction.S_ASTAR_INTERVAL) :=
  greedy_astar_unchanged cfg34 stamped34 MazeAction.S_ASTAR_INTERVAL rndZero 0 (by decide)
    (by decide)

end Maze
